import Mathlib

/-!
# Installer.c: install pipeline, shallow embedding

The development embeds the non-GUI functions of `src/Installer.c` as pure
functions and proves properties of the install pipeline.

Modelling conventions.

* A C wide string is the list of its characters before the terminator
  (`WStr`).  Reading index `wcslen s` yields the terminator.
* Every path is assumed to fit its `MAX_PATH` buffer, so `wcscpy_s` is a copy
  and `wcscat_s` is an append; `malloc` is assumed to succeed.
* `DEBUG` is `static BOOL DEBUG = FALSE` and is never assigned, so the
  branches guarded by `DEBUG == TRUE` are dead and are left out.
* Calls into the operating system and into libzip are answered by explicit
  environment values (one per call site); what a function does to the outside
  world is recorded as a list of `Event`s in program order.
* For `CreateDirectories` the filesystem is the set of the directories that
  exist, each under its path written with backslashes; `_wmkdir` and
  `_wrename` are answered by whether `SUCCEEDED` holds of their result.
* The scan loop of `CreateDirectories` is also given on the buffer itself
  (`CreateDirectories.scan`, with a bound on the number of loop tests), and
  shown to end with the result of the functional model.
* The progress value of `CopyFileWithProgress` is computed in `double`; the
  type is modelled as IEEE 754 binary64 over the naturals (a mantissa and a
  binary exponent, each result rounded to nearest, ties to even).
-/

namespace Installer

/-! ## Wide strings -/

/-- Wide string: the characters before the terminator. -/
abbrev WStr := List Char

/-- Wide string constant, as in the C source text. -/
def L (s : String) : WStr := s.toList

/-- The terminator. -/
def NUL : Char := Char.ofNat 0

/-- The element read by the C expression s[i], for i up to the length. -/
def wcharAt (s : WStr) (i : Nat) : Char := s.getD i NUL

/-- Length up to the terminator. -/
def wcslen (s : WStr) : Nat := s.length

/-- Character classification and case mapping of the C runtime.  The program
calls `setlocale(LC_ALL, "")`, so the tables depend on the user's locale; the
terminator is a lower-case letter in no locale, and the space is an upper-case
letter in none. -/
structure Locale where
  iswupper : Char → Bool
  iswlower : Char → Bool
  towlower : Char → Char
  lower_NUL : iswlower NUL = false
  upper_space : iswupper ' ' = false

/-- The "C" locale: ASCII letters only. -/
def cLocale : Locale where
  iswupper := Char.isUpper
  iswlower := Char.isLower
  towlower := Char.toLower
  lower_NUL := by decide
  upper_space := by decide

/-! ## AddSpaces (Installer.c 157-190) -/

/-- First pass of `AddSpaces`: `for (i = 1; i < len - 1; ++i)` counting into
`newLen` (here for `len >= 1`, where `len - 1` does not wrap). -/
def AddSpaces.firstPass (loc : Locale) (appName : WStr) (len : Nat) : Nat :=
  (List.range' 1 (len - 1 - 1)).foldl
    (fun newLen i =>
      if loc.iswlower (wcharAt appName (i + 1)) && loc.iswupper (wcharAt appName i)
      then newLen + 1 else newLen)
    len

/-- Second pass of `AddSpaces`: `for (i = 0; i < len; ++i)`, where
`newName[j++] = c` appends `c` to the characters written so far. -/
def AddSpaces.secondPass (loc : Locale) (appName : WStr) (len : Nat) : WStr :=
  (List.range len).foldl
    (fun newName i =>
      let newName :=
        if decide (i > 0) && decide (i < len) && loc.iswupper (wcharAt appName i) &&
            loc.iswlower (wcharAt appName (i + 1))
        then newName ++ [' '] else newName
      newName ++ [wcharAt appName i])
    []

/-- Model of `AddSpaces`.  The result is `none` where the C code has no
defined result: for the empty string the unsigned bound `len - 1` of the first
loop wraps to `SIZE_MAX` and the loop reads past the terminator; and if the
second pass wrote more than the `newLen + 1` allocated elements. -/
def AddSpaces (loc : Locale) (appName : WStr) : Option WStr :=
  let len := wcslen appName
  if len = 0 then none
  else
    let newLen := AddSpaces.firstPass loc appName len
    let newName := AddSpaces.secondPass loc appName len
    if newName.length + 1 ≤ newLen + 1 then some newName else none

/-- The display-name transform as the specification words it: a space goes
before each upper-case letter that is not the first character and is
immediately followed by a lower-case letter.  `spaceWords` treats the
characters after the first. -/
def spaceWords (loc : Locale) : WStr → WStr
  | [] => []
  | [c] => [c]
  | c :: d :: rest =>
    if loc.iswupper c && loc.iswlower d then ' ' :: c :: spaceWords loc (d :: rest)
    else c :: spaceWords loc (d :: rest)

/-- The display-name transform of the specification. -/
def displayName (loc : Locale) : WStr → WStr
  | [] => []
  | c :: rest => c :: spaceWords loc rest

/-- Number of capitalized word boundaries among the characters after the
first. -/
def wordBoundaries (loc : Locale) : WStr → Nat
  | [] => 0
  | [_] => 0
  | c :: d :: rest =>
    (if loc.iswupper c && loc.iswlower d then 1 else 0) + wordBoundaries loc (d :: rest)

/-- Whether a string holds two consecutive space characters. -/
def twoSpaces : WStr → Bool
  | a :: b :: rest => (a == ' ' && b == ' ') || twoSpaces (b :: rest)
  | _ => false

/-- Whether a string holds a space immediately before an upper-case letter
that is itself followed by a lower-case letter. -/
def spaceBeforeBoundary (loc : Locale) : WStr → Bool
  | a :: b :: c :: rest =>
    (a == ' ' && loc.iswupper b && loc.iswlower c) || spaceBeforeBoundary loc (b :: c :: rest)
  | _ => false

/-! ## DirDepth (Installer.c 195-204) -/

/-- Model of `DirDepth`: each `wcsstr(ptr, L"\\")` hit is one backslash, and
the search resumes one character later. -/
def DirDepth : WStr → Nat
  | [] => 0
  | c :: rest => if c = '\\' then DirDepth rest + 1 else DirDepth rest

/-! ## Events and small helpers -/

/-- Model of `wcscat_s` for a destination that is large enough. -/
def wcscat_s (dst src : WStr) : WStr := dst ++ src

/-- Model of `StringCchPrintf(buf, cch, ...)`: the formatted text, truncated to
`cch - 1` characters. -/
def StringCchPrintf (cch : Nat) (text : WStr) : WStr := text.take (cch - 1)

/-- The value a `DWORD` return takes for the C `return -1` and friends. -/
def DWORD_of_int (i : Int) : Nat := (i % 2 ^ 32).toNat

/-- The value of a `DWORD` once assigned to an `int` variable. -/
def int_of_DWORD (d : Nat) : Int :=
  if d % 2 ^ 32 < 2 ^ 31 then (d % 2 ^ 32 : Nat) else (d % 2 ^ 32 : Nat) - 2 ^ 32

/-- What a function does to the outside world, in program order: the calls it
makes (with the value the call returned where the caller uses it) and the
messages it sends to the list view.  `zip_open` stands for a call that
returned an archive handle. -/
inductive Event where
  | AddMessage (textType text : WStr)
  | DeleteFile (path : WStr)
  | RemoveDirectory (path : WStr)
  | DeleteDirectory (path : WStr)
  | FindShortcut (shortcutName : WStr)
  | CreateShortcut (exePath cwdPath shortcutPath description : WStr)
  | UpdateInstaller (appdata : WStr) (ret : Int)
  | GetNewestFileInDir (dirLoc fileExtension : WStr) (ret : Option WStr)
  | CopyFileWithProgress (src dst : WStr) (ret : Int)
  | CheckIfRunning (zipPath : WStr) (ret : Int)
  | UninstallApplication (appName folderName : WStr)
  | ExtractZip (zipfile outdir : WStr) (ret : Int)
  | RegisterApp (executablePath folderPath appName : WStr) (ret : Int)
  | CreateDirectories (path : WStr)
  | WriteFile (path : WStr) (bytes : List Nat)
  | zip_open (path : WStr)
  | zip_close (path : WStr)
  | wmkdir (path : WStr) (ok : Bool)
  | wrename (oldname newname : WStr) (ok : Bool)
deriving DecidableEq, Repr

/-! ## DeleteDirectoryContents, DeleteDirectory (Installer.c 290-349) -/

/-- A node of the directory tree under the path handed to `DeleteDirectory`.
`deletable` says whether `DeleteFile` succeeds on the file, `listable` whether
`FindFirstFile` can open the directory, `removable` whether `RemoveDirectory`
succeeds on it once it is empty (it never succeeds on a directory that still
has entries). -/
inductive FsNode where
  | file (name : WStr) (deletable : Bool) : FsNode
  | dir (name : WStr) (listable removable : Bool) (children : List FsNode) : FsNode
deriving Repr

/-- The name of an entry, as `cFileName` reports it. -/
def FsNode.name : FsNode → WStr
  | .file name _ => name
  | .dir name _ _ _ => name

/-- The guard applied to the full path of an entry before it is deleted. -/
def deleteGuard (filePath : WStr) : Bool :=
  decide (wcslen filePath > 20) && decide (DirDepth filePath > 2)

mutual
/-- One turn of the do-while loop of `DeleteDirectoryContents(path)` on the
entry `n`: what is left of the entry, the events, and whether the function
returned from inside the loop (refusal). -/
def DeleteDirectoryContents.entry (path : WStr) : FsNode → Option FsNode × List Event × Bool
  | .file name deletable =>
    if name = L "." ∨ name = L ".." then (some (.file name deletable), [], false)
    else
      let filePath := path ++ L "\\" ++ name
      if deleteGuard filePath then
        ((if deletable then none else some (.file name deletable)),
          [Event.DeleteFile filePath], false)
      else
        (some (.file name deletable),
          [Event.AddMessage (L "ERROR")
            (L "Please report: Aborting attempt to delete file " ++ filePath)], true)
  | .dir name listable removable children =>
    if name = L "." ∨ name = L ".." then
      (some (.dir name listable removable children), [], false)
    else
      let filePath := path ++ L "\\" ++ name
      if deleteGuard filePath then
        -- DeleteDirectoryContents(filePath); RemoveDirectory(filePath);
        let inner : List FsNode × List Event :=
          if listable then DeleteDirectoryContents.loop filePath children
          else (children,
            [Event.AddMessage (L "Error") (L "Unable to open directory " ++ filePath)])
        ((if inner.1.isEmpty && removable then none
          else some (.dir name listable removable inner.1)),
          inner.2 ++ [Event.RemoveDirectory filePath], false)
      else
        (some (.dir name listable removable children),
          [Event.AddMessage (L "ERROR")
            (L "Please report: Aborting attempt to delete from " ++ filePath)], true)
/-- The do-while loop of `DeleteDirectoryContents(path)` over the entries that
`FindFirstFile`/`FindNextFile` report for `path\*`, in enumeration order: the
entries left in the directory and the events. -/
def DeleteDirectoryContents.loop (path : WStr) : List FsNode → List FsNode × List Event
  | [] => ([], [])
  | n :: rest =>
    let r := DeleteDirectoryContents.entry path n
    if r.2.2 then (r.1.toList ++ rest, r.2.1)
    else
      let rs := DeleteDirectoryContents.loop path rest
      (r.1.toList ++ rs.1, r.2.1 ++ rs.2)
end

/-- Model of `DeleteDirectoryContents(path)` where `target` is what `path`
names in the filesystem (`none`: nothing). -/
def DeleteDirectoryContents (path : WStr) (target : Option FsNode) :
    Option FsNode × List Event :=
  match target with
  | some (.dir name true removable children) =>
    let r := DeleteDirectoryContents.loop path children
    (some (.dir name true removable r.1), r.2)
  | _ => (target, [Event.AddMessage (L "Error") (L "Unable to open directory " ++ path)])

/-- Model of `RemoveDirectory(path)` on what `path` names. -/
def RemoveDirectory (target : Option FsNode) : Option FsNode :=
  match target with
  | some (.dir name listable removable children) =>
    if children.isEmpty && removable then none
    else some (.dir name listable removable children)
  | t => t

/-- Model of `DeleteDirectory(path)`: what `path` names afterwards, and the
events. -/
def DeleteDirectory (path : WStr) (target : Option FsNode) : Option FsNode × List Event :=
  let r := DeleteDirectoryContents path target
  (RemoveDirectory r.1, r.2 ++ [Event.RemoveDirectory path])

mutual
/-- The sequence of deletions the specification asks of `deleteTree` for one
entry under `path`: depth-first, the entries of a directory before the
directory itself. -/
def deleteOrder.entry (path : WStr) : FsNode → List Event
  | .file name _ => [Event.DeleteFile (path ++ L "\\" ++ name)]
  | .dir name _ _ children =>
    deleteOrder (path ++ L "\\" ++ name) children ++
      [Event.RemoveDirectory (path ++ L "\\" ++ name)]
/-- The sequence of deletions the specification asks of `deleteTree` for the
entries of `path`, in enumeration order. -/
def deleteOrder (path : WStr) : List FsNode → List Event
  | [] => []
  | n :: rest => deleteOrder.entry path n ++ deleteOrder path rest
end

mutual
/-- A tree entry as a directory listing can hold it and on which every
individual delete succeeds: it is not named `.` or `..`, a file can be deleted,
a directory can be listed and removed, and the same holds beneath it. -/
def FsNode.deletes : FsNode → Bool
  | .file name deletable => deletable && name != L "." && name != L ".."
  | .dir name listable removable children =>
    listable && removable && name != L "." && name != L ".." && FsNode.deletesAll children
/-- Every entry of the list satisfies `FsNode.deletes`. -/
def FsNode.deletesAll : List FsNode → Bool
  | [] => true
  | n :: rest => FsNode.deletes n && FsNode.deletesAll rest
end

/-- The refusal message of `DeleteDirectoryContents`. -/
def isRefusal : Event → Bool
  | .AddMessage textType text =>
    textType = L "ERROR" && (L "Please report: Aborting attempt to delete").isPrefixOf text
  | _ => false

/-! ## GetNewestFileInDir (Installer.c 540-591) -/

/-- The fields of `WIN32_FIND_DATA` the program reads.  `ftLastWriteTime` is
the 64-bit `FILETIME` value. -/
structure FindData where
  cFileName : WStr
  isDirectory : Bool
  ftLastWriteTime : Nat
deriving DecidableEq, Repr

/-- Model of `CompareFileTime`. -/
def CompareFileTime (a b : Nat) : Int :=
  if a < b then -1 else if a = b then 0 else 1

/-- One turn of the do-while loop of `GetNewestFileInDir` on the pair
(`latestTime`, `latestFile`). -/
def GetNewestFileInDir.step (latest : Nat × WStr) (findFileData : FindData) : Nat × WStr :=
  if !findFileData.isDirectory then
    if CompareFileTime findFileData.ftLastWriteTime latest.1 > 0 then
      (findFileData.ftLastWriteTime, findFileData.cFileName)
    else latest
  else latest

/-- Model of `GetNewestFileInDir`.  `findFiles searchLoc` is the sequence of
entries `FindFirstFile`/`FindNextFile` report for the pattern `searchLoc`, in
enumeration order; it is empty when `FindFirstFile` fails (no match, or no such
directory).  The result is `none` for `NULL`. -/
def GetNewestFileInDir (findFiles : WStr → List FindData) (dirLoc fileExtension : WStr) :
    Option WStr :=
  let searchLoc := wcscat_s dirLoc fileExtension
  match findFiles searchLoc with
  | [] => none
  | first :: more =>
    let latest := (first :: more).foldl GetNewestFileInDir.step (0, [])
    some (wcscat_s (wcscat_s dirLoc (L "\\")) latest.2)

/-! ## FindShortcut, UninstallApplication (Installer.c 478-536, 858-892) -/

/-- Answers of the shell to one `FindShortcut` call: the Programs folder of
`SHGetFolderPath` (`none`: the call failed), and, when the link could be loaded
and its target read, the target with its file name removed by
`PathRemoveFileSpec`. -/
structure ShortcutEnv where
  startMenuPath : Option WStr
  resolvedDir : Option WStr

/-- Model of `FindShortcut`: `some (targetDir, shortcutPath)` for `TRUE`. -/
def FindShortcut (env : ShortcutEnv) (shortcutName : WStr) : Option (WStr × WStr) :=
  match env.startMenuPath with
  | none => none
  | some startMenuPath =>
    let searchPath := startMenuPath ++ L "\\" ++ shortcutName ++ L ".lnk"
    match env.resolvedDir with
    | some resolvedPath => some (resolvedPath, searchPath)
    | none => none

/-- Environment of one `UninstallApplication` call. -/
structure UninstallEnv where
  shortcut : ShortcutEnv
  DirectoryExists : WStr → Bool

/-- Model of `UninstallApplication`: its events, or `none` when `AddSpaces`
has no defined result. -/
def UninstallApplication (loc : Locale) (env : UninstallEnv) (appName folderName : WStr) :
    Option (List Event) :=
  match AddSpaces loc appName with
  | none => none
  | some spaced =>
    let shortcutName := wcscat_s (wcscat_s folderName (L "\\")) spaced
    some (Event.FindShortcut shortcutName ::
      (match FindShortcut env.shortcut shortcutName with
        | some (targetDir, shortcutPath) =>
          let isDir := env.DirectoryExists targetDir
          (if decide (wcslen targetDir > 20) && isDir then
            [Event.AddMessage (L "INFO") (L "Deleting existing version..."),
             Event.DeleteDirectory targetDir]
           else []) ++ [Event.DeleteFile shortcutPath]
        | none => []))

/-! ## CreateShortcut, RegisterApp (Installer.c 765-854) -/

/-- Answers of the shell to one `RegisterApp` call: the Programs folder of
`SHGetSpecialFolderPath` (`none`: the call failed) and whether each step of
`CreateShortcut` succeeds. -/
structure RegisterEnv where
  programs : Option WStr
  CoInitialize : Bool
  CoCreateInstance : Bool
  QueryInterface : Bool
  Save : Bool

/-- Model of `CreateShortcut`: `SUCCEEDED(hres)` of the returned value, which is
the result of the last step that ran. -/
def CreateShortcut (env : RegisterEnv) : Bool :=
  if env.CoInitialize then
    if env.CoCreateInstance then
      if env.QueryInterface then env.Save else false
    else false
  else false

/-- Model of `RegisterApp`: the return value and the events, or `none` when
`AddSpaces` has no defined result. -/
def RegisterApp (loc : Locale) (env : RegisterEnv)
    (executablePath_orig folderPath appName : WStr) : Option (Int × List Event) :=
  match AddSpaces loc appName with
  | none => none
  | some shortcutName =>
    let executablePath := executablePath_orig
    let info := Event.AddMessage (L "INFO") (L "Creating shortcut")
    match env.programs with
    | some programs =>
      let shortcutPath :=
        wcscat_s (wcscat_s (wcscat_s programs (L "\\MyApps\\")) shortcutName) (L ".lnk")
      let call := Event.CreateShortcut executablePath folderPath shortcutPath shortcutName
      if !CreateShortcut env then
        some (-1, [info, call, Event.AddMessage (L "ERROR") (L "Failed to create shortcut")])
      else some (0, [info, call])
    | none =>
      some (-1, [info, Event.AddMessage (L "ERROR") (L "Failed to get the program directory")])

/-- The value `RegisterApp` returns, read off its three `return` statements:
it depends on the shell's answers only. -/
def RegisterApp.retval (env : RegisterEnv) : Int :=
  match env.programs with
  | some _ => if !CreateShortcut env then -1 else 0
  | none => -1

/-! ## IsProcessRunning, CheckIfRunning (Installer.c 374-439) -/

/-- Model of `_wcsicmp(a, b) == 0`. -/
def wcsicmp_eq (loc : Locale) (a b : WStr) : Bool :=
  a.map loc.towlower == b.map loc.towlower

/-- Model of `IsProcessRunning`.  `processes` holds the `szExeFile` names of the
snapshot, `none` when `CreateToolhelp32Snapshot` fails. -/
def IsProcessRunning (loc : Locale) (processes : Option (List WStr)) (processName : WStr) :
    Int :=
  match processes with
  | none => 0
  | some ps => if ps.any (fun szExeFile => wcsicmp_eq loc szExeFile processName) then 1 else 0

/-- One entry of an archive: its name (`none` when `zip_get_name` gives
`NULL`), whether `zip_stat_index` succeeds, its content (`none` when
`zip_fopen_index` gives `NULL`), and whether the output file for it can be
created. -/
structure ZipEntry where
  name : Option WStr
  statOk : Bool
  content : Option (List Nat)
  outputOpens : Bool
deriving DecidableEq, Repr

/-- Environment of one `CheckIfRunning` call: the entries of the archive
(`none` when `zip_open` fails) and the process snapshot. -/
structure CheckEnv where
  archive : Option (List ZipEntry)
  processes : Option (List WStr)

/-- Model of `strchr(name, '.')`: the rest of the name from its first dot on,
`none` when there is no dot. -/
def strchr_dot (name : WStr) : Option WStr :=
  match name.dropWhile (fun c => c != '.') with
  | [] => none
  | ext => some ext

/-- The for loop of `CheckIfRunning` over the archive entries. -/
def CheckIfRunning.loop (loc : Locale) (processes : Option (List WStr)) : List ZipEntry → Int
  | [] => -1
  | e :: rest =>
    match e.name with
    | none => CheckIfRunning.loop loc processes rest
    | some name =>
      match strchr_dot name with
      | none => CheckIfRunning.loop loc processes rest
      | some ext =>
        if ext = L ".exe" then
          if IsProcessRunning loc processes name != 0 then 1 else 0
        else CheckIfRunning.loop loc processes rest

/-- Model of `CheckIfRunning`: the return value and the archive-handle events.
No path of the function calls `zip_close`. -/
def CheckIfRunning (loc : Locale) (env : CheckEnv) (zipPath : WStr) : Int × List Event :=
  match env.archive with
  | none => (-1, [])
  | some entries => (CheckIfRunning.loop loc env.processes entries, [Event.zip_open zipPath])

/-! ## CopyFileWithProgress (Installer.c 595-666) -/

/-- Environment of one `CopyFileWithProgress` call: the bytes of the source
(`none` when it cannot be opened for reading), whether the destination can be
created, and the byte counts the successive `fread` calls would deliver. -/
structure CopyEnv where
  source : Option (List Nat)
  destinationOpens : Bool
  reads : List Nat

/-- Model of `ftell` at the end of a file of the given size: `long` has 32
bits, and a position that does not fit is reported as -1. -/
def ftell (fileSize : Nat) : Int :=
  if fileSize < 2 ^ 31 then fileSize else -1

/-- The copy loop: `fread` into the 8192-byte buffer until it returns 0, each
chunk appended to the destination. -/
def CopyFileWithProgress.loop : List Nat → List Nat → List Nat → List Nat
  | [], _, written => written
  | r :: reads, remaining, written =>
    let bytesRead := min r (min 8192 remaining.length)
    if bytesRead > 0 then
      CopyFileWithProgress.loop reads (remaining.drop bytesRead)
        (written ++ remaining.take bytesRead)
    else written

/-- Result of `CopyFileWithProgress`: the `DWORD` returned, the messages, and
the content of the destination file if the call created it. -/
structure CopyResult where
  retval : Nat
  events : List Event
  destination : Option (List Nat)

/-- Model of `CopyFileWithProgress`. -/
def CopyFileWithProgress (env : CopyEnv) (src dst : WStr) : CopyResult :=
  match env.source with
  | none =>
    ⟨DWORD_of_int (-1), [Event.AddMessage (L "ERROR") (L "Cannot open source file")], none⟩
  | some bytes =>
    if !env.destinationOpens then
      ⟨DWORD_of_int (-1),
        [Event.AddMessage (L "ERROR") (wcscat_s (L "Cannot create destination file ") dst)],
        none⟩
    else
      let totalSize := ftell bytes.length
      if totalSize ≤ 0 then
        ⟨DWORD_of_int (-1),
          [Event.AddMessage (L "ERROR") (L "Source file is empty or unreadable")], some []⟩
      else
        ⟨0, [Event.AddMessage (L "INFO") (wcscat_s (L "Downloading zip file from server: ") src)],
          some (CopyFileWithProgress.loop env.reads bytes [])⟩

/-! ## The progress value of CopyFileWithProgress (Installer.c 640-648)

`double` is IEEE 754 binary64: every operation returns the exact result
rounded to the nearest value with 53 significant bits, ties going to the even
mantissa.  The values met here lie between 2^-31 and 128, far from overflow
and from the subnormal range. -/

/-- The integer nearest to `n / d`, ties going to the even one. -/
def roundNearestEven (n d : Nat) : Nat :=
  if 2 * (n % d) < d then n / d
  else if 2 * (n % d) = d then (if (n / d) % 2 = 0 then n / d else n / d + 1)
  else n / d + 1

/-- A non-negative value of type `double` below 2^53, written `mant / 2^exp`;
a rounded result has its mantissa between 2^52 and 2^53. -/
structure Double where
  mant : Nat
  exp : Nat
deriving DecidableEq, Repr

/-- The least `k`, searched upwards from the given one for `fuel` steps, with
`n * 2^k / d` at least 2^52: the scaling that gives 53 significant bits. -/
def Double.scale (n d : Nat) : Nat → Nat → Nat
  | 0, k => k
  | fuel + 1, k => if 2 ^ 52 * d ≤ n * 2 ^ k then k else Double.scale n d fuel (k + 1)

/-- The `double` nearest to the rational `n / d`, for `n / d` below 2^53 and
not below the least normal value (1074 covers every exponent of the type). -/
def Double.round (n d : Nat) : Double :=
  let k := Double.scale n d 1074 0
  ⟨roundNearestEven (n * 2 ^ k) d, k⟩

/-- The conversion `(double)n` of an integer below 2^53, which is exact. -/
def Double.ofNat (n : Nat) : Double := ⟨n, 0⟩

/-- The quotient `a / b` in `double`. -/
def Double.div (a b : Double) : Double :=
  Double.round (a.mant * 2 ^ b.exp) (b.mant * 2 ^ a.exp)

/-- The product `a * b` in `double`. -/
def Double.mul (a b : Double) : Double :=
  Double.round (a.mant * b.mant) (2 ^ (a.exp + b.exp))

/-- The conversion `(int)a`, which truncates. -/
def Double.toInt (a : Double) : Nat := a.mant / 2 ^ a.exp

/-- The order of the values of two `double`s. -/
def Double.le (a b : Double) : Prop := a.mant * 2 ^ b.exp ≤ b.mant * 2 ^ a.exp

/-- The value `(int)(((double)copiedSize / totalSize) * 100)`. -/
def CopyFileWithProgress.progress (copiedSize totalSize : Nat) : Nat :=
  Double.toInt (Double.mul (Double.div (Double.ofNat copiedSize) (Double.ofNat totalSize))
    (Double.ofNat 100))

/-- The positions that the copy loop sends to the progress bar with
`PBM_SETPOS`, one after each chunk; `remaining` is the number of bytes of the
source not read yet. -/
def CopyFileWithProgress.positions (totalSize : Nat) : List Nat → Nat → Nat → List Nat
  | [], _, _ => []
  | r :: reads, remaining, copiedSize =>
    let bytesRead := min r (min 8192 remaining)
    if bytesRead > 0 then
      let copiedSize := copiedSize + bytesRead
      CopyFileWithProgress.progress copiedSize totalSize ::
        CopyFileWithProgress.positions totalSize reads (remaining - bytesRead) copiedSize
    else []

/-- The positions that a `CopyFileWithProgress` call sends to the progress
bar: 0 before the loop, then one after each chunk; none when the call fails
before that. -/
def CopyFileWithProgress.sent (env : CopyEnv) : List Nat :=
  match env.source with
  | none => []
  | some bytes =>
    if !env.destinationOpens then []
    else
      let totalSize := ftell bytes.length
      if totalSize ≤ 0 then []
      else 0 :: CopyFileWithProgress.positions totalSize.toNat env.reads bytes.length 0

/-! ## ExtractZip (Installer.c 670-761) -/

/-- Environment of one `ExtractZip` call: the entries of the archive (`none`
when `zip_open` fails) and whether the archive file is still there when
`FileExists(zipfile)` is asked after the extraction. -/
structure ExtractEnv where
  archive : Option (List ZipEntry)
  zipFileExists : Bool

/-- One turn of the for loop of `ExtractZip` on an entry.  An entry name is
taken to be non-empty, as libzip reports it, so that `wname[wcslen(wname) - 1]`
is its last character. -/
def ExtractZip.entry (outdir : WStr) (e : ZipEntry) : List Event :=
  match e.name with
  | none => [Event.AddMessage (L "ERROR") (L "Failed to get name for entry")]
  | some wname =>
    if e.statOk then
      let outpath := outdir ++ L "/" ++ wname
      Event.CreateDirectories outpath ::
        (if wname.getLast? = some '/' then []
         else
          match e.content with
          | none => [Event.AddMessage (L "ERROR") (L "Failed to open file in ZIP")]
          | some bytes =>
            if e.outputOpens then [Event.WriteFile outpath bytes]
            else [Event.AddMessage (L "ERROR")
                    (wcscat_s (L "Failed to open output file ") outpath)])
    else [Event.AddMessage (L "ERROR") (L "Failed to get file information")]

/-- Result of `ExtractZip`: the `DWORD` returned and the events. -/
structure ExtractResult where
  retval : Nat
  events : List Event

/-- Model of `ExtractZip`. -/
def ExtractZip (env : ExtractEnv) (zipfile outdir : WStr) : ExtractResult :=
  let info := Event.AddMessage (L "INFO")
    (StringCchPrintf (260 + 30) (L "Extracting files from " ++ zipfile))
  match env.archive with
  | none => ⟨DWORD_of_int (-1), [info, Event.AddMessage (L "ERROR") (L "Failed to open ZIP file")]⟩
  | some entries =>
    ⟨0, [info, Event.zip_open zipfile] ++ (entries.map (ExtractZip.entry outdir)).flatten ++
        [Event.zip_close zipfile] ++
        (if env.zipFileExists then [Event.DeleteFile zipfile] else [])⟩

/-! ## CreateDirectories (Installer.c 237-286) -/

/-- The test `*currentPos == L'\\' || *currentPos == L'/'`. -/
def isSeparator (c : Char) : Bool := c == '\\' || c == '/'

/-- Windows takes `/` and `\` as the same separator; a directory is recorded
under its path written with backslashes. -/
def normalizePath (p : WStr) : WStr := p.map (fun c => if c = '/' then '\\' else c)

/-- Model of `DirectoryExists` over the set `dirs` of existing directories. -/
def DirectoryExists (dirs : List WStr) (szPath : WStr) : Bool :=
  dirs.contains (normalizePath szPath)

/-- The first loop of `CreateDirectories`: the position of the last separator,
`none` for `NULL`. -/
def CreateDirectories.lastSeparator : WStr → Nat → Option Nat → Option Nat
  | [], _, lastSeparator => lastSeparator
  | c :: rest, currentPos, lastSeparator =>
    CreateDirectories.lastSeparator rest (currentPos + 1)
      (if isSeparator c then some currentPos else lastSeparator)

/-- The directories that exist after a call, and the events of the call. -/
structure CreateResult where
  dirs : List WStr
  events : List Event

/-- The second loop of `CreateDirectories`.  `done` holds the characters of
`tempPath` before `currentPos` (the separators among them restored as
backslashes), the second argument those from `currentPos` on; `mkdirOk p` says
whether `_wmkdir(p)` succeeds.  At a separator the terminator written at
`currentPos` makes `tempPath` read as `done`; when `_wmkdir` fails the
`continue` leaves it there and the loop ends.  The result is `tempPath` as it
reads after the loop, with the directories and the events. -/
def CreateDirectories.loop (mkdirOk : WStr → Bool) : WStr → WStr → List WStr → WStr × CreateResult
  | done, [], dirs => (done, ⟨dirs, []⟩)
  | done, c :: rest, dirs =>
    if isSeparator c then
      if DirectoryExists dirs done then
        CreateDirectories.loop mkdirOk (done ++ ['\\']) rest dirs
      else if mkdirOk done then
        let r := CreateDirectories.loop mkdirOk (done ++ ['\\']) rest (normalizePath done :: dirs)
        (r.1, ⟨r.2.dirs, Event.wmkdir done true :: r.2.events⟩)
      else (done, ⟨dirs, [Event.wmkdir done false]⟩)
    else CreateDirectories.loop mkdirOk (done ++ [c]) rest dirs

/-- Model of `CreateDirectories(path)` on the set `dirs` of existing
directories. -/
def CreateDirectories (mkdirOk : WStr → Bool) (dirs : List WStr) (path : WStr) : CreateResult :=
  -- Remove the filename from the path
  let tempPath :=
    match CreateDirectories.lastSeparator path 0 none with
    | some lastSeparator => path.take lastSeparator
    | none => path
  -- Traverse the path and create directories
  let r := CreateDirectories.loop mkdirOk [] tempPath dirs
  let tempPath := r.1
  if DirectoryExists r.2.dirs tempPath then r.2
  else if mkdirOk tempPath then
    ⟨normalizePath tempPath :: r.2.dirs, r.2.events ++ [Event.wmkdir tempPath true]⟩
  else
    ⟨r.2.dirs, r.2.events ++
      [Event.wmkdir tempPath false,
       Event.AddMessage (L "ERROR") (L "Unable to create directory")]⟩

/-- The directories that exist after the events of an extraction, each
`CreateDirectories` call acting on what the calls before it left. -/
def runDirs (mkdirOk : WStr → Bool) : List Event → List WStr → List WStr
  | [], dirs => dirs
  | Event.CreateDirectories path :: rest, dirs =>
    runDirs mkdirOk rest (CreateDirectories mkdirOk dirs path).dirs
  | _ :: rest, dirs => runDirs mkdirOk rest dirs

/-- Every file write of the event list comes right after the
`CreateDirectories` call on the same path. -/
def writesPrepared (events : List Event) : Prop :=
  ∀ pre p bytes post, events = pre ++ Event.WriteFile p bytes :: post →
    ∃ before, pre = before ++ [Event.CreateDirectories p]

/-! ## ProcessInstall (Installer.c 996-1129) -/

/-- The network program directory. -/
def PROGRAMDIR : WStr := L "c:\\Dev\\Test\\"

/-- The two globals `ProcessInstall` writes. -/
structure Globals where
  exeFileName : WStr
  GOODTOLAUNCH : Bool
deriving DecidableEq, Repr

/-- The globals as initialised: `exeFileName` is `{ 0 }`, `GOODTOLAUNCH` is
`FALSE`. -/
def Globals.initial : Globals := ⟨[], false⟩

/-- Environment of one `ProcessInstall` run: the answer of the outside world
at each call site, in program order. -/
structure InstallEnv where
  locale : Locale
  localAppData : Option WStr
  worleyDirExists : WStr → Bool
  wmkdir : WStr → Bool
  UpdateInstaller : Int
  appFolderExists : WStr → Bool
  zipSearch : WStr → List FindData
  copy : CopyEnv
  check : CheckEnv
  uninstallOld : UninstallEnv
  uninstallNew : UninstallEnv
  extract : ExtractEnv
  exeSearch : WStr → List FindData
  register : RegisterEnv

/-- How a `ProcessInstall` run ends: the value returned (`none` when the run
never returns because the C runtime's invalid-parameter handler ends the
process), the globals, and the calls `ProcessInstall` itself made together
with its messages. -/
structure Outcome where
  returned : Option Int
  globals : Globals
  events : List Event
deriving DecidableEq, Repr

/-- The install branch of `ProcessInstall` (Installer.c 1044-1123), entered
with a non-empty `zipFilename`; `localZipName` holds `<appdata>\Worley\` on
entry.  The result is `none` when a callee has no defined result. -/
def ProcessInstall.install (env : InstallEnv) (appName appdata localZipName zipFilename : WStr)
    (g : Globals) : Option Outcome :=
  let msg := StringCchPrintf 75 (L "Installing application " ++ appName)
  -- Copy application zip from server
  let localZipName := wcscat_s localZipName appName
  let destFolderPath := localZipName
  let localZipName := wcscat_s localZipName (L ".zip")
  -- STEP 2: Copy file from server
  let retval0 := int_of_DWORD (CopyFileWithProgress env.copy zipFilename localZipName).retval
  -- Is our program already running?
  let retval1 :=
    if retval0 = 0 then (CheckIfRunning env.locale env.check localZipName).1 else retval0
  -- STEP 3: Uninstall existing version
  let searchPath :=
    if retval1 = 0 then wcscat_s (wcscat_s appdata (L "\\MyApps\\")) appName
    else wcscat_s PROGRAMDIR appName
  let uninstallOld :=
    if retval1 = 0 then UninstallApplication env.locale env.uninstallOld appName (L "MyOldApps")
    else some []
  let uninstallNew :=
    if retval1 = 0 then UninstallApplication env.locale env.uninstallNew appName (L "MyApps")
    else some []
  -- STEP 4: Extract zip
  let retval2 :=
    if retval1 = 0 then int_of_DWORD (ExtractZip env.extract localZipName destFolderPath).retval
    else retval1
  -- Create shortcut
  let newestFile :=
    if retval2 = 0 then GetNewestFileInDir env.exeSearch searchPath (L "\\*.exe") else none
  let found :=
    match newestFile with
    | some f => decide (wcslen f > 0)
    | none => false
  let exeFileName :=
    match newestFile with
    | some f => if wcslen f > 0 then f else g.exeFileName
    | none => g.exeFileName
  -- STEP 5: Create shortcut
  let register :=
    if wcslen exeFileName > 0 then
      (RegisterApp env.locale env.register exeFileName destFolderPath appName).map Prod.fst
    else some retval2
  match uninstallOld, uninstallNew, register with
  | some _, some _, some retval3 =>
    some
      { returned := some 0
        globals :=
          { exeFileName := exeFileName
            GOODTOLAUNCH := if retval3 = 0 then true else g.GOODTOLAUNCH }
        events :=
          [Event.AddMessage (L "INFO") msg,
           Event.CopyFileWithProgress zipFilename localZipName retval0] ++
          (if retval0 = 0 then [Event.CheckIfRunning localZipName retval1] else []) ++
          (if retval1 > 0 then
            [Event.AddMessage (L "ERROR")
              (L "CANNOT INSTALL: the program is already running!")]
           else []) ++
          (if retval1 = 0 then
            [Event.UninstallApplication appName (L "MyOldApps"),
             Event.UninstallApplication appName (L "MyApps"),
             Event.ExtractZip localZipName destFolderPath retval2]
           else []) ++
          (if retval2 = 0 then
            Event.GetNewestFileInDir searchPath (L "\\*.exe") newestFile ::
              (if found then []
               else [Event.AddMessage (L "ERROR")
                      (L "1096 ProcessInstall: Did not find unzipped executable")])
           else []) ++
          (if wcslen exeFileName > 0 then
            [Event.RegisterApp exeFileName destFolderPath appName retval3]
           else []) ++
          [Event.AddMessage (L "INFO") (L "Finished!")] }
  | _, _, _ => none

/-- Model of `ProcessInstall`, started with the globals `g`.  The result is
`none` when a callee has no defined result. -/
def ProcessInstall (env : InstallEnv) (appName : WStr) (g : Globals) : Option Outcome :=
  match env.localAppData with
  | none =>
    some ⟨some 0, g, [Event.AddMessage (L "ERROR") (L "Could not get LocalAppData directory")]⟩
  | some appdata =>
    -- Make sure Worley directory exists in %LocalAppData%
    let localZipName := wcscat_s appdata (L "\\Worley\\")
    if !env.worleyDirExists localZipName && !env.wmkdir localZipName then
      some ⟨some (-1), g,
        [Event.wmkdir localZipName false,
         Event.AddMessage (L "ERROR")
          (L "Unable to create 'Worley' directory in LocalAppData")]⟩
    else
      -- STEP 1: Check / Install / Update Installer
      let start :=
        (if env.worleyDirExists localZipName then [] else [Event.wmkdir localZipName true]) ++
        [Event.UpdateInstaller appdata env.UpdateInstaller]
      -- Get newest zip file from network program directory
      if wcslen appName > 0 then
        let searchPath := wcscat_s PROGRAMDIR appName
        if !env.appFolderExists searchPath then
          some ⟨some 0, g, start ++
            [Event.AddMessage (L "ERROR")
              (StringCchPrintf 75
                (L "Could not find an application folder with the name " ++ appName))]⟩
        else
          match GetNewestFileInDir env.zipSearch searchPath (L "\\*.zip") with
          | none =>
            -- wcscpy_s(zipFilename, MAX_PATH, NULL)
            some ⟨none, g, start ++ [Event.GetNewestFileInDir searchPath (L "\\*.zip") none]⟩
          | some zipFilename =>
            if wcslen zipFilename < 1 then
              some ⟨some 0, g, start ++
                [Event.GetNewestFileInDir searchPath (L "\\*.zip") (some zipFilename),
                 Event.AddMessage (L "ERROR") (L "No zip files found")]⟩
            else
              (ProcessInstall.install env appName appdata localZipName zipFilename g).map
                (fun out =>
                  { out with
                    events := start ++
                      Event.GetNewestFileInDir searchPath (L "\\*.zip") (some zipFilename) ::
                      out.events })
      else
        some ⟨some 0, g, start ++
          [Event.AddMessage (L "ERROR") (L "No application specified to install")]⟩

/-- The events that are calls of the install pipeline proper: the transfer,
the running check, the uninstall passes, the extraction, the search for the
extracted executable and the registration. -/
def Event.isStage : Event → Bool
  | .CopyFileWithProgress _ _ _ => true
  | .CheckIfRunning _ _ => true
  | .UninstallApplication _ _ => true
  | .ExtractZip _ _ _ => true
  | .RegisterApp _ _ _ _ => true
  | .GetNewestFileInDir _ fileExtension _ => fileExtension == L "\\*.exe"
  | _ => false

/-! ## IsFileNewer, GetInstaller, UpdateInstaller (Installer.c 353-370, 897-992) -/

/-- Model of `GetFileAttributesEx(file, ...)`: the last-write time of the file,
`none` when the call fails.  `fileTimes` gives the answer for a path; the call
fails on the `NULL` pointer. -/
def GetFileAttributesEx (fileTimes : WStr → Option Nat) : Option WStr → Option Nat
  | none => none
  | some file => fileTimes file

/-- Model of `IsFileNewer(file1, file2)`: `TRUE` when both last-write times can
be read and `CompareFileTime` of the first against the second is -1. -/
def IsFileNewer (fileTimes : WStr → Option Nat) (file1 file2 : Option WStr) : Bool :=
  match GetFileAttributesEx fileTimes file1 with
  | none => false
  | some file1Info =>
    match GetFileAttributesEx fileTimes file2 with
    | none => false
    | some file2Info => CompareFileTime file1Info file2Info == -1

/-- Environment of one `GetInstaller` call. -/
structure GetInstallerEnv where
  findFiles : WStr → List FindData
  copy : CopyEnv
  extract : ExtractEnv

/-- Model of `GetInstaller`: the value returned and, in order, its messages
and its calls with the values they returned. -/
def GetInstaller (env : GetInstallerEnv) (appdata : WStr) : Int × List Event :=
  let info := Event.AddMessage (L "INFO") (L "Getting Installer...")
  -- Copy AppInstaller and unzip it
  let srcDir := wcscat_s PROGRAMDIR (L "AppInstaller2")
  let remoteInstaller := GetNewestFileInDir env.findFiles srcDir (L "\\*.zip")
  let search := Event.GetNewestFileInDir srcDir (L "\\*.zip") remoteInstaller
  match remoteInstaller with
  | none =>
    (-1, [info, search, Event.AddMessage (L "ERROR") (L "Couldn\x27t find remote installer")])
  | some remoteInstaller =>
    let localInstaller := wcscat_s appdata (L "\\MyApps\\AppInstaller.zip")
    let localInstallerDir := wcscat_s appdata (L "\\MyApps\\AppInstaller")
    let retval := int_of_DWORD (CopyFileWithProgress env.copy remoteInstaller localInstaller).retval
    let copy := Event.CopyFileWithProgress remoteInstaller localInstaller retval
    if retval = 0 then
      let extracted := (ExtractZip env.extract localInstaller localInstallerDir).retval
      let extract := Event.ExtractZip localInstaller localInstallerDir (int_of_DWORD extracted)
      if extracted ≠ 0 then
        (-1, [info, search, copy, extract,
              Event.AddMessage (L "ERROR") (L "Couldn\x27t extract installer")])
      else (retval, [info, search, copy, extract])
    else
      (-1, [info, search, copy,
            Event.AddMessage (L "ERROR") (L "Couldn\x27t copy remote installer")])

/-- Environment of one `UpdateInstaller` call: whether the local helper
directory exists, whether `_wmkdir` and `_wrename` succeed, the directory
listings, the last-write times, the text `wcsftime` gives for the current
time, and the environment of the `GetInstaller` call. -/
structure UpdateEnv where
  localDirExists : Bool
  wmkdirOk : Bool
  findFiles : WStr → List FindData
  fileTimes : WStr → Option Nat
  nowStr : WStr
  wrenameOk : Bool
  installer : GetInstallerEnv

/-- The directory of the remote packages, as `UpdateInstaller` builds it. -/
def UpdateInstaller.srcDir : WStr := wcscat_s PROGRAMDIR (L "\\AppInstaller2\\")

/-- The local helper directory, as `UpdateInstaller` builds it. -/
def UpdateInstaller.localDir (appdata : WStr) : WStr :=
  wcscat_s (wcscat_s appdata (L "\\MyApps\\")) (L "\\AppInstaller\\")

/-- Model of `UpdateInstaller`: the value returned and, in order, its messages
and its calls (those of a `GetInstaller` call included). -/
def UpdateInstaller (env : UpdateEnv) (appdata : WStr) : Int × List Event :=
  let srcDir := UpdateInstaller.srcDir
  let localDir := UpdateInstaller.localDir appdata
  if !env.localDirExists then
    if !env.wmkdirOk then
      (-1, [Event.wmkdir localDir false,
            Event.AddMessage (L "ERROR") (L "Unable to create \x27AppInstaller\x27 directory")])
    else
      let g := GetInstaller env.installer appdata
      (g.1, Event.wmkdir localDir true :: g.2)
  else
    -- Is AppInstaller.exe older than the zip on the network?
    let remoteInstaller := GetNewestFileInDir env.findFiles srcDir (L "\\*.zip")
    let localInstaller := GetNewestFileInDir env.findFiles localDir (L "\\*.exe")
    let searches := [Event.GetNewestFileInDir srcDir (L "\\*.zip") remoteInstaller,
                     Event.GetNewestFileInDir localDir (L "\\*.exe") localInstaller]
    match localInstaller with
    | none =>
      let g := GetInstaller env.installer appdata
      (g.1, searches ++ g.2)
    | some localInstaller =>
      let isNewer := IsFileNewer env.fileTimes (some localInstaller) remoteInstaller
      if isNewer then
        let newName := wcscat_s (wcscat_s localInstaller (L "_Old_")) env.nowStr
        let moved := [Event.AddMessage (L "INFO") newName,
                         Event.wrename localInstaller newName env.wrenameOk]
        if env.wrenameOk then
          let g := GetInstaller env.installer appdata
          (g.1, searches ++ moved ++ g.2)
        else (0, searches ++ moved)
      else (0, searches)

/-- The file name of an archive entry without its directory part: what the
specification calls the bare process name of the entry. -/
def spec_bareName (name : WStr) : WStr :=
  (name.reverse.takeWhile (fun c => !isSeparator c)).reverse

/-- The specification's condition for replacing the local helper: the
last-write times of the local helper and of the remote package that the search
returned can both be read, and that of the remote package is strictly later. -/
def spec_remoteLater (env : UpdateEnv) (localInstaller : WStr) : Prop :=
  ∃ localTime remoteInstaller remoteTime,
    env.fileTimes localInstaller = some localTime ∧
    GetNewestFileInDir env.findFiles UpdateInstaller.srcDir (L "\\*.zip")
      = some remoteInstaller ∧
    env.fileTimes remoteInstaller = some remoteTime ∧ localTime < remoteTime

/-! ## CreateDirectories at the level of the buffer (Installer.c 244-286) -/

/-- The wide string that a buffer holds: its elements before the first
terminator. -/
def cstr (buffer : List Char) : WStr := buffer.takeWhile (fun c => c != NUL)

/-- The state of the second loop of `CreateDirectories`: the buffer `tempPath`
(the elements of the duplicated path; the allocation ends with a terminator,
which `wcharAt` yields at the length), the index `currentPos` points at, the
directories that exist and the events so far. -/
structure ScanState where
  tempPath : List Char
  currentPos : Nat
  dirs : List WStr
  events : List Event

/-- One turn of `while (*currentPos)`, entered with `*currentPos` not the
terminator.  On a failed `_wmkdir` the `continue` skips both the restoring of
the separator and `currentPos++`. -/
def CreateDirectories.body (mkdirOk : WStr → Bool) (s : ScanState) : ScanState :=
  if isSeparator (wcharAt s.tempPath s.currentPos) then
    -- *currentPos = L'\0';
    let tempPath := s.tempPath.set s.currentPos NUL
    if DirectoryExists s.dirs (cstr tempPath) then
      { s with tempPath := tempPath.set s.currentPos '\\', currentPos := s.currentPos + 1 }
    else if mkdirOk (cstr tempPath) then
      { tempPath := tempPath.set s.currentPos '\\'
        currentPos := s.currentPos + 1
        dirs := normalizePath (cstr tempPath) :: s.dirs
        events := s.events ++ [Event.wmkdir (cstr tempPath) true] }
    else
      -- continue;
      { s with tempPath := tempPath,
               events := s.events ++ [Event.wmkdir (cstr tempPath) false] }
  else { s with currentPos := s.currentPos + 1 }

/-- The loop `while (*currentPos)`, run for at most `fuel` tests of its
condition; `none` when the loop has not ended by then. -/
def CreateDirectories.scan (mkdirOk : WStr → Bool) : Nat → ScanState → Option ScanState
  | 0, _ => none
  | fuel + 1, s =>
    if wcharAt s.tempPath s.currentPos = NUL then some s
    else CreateDirectories.scan mkdirOk fuel (CreateDirectories.body mkdirOk s)

/-- `CreateDirectories(path)` with the second loop run on the buffer, for at
most `fuel` tests of the loop condition. -/
def CreateDirectories.run (mkdirOk : WStr → Bool) (fuel : Nat) (dirs : List WStr)
    (path : WStr) : Option CreateResult :=
  -- Remove the filename from the path
  let tempPath :=
    match CreateDirectories.lastSeparator path 0 none with
    | some lastSeparator => path.set lastSeparator NUL
    | none => path
  -- Traverse the path and create directories
  match CreateDirectories.scan mkdirOk fuel ⟨tempPath, 0, dirs, []⟩ with
  | none => none
  | some s =>
    let tempPath := cstr s.tempPath
    some
      (if DirectoryExists s.dirs tempPath then ⟨s.dirs, s.events⟩
       else if mkdirOk tempPath then
        ⟨normalizePath tempPath :: s.dirs, s.events ++ [Event.wmkdir tempPath true]⟩
       else
        ⟨s.dirs, s.events ++
          [Event.wmkdir tempPath false,
           Event.AddMessage (L "ERROR") (L "Unable to create directory")]⟩)

/-! ## Archive handles -/

/-- The event is a `zip_open` that returned a handle. -/
def Event.opensArchive : Event → Bool
  | .zip_open _ => true
  | _ => false

/-- The event is a `zip_close`. -/
def Event.closesArchive : Event → Bool
  | .zip_close _ => true
  | _ => false

/-- The number of archive handles that the events leave open: those opened
less those closed. -/
def openArchives (events : List Event) : Int :=
  (events.countP Event.opensArchive : Int) - (events.countP Event.closesArchive : Int)

/-- Sample listing: three archives with distinct timestamps and a directory. -/
def sampleZipListing : List FindData :=
  [⟨L "widget_v1.zip", false, 3⟩, ⟨L "widget_v2.zip", false, 5⟩,
   ⟨L "archive.zip", true, 7⟩, ⟨L "widget_v0.zip", false, 4⟩]

/-- Sample tree: a directory holding one file. -/
def shortTree : FsNode := .dir (L "Old") true true [.file (L "notes-and-settings.txt") true]

/-- Sample shell answers: the shortcut of a legacy install under `C:\MyOldApps`. -/
def legacyUninstallEnv : UninstallEnv :=
  ⟨⟨some (L "C:\\Programs"), some (L "C:\\MyOldApps\\GroupManager")⟩, fun _ => true⟩

/-- Sample run: "Widget" is on the share, is not running, and every step
succeeds. -/
def widgetEnv : InstallEnv where
  locale := cLocale
  localAppData := some (L "C:\\Users\\me\\AppData\\Local")
  worleyDirExists := fun _ => true
  wmkdir := fun _ => true
  UpdateInstaller := 0
  appFolderExists := fun _ => true
  zipSearch := fun _ => [⟨L "widget_v2.zip", false, 20⟩]
  copy := ⟨some [80, 75, 3, 4], true, [4]⟩
  check := ⟨some [⟨some (L "Widget.exe"), true, some [77, 90], true⟩], some [L "explorer.exe"]⟩
  uninstallOld := ⟨⟨some (L "C:\\Programs"), none⟩, fun _ => false⟩
  uninstallNew := ⟨⟨some (L "C:\\Programs"), none⟩, fun _ => false⟩
  extract := ⟨some [⟨some (L "Widget.exe"), true, some [77, 90], true⟩], true⟩
  exeSearch := fun _ => [⟨L "Widget.exe", false, 20⟩]
  register := ⟨some (L "C:\\Programs"), true, true, true, true⟩

/-- Sample run: as `widgetEnv`, with `Widget.exe` among the live processes. -/
def runningEnv : InstallEnv :=
  { widgetEnv with
    check := ⟨some [⟨some (L "Widget.exe"), true, some [77, 90], true⟩],
      some [L "explorer.exe", L "WIDGET.EXE"]⟩ }

/-- Sample run: as `widgetEnv`, but the search for the extracted executable
finds nothing. -/
def noExeEnv : InstallEnv := { widgetEnv with exeSearch := fun _ => [] }

/-- Sample run: as `widgetEnv`, but the archive on the share cannot be opened. -/
def copyFailEnv : InstallEnv := { widgetEnv with copy := ⟨none, true, []⟩ }

/-- Sample run: as `widgetEnv`, but the archive holds no `.exe` entry. -/
def noExeArchiveEnv : InstallEnv :=
  { widgetEnv with
    check := ⟨some [⟨some (L "readme.txt"), true, some [104, 105], true⟩,
                    ⟨some (L "bin/widget.dll"), true, some [77, 90], true⟩],
      some [L "explorer.exe"]⟩ }

/-- Sample tree: the entries of an install directory, one of them a directory
with a file and an empty directory. -/
def widgetTree : List FsNode :=
  [.file (L "Widget.exe") true,
   .dir (L "data") true true [.file (L "a.dat") true, .dir (L "cache") true true []],
   .file (L "readme.txt") true]

/-- Sample archive of an installation whose executable lies in a folder,
with the process of that executable alive. -/
def folderExeEnv : CheckEnv :=
  ⟨some [⟨some (L "readme.txt"), true, some [], true⟩,
         ⟨some (L "bin/Widget.exe"), true, some [], true⟩],
   some [L "explorer.exe", L "Widget.exe"]⟩

/-- Sample archive whose executable has a second dot in its name, with the
process of that executable alive. -/
def dottedExeEnv : CheckEnv :=
  ⟨some [⟨some (L "Widget.v2.exe"), true, some [], true⟩], some [L "Widget.v2.exe"]⟩

/-- Sample `UpdateInstaller` environment: the local helper was written at
time 100, the remote package at `remoteTime`; `wrenameOk` says whether the
rename succeeds. -/
def helperEnv (remoteTime : Nat) (wrenameOk : Bool) : UpdateEnv :=
  { localDirExists := true
    wmkdirOk := true
    findFiles := fun searchLoc =>
      if searchLoc.getLast? = some 'p' then [⟨L "AppInstaller_2.zip", false, remoteTime⟩]
      else [⟨L "AppInstaller.exe", false, 100⟩]
    fileTimes := fun file =>
      if file.getLast? = some 'p' then some remoteTime
      else if file.getLast? = some 'e' then some 100 else none
    nowStr := L "10302026_120000"
    wrenameOk := wrenameOk
    installer :=
      { findFiles := fun _ => [⟨L "AppInstaller_2.zip", false, remoteTime⟩]
        copy := ⟨some [80, 75], true, [2]⟩
        extract := ⟨some [⟨some (L "AppInstaller.exe"), true, some [77, 90], true⟩], true⟩ } }

/-- The local application data folder of the sample environments. -/
def helperAppdata : WStr := L "C:\\Users\\me\\AppData\\Local"

/-- The local helper that the search of `UpdateInstaller` returns in
`helperEnv`. -/
def helperPath : WStr :=
  UpdateInstaller.localDir helperAppdata ++ L "\\" ++ L "AppInstaller.exe"

/-- The remote package that the search of `UpdateInstaller` returns in
`helperEnv`. -/
def packagePath : WStr := UpdateInstaller.srcDir ++ L "\\" ++ L "AppInstaller_2.zip"

theorem wcharAt_cons_succ (a : Char) (s : WStr) (i : Nat) :
    wcharAt (a :: s) (i + 1) = wcharAt s i := by
  simp [wcharAt, List.getD_eq_getElem?_getD]

theorem wcharAt_append_length (pre : WStr) (c : Char) (rest : WStr) :
    wcharAt (pre ++ c :: rest) pre.length = c := by
  induction pre with
  | nil => simp [wcharAt, List.getD_eq_getElem?_getD]
  | cons a p ih => simpa [wcharAt_cons_succ] using ih

theorem wcharAt_append_succ (pre : WStr) (c : Char) (rest : WStr) :
    wcharAt (pre ++ c :: rest) (pre.length + 1) = rest.headD NUL := by
  induction pre with
  | nil => cases rest <;> simp [wcharAt, List.getD_eq_getElem?_getD]
  | cons a p ih => simpa [wcharAt_cons_succ] using ih

theorem secondPass_fold (loc : Locale) (suf : WStr) :
    ∀ (pre acc : WStr),
      (List.range' pre.length suf.length).foldl
        (fun newName i =>
          let newName :=
            if decide (i > 0) && decide (i < (pre ++ suf).length) &&
                loc.iswupper (wcharAt (pre ++ suf) i) &&
                loc.iswlower (wcharAt (pre ++ suf) (i + 1))
            then newName ++ [' '] else newName
          newName ++ [wcharAt (pre ++ suf) i])
        acc
      = acc ++ (if pre.length = 0 then displayName loc suf else spaceWords loc suf) := by
  induction suf with
  | nil => intro pre acc; simp [displayName, spaceWords]
  | cons c rest ih =>
    intro pre acc
    have hsplit : pre ++ c :: rest = (pre ++ [c]) ++ rest := by simp
    have ih2 := ih (pre ++ [c])
    simp only [List.length_cons, List.range'_succ, List.foldl_cons]
    rw [hsplit]
    have hlen : (pre ++ [c]).length = pre.length + 1 := by simp
    rw [hlen] at ih2
    rw [ih2]
    rw [← hsplit, wcharAt_append_length, wcharAt_append_succ]
    by_cases hk : pre.length = 0
    · simp [hk, displayName]
    · have hpos : 0 < pre.length := Nat.pos_of_ne_zero hk
      cases rest with
      | nil => simp [hk, hpos, spaceWords, loc.lower_NUL]
      | cons d r =>
        by_cases hb : (loc.iswupper c && loc.iswlower d) = true
        · simp only [Bool.and_eq_true] at hb
          simp [hk, hpos, spaceWords, hb.1, hb.2]
        · have hb2 : (loc.iswupper c && loc.iswlower d) = false := by simpa using hb
          simp [hk, hpos, spaceWords, hb2]

theorem firstPass_fold (loc : Locale) (suf : WStr) :
    ∀ (pre : WStr) (acc : Nat),
      (List.range' pre.length (suf.length - 1)).foldl
        (fun newLen i =>
          if loc.iswlower (wcharAt (pre ++ suf) (i + 1)) &&
              loc.iswupper (wcharAt (pre ++ suf) i)
          then newLen + 1 else newLen)
        acc
      = acc + wordBoundaries loc suf := by
  induction suf with
  | nil => intro pre acc; simp [wordBoundaries]
  | cons c rest ih =>
    intro pre acc
    cases rest with
    | nil => simp [wordBoundaries]
    | cons d r =>
      have hsplit : pre ++ c :: d :: r = (pre ++ [c]) ++ d :: r := by simp
      have ih2 := ih (pre ++ [c])
      have hlen : (pre ++ [c]).length = pre.length + 1 := by simp
      rw [hlen] at ih2
      simp only [List.length_cons, Nat.add_sub_cancel, List.range'_succ, List.foldl_cons]
      simp only [List.length_cons, Nat.add_sub_cancel] at ih2
      rw [hsplit, ih2, ← hsplit, wcharAt_append_length, wcharAt_append_succ]
      simp only [List.headD_cons, wordBoundaries]
      by_cases hb : (loc.iswupper c && loc.iswlower d) = true
      · have hb3 : (loc.iswlower d && loc.iswupper c) = true := by
          rw [Bool.and_comm]; exact hb
        simp only [hb, hb3, if_true]; omega
      · have hb2 : (loc.iswupper c && loc.iswlower d) = false := by simpa using hb
        have hb3 : (loc.iswlower d && loc.iswupper c) = false := by
          rw [Bool.and_comm]; exact hb2
        simp [hb2, hb3]

theorem spaceWords_length (loc : Locale) (s : WStr) :
    (spaceWords loc s).length = s.length + wordBoundaries loc s := by
  induction s with
  | nil => simp [spaceWords, wordBoundaries]
  | cons c rest ih =>
    cases rest with
    | nil => simp [spaceWords, wordBoundaries]
    | cons d r =>
      simp only [spaceWords, wordBoundaries]
      split <;> simp [ih] <;> omega

theorem spaceWords_sublist (loc : Locale) (s : WStr) :
    s.Sublist (spaceWords loc s) := by
  induction s with
  | nil => simp [spaceWords]
  | cons c rest ih =>
    cases rest with
    | nil => simp [spaceWords]
    | cons d r =>
      simp only [spaceWords]
      split
      · exact List.Sublist.cons _ (List.Sublist.cons₂ _ ih)
      · exact List.Sublist.cons₂ _ ih

theorem secondPass_eq (loc : Locale) (appName : WStr) :
    AddSpaces.secondPass loc appName (wcslen appName) = displayName loc appName := by
  have h := secondPass_fold loc appName [] []
  simpa [AddSpaces.secondPass, wcslen, List.range_eq_range'] using h

theorem firstPass_eq (loc : Locale) (c : Char) (tail : WStr) :
    AddSpaces.firstPass loc (c :: tail) (wcslen (c :: tail))
      = (c :: tail).length + wordBoundaries loc tail := by
  have h := firstPass_fold loc tail [c] (c :: tail).length
  simpa [AddSpaces.firstPass, wcslen] using h

theorem AddSpaces_cons (loc : Locale) (c : Char) (tail : WStr) :
    AddSpaces loc (c :: tail) = some (displayName loc (c :: tail)) := by
  have h1 := secondPass_eq loc (c :: tail)
  have h2 := firstPass_eq loc c tail
  have h3 := spaceWords_length loc tail
  unfold AddSpaces
  simp only [h1, h2]
  simp [wcslen, displayName, h3]
  omega

/-- C10 (amended): for every non-empty application name, `AddSpaces` returns
the name with exactly one space inserted before each capitalized word boundary
(each upper-case letter that is not the first character and is immediately
followed by a lower-case letter): the result is `displayName`, the name is a
subsequence of it, and its length is the length of the name plus the number of
boundaries; "GroupManager" gives "Group Manager" and "eds" gives "eds". -/
theorem AddSpaces_inserts_space_at_word_boundaries (loc : Locale) (appName : WStr)
    (h : appName ≠ []) :
    AddSpaces loc appName = some (displayName loc appName) ∧
    appName.Sublist (displayName loc appName) ∧
    (displayName loc appName).length = appName.length + wordBoundaries loc appName.tail ∧
    AddSpaces cLocale (L "GroupManager") = some (L "Group Manager") ∧
    AddSpaces cLocale (L "eds") = some (L "eds") := by
  cases appName with
  | nil => exact absurd rfl h
  | cons c tail =>
    refine ⟨AddSpaces_cons loc c tail, ?_, ?_, by decide, by decide⟩
    · exact List.Sublist.cons₂ c (spaceWords_sublist loc tail)
    · simp only [displayName, List.length_cons, List.tail_cons, spaceWords_length]
      omega

/-- Witness for C10 at "GroupManager". -/
theorem AddSpaces_inserts_space_at_word_boundaries_witness :
    L "GroupManager" ≠ [] ∧
    AddSpaces cLocale (L "GroupManager") = some (displayName cLocale (L "GroupManager")) ∧
    displayName cLocale (L "GroupManager") = L "Group Manager" :=
  ⟨by decide,
   (AddSpaces_inserts_space_at_word_boundaries cLocale (L "GroupManager") (by decide)).1,
   by decide⟩

/-- C10 as stated fails for the empty name: the first loop of `AddSpaces` runs
with the wrapped bound `len - 1` and the call has no defined result. -/
theorem AddSpaces_empty_name_undefined :
    AddSpaces cLocale (L "") = none ∧
    AddSpaces cLocale (L "") ≠ some (displayName cLocale (L "")) := by
  decide

/-! ## GetNewestFileInDir -/

theorem CompareFileTime_pos (a b : Nat) : CompareFileTime a b > 0 ↔ b < a := by
  unfold CompareFileTime
  split
  · constructor
    · intro h; exact absurd h (by decide)
    · intro h; omega
  · split
    · constructor
      · intro h; exact absurd h (by decide)
      · intro h; omega
    · constructor
      · intro _; omega
      · intro _; decide

theorem step_keep (l : List FindData) (t : Nat) (f : WStr)
    (h : ∀ e ∈ l, e.isDirectory = false → e.ftLastWriteTime ≤ t) :
    l.foldl GetNewestFileInDir.step (t, f) = (t, f) := by
  induction l with
  | nil => rfl
  | cons x xs ih =>
    have hx : GetNewestFileInDir.step (t, f) x = (t, f) := by
      unfold GetNewestFileInDir.step
      cases hd : x.isDirectory with
      | true => simp
      | false =>
        have hle := h x (List.mem_cons_self _ _) hd
        have hn : ¬ CompareFileTime x.ftLastWriteTime t > 0 := by
          rw [CompareFileTime_pos]; omega
        simp [hn]
    rw [List.foldl_cons, hx]
    exact ih (fun e he => h e (List.mem_cons_of_mem _ he))

theorem fold_newest (l : List FindData) :
    ∀ (t0 : Nat) (f0 : WStr) (d : FindData), d ∈ l → d.isDirectory = false →
      t0 < d.ftLastWriteTime →
      (∀ e ∈ l, e.isDirectory = false → e.ftLastWriteTime ≤ d.ftLastWriteTime) →
      ((l.filter (fun e => !e.isDirectory)).map (fun e => e.ftLastWriteTime)).Nodup →
      l.foldl GetNewestFileInDir.step (t0, f0) = (d.ftLastWriteTime, d.cFileName) := by
  induction l with
  | nil => intro t0 f0 d hd; cases hd
  | cons x xs ih =>
    intro t0 f0 d hd hreg ht hmax hnd
    rw [List.foldl_cons]
    cases hxd : x.isDirectory with
    | true =>
      have hne : d ∈ xs := by
        rcases List.mem_cons.mp hd with h | h
        · rw [h, hxd] at hreg; cases hreg
        · exact h
      have hstep : GetNewestFileInDir.step (t0, f0) x = (t0, f0) := by
        simp [GetNewestFileInDir.step, hxd]
      rw [hstep]
      refine ih t0 f0 d hne hreg ht (fun e he => hmax e (List.mem_cons_of_mem _ he)) ?_
      simpa [List.filter, hxd] using hnd
    | false =>
      have hnd2 : x.ftLastWriteTime ∉
            (xs.filter (fun e => !e.isDirectory)).map (fun e => e.ftLastWriteTime) ∧
          ((xs.filter (fun e => !e.isDirectory)).map (fun e => e.ftLastWriteTime)).Nodup := by
        simpa [List.filter, hxd] using hnd
      by_cases hdx : d = x
      · subst hdx
        have hstep : GetNewestFileInDir.step (t0, f0) d = (d.ftLastWriteTime, d.cFileName) := by
          have hp : CompareFileTime d.ftLastWriteTime t0 > 0 := (CompareFileTime_pos _ _).2 ht
          simp [GetNewestFileInDir.step, hxd, hp]
        rw [hstep]
        exact step_keep xs _ _ (fun e he => hmax e (List.mem_cons_of_mem _ he))
      · have hne : d ∈ xs := by
          rcases List.mem_cons.mp hd with h | h
          · exact absurd h hdx
          · exact h
        have hdt : d.ftLastWriteTime ∈
            (xs.filter (fun e => !e.isDirectory)).map (fun e => e.ftLastWriteTime) := by
          refine List.mem_map.2 ⟨d, List.mem_filter.2 ⟨hne, by simp [hreg]⟩, rfl⟩
        have hlt : x.ftLastWriteTime < d.ftLastWriteTime := by
          have hle := hmax x (List.mem_cons_self _ _) hxd
          have hneq : x.ftLastWriteTime ≠ d.ftLastWriteTime := by
            intro heq; rw [heq] at hnd2; exact hnd2.1 hdt
          omega
        have hmax2 : ∀ e ∈ xs, e.isDirectory = false → e.ftLastWriteTime ≤ d.ftLastWriteTime :=
          fun e he => hmax e (List.mem_cons_of_mem _ he)
        unfold GetNewestFileInDir.step
        simp only [hxd, Bool.not_false, if_true]
        split
        · exact ih _ _ d hne hreg hlt hmax2 hnd2.2
        · exact ih _ _ d hne hreg ht hmax2 hnd2.2

/-- C8 (amended): for every directory listing in which the regular files
matching the pattern have pairwise distinct last-write timestamps and the
newest of them has a non-zero timestamp, `GetNewestFileInDir` returns the
directory path joined by a backslash with the name of that newest file; when
`FindFirstFile` finds nothing (absent or empty directory) it returns `NULL`. -/
theorem GetNewestFileInDir_returns_newest (findFiles : WStr → List FindData)
    (dirLoc fileExtension : WStr) :
    (findFiles (dirLoc ++ fileExtension) = [] →
      GetNewestFileInDir findFiles dirLoc fileExtension = none) ∧
    (∀ d ∈ findFiles (dirLoc ++ fileExtension), d.isDirectory = false →
      0 < d.ftLastWriteTime →
      (∀ e ∈ findFiles (dirLoc ++ fileExtension), e.isDirectory = false →
        e.ftLastWriteTime ≤ d.ftLastWriteTime) →
      (((findFiles (dirLoc ++ fileExtension)).filter (fun e => !e.isDirectory)).map
        (fun e => e.ftLastWriteTime)).Nodup →
      GetNewestFileInDir findFiles dirLoc fileExtension
        = some (dirLoc ++ L "\\" ++ d.cFileName)) := by
  constructor
  · intro h
    simp [GetNewestFileInDir, wcscat_s, h]
  · intro d hd hreg hpos hmax hnd
    unfold GetNewestFileInDir
    simp only [wcscat_s]
    cases hl : findFiles (dirLoc ++ fileExtension) with
    | nil => rw [hl] at hd; cases hd
    | cons first more =>
      rw [hl] at hd hmax hnd
      simp only [fold_newest (first :: more) 0 [] d hd hreg hpos hmax hnd]

/-- Witness for C8: three archives with distinct timestamps and a newer
directory. -/
theorem GetNewestFileInDir_returns_newest_witness :
    (⟨L "widget_v2.zip", false, 5⟩ : FindData) ∈ sampleZipListing ∧
    GetNewestFileInDir (fun _ => sampleZipListing) (L "c:\\Dev\\Test\\Widget") (L "\\*.zip")
      = some (L "c:\\Dev\\Test\\Widget" ++ L "\\" ++ L "widget_v2.zip") :=
  ⟨by decide,
   (GetNewestFileInDir_returns_newest (fun _ => sampleZipListing) (L "c:\\Dev\\Test\\Widget")
      (L "\\*.zip")).2 ⟨L "widget_v2.zip", false, 5⟩ (by decide) rfl (by decide) (by decide)
      (by decide)⟩

/-- C8 as stated fails for a file whose last-write time is zero: the only
matching file is the newest one, yet the path returned does not name it. -/
theorem GetNewestFileInDir_zero_timestamp_not_returned :
    (([⟨L "a.zip", false, 0⟩] : List FindData).map (fun e => e.ftLastWriteTime)).Nodup ∧
    GetNewestFileInDir (fun _ => [⟨L "a.zip", false, 0⟩]) (L "c:\\Dev\\Test\\Widget") (L "\\*.zip")
      = some (L "c:\\Dev\\Test\\Widget\\") ∧
    GetNewestFileInDir (fun _ => [⟨L "a.zip", false, 0⟩]) (L "c:\\Dev\\Test\\Widget") (L "\\*.zip")
      ≠ some (L "c:\\Dev\\Test\\Widget\\a.zip") := by
  decide

/-- When the enumeration is not empty but selects nothing (directories, or
files with a zero timestamp), the result is the directory path with a
trailing backslash, not `NULL`. -/
theorem GetNewestFileInDir_nothing_selected (findFiles : WStr → List FindData)
    (dirLoc fileExtension : WStr) (hne : findFiles (dirLoc ++ fileExtension) ≠ [])
    (h : ∀ e ∈ findFiles (dirLoc ++ fileExtension),
      e.isDirectory = false → e.ftLastWriteTime ≤ 0) :
    GetNewestFileInDir findFiles dirLoc fileExtension = some (dirLoc ++ L "\\") := by
  unfold GetNewestFileInDir
  simp only [wcscat_s]
  cases hl : findFiles (dirLoc ++ fileExtension) with
  | nil => exact absurd hl hne
  | cons first more =>
    rw [hl] at h
    simp only [step_keep (first :: more) 0 [] h, List.append_nil]

/-- C9 (code at the failing input): the pattern matches one entry, a directory
named `old.exe`; no regular file matches, yet the result is not `NULL`. -/
theorem GetNewestFileInDir_directory_only_not_NULL :
    ([⟨L "old.exe", true, 5⟩] : List FindData).filter (fun e => !e.isDirectory) = [] ∧
    GetNewestFileInDir (fun _ => [⟨L "old.exe", true, 5⟩])
      (L "C:\\Users\\me\\AppData\\Local\\MyApps\\Widget") (L "\\*.exe")
      = some (L "C:\\Users\\me\\AppData\\Local\\MyApps\\Widget\\") := by
  decide

/-! ## DeleteDirectory -/

theorem deleteGuard_eq_false (p : WStr) :
    deleteGuard p = false ↔ (wcslen p ≤ 20 ∨ DirDepth p ≤ 2) := by
  unfold deleteGuard
  simp only [Bool.and_eq_false_iff, decide_eq_false_iff_not, not_lt, gt_iff_lt]

theorem isRefusal_file (p : WStr) :
    isRefusal (Event.AddMessage (L "ERROR")
      (L "Please report: Aborting attempt to delete file " ++ p)) = true := by
  simp [isRefusal, L]

theorem isRefusal_dir (p : WStr) :
    isRefusal (Event.AddMessage (L "ERROR")
      (L "Please report: Aborting attempt to delete from " ++ p)) = true := by
  simp [isRefusal, L]

/-- C2 (amended): `DeleteDirectory` applies the length/depth guard to the full
path of each entry, not to the path it is given.  For every path and every
filesystem state in which the path is a readable directory whose first entry
has a full path of length <= 20 or separator count <= 2, `DeleteDirectory`
leaves the filesystem unchanged and reports the refusal error; the only other
event is the failing `RemoveDirectory` of the still non-empty directory. -/
theorem DeleteDirectory_refuses_at_first_entry (path name : WStr) (removable : Bool)
    (first : FsNode) (rest : List FsNode)
    (hdot : first.name ≠ L "." ∧ first.name ≠ L "..")
    (hguard : wcslen (path ++ L "\\" ++ first.name) ≤ 20 ∨
      DirDepth (path ++ L "\\" ++ first.name) ≤ 2) :
    (DeleteDirectory path (some (.dir name true removable (first :: rest)))).1
      = some (.dir name true removable (first :: rest)) ∧
    ∃ refusal, isRefusal refusal = true ∧
      (DeleteDirectory path (some (.dir name true removable (first :: rest)))).2
        = [refusal, Event.RemoveDirectory path] := by
  have hg := (deleteGuard_eq_false _).2 hguard
  cases first with
  | file fname deletable =>
    simp only [FsNode.name, List.append_assoc] at hdot hg
    simp [DeleteDirectory, DeleteDirectoryContents, DeleteDirectoryContents.loop,
      DeleteDirectoryContents.entry, hdot.1, hdot.2, hg, RemoveDirectory, isRefusal_file]
  | dir dname listable rem children =>
    simp only [FsNode.name, List.append_assoc] at hdot hg
    simp [DeleteDirectory, DeleteDirectoryContents, DeleteDirectoryContents.loop,
      DeleteDirectoryContents.entry, hdot.1, hdot.2, hg, RemoveDirectory, isRefusal_dir]

/-- Witness for C2: the first entry of `C:\Apps` has separator count 2. -/
theorem DeleteDirectory_refuses_at_first_entry_witness :
    DirDepth (L "C:\\Apps" ++ L "\\" ++ (FsNode.file (L "notes-and-settings.txt") true).name) ≤ 2 ∧
    (DeleteDirectory (L "C:\\Apps")
      (some (.dir (L "Apps") true true [.file (L "notes-and-settings.txt") true]))).1
      = some (.dir (L "Apps") true true [.file (L "notes-and-settings.txt") true]) :=
  ⟨by decide,
   (DeleteDirectory_refuses_at_first_entry (L "C:\\Apps") (L "Apps") true
      (.file (L "notes-and-settings.txt") true) [] (by decide) (Or.inr (by decide))).1⟩

/-- C2 as stated fails: `C:\Apps\Old` has 11 characters and separator count 2,
yet `DeleteDirectory` deletes the file in it and removes the directory, and
reports no refusal. -/
theorem DeleteDirectory_short_path_deletes :
    wcslen (L "C:\\Apps\\Old") ≤ 20 ∧ DirDepth (L "C:\\Apps\\Old") ≤ 2 ∧
    (DeleteDirectory (L "C:\\Apps\\Old") (some shortTree)).1.isNone = true ∧
    (DeleteDirectory (L "C:\\Apps\\Old") (some shortTree)).2
      = [Event.DeleteFile (L "C:\\Apps\\Old\\notes-and-settings.txt"),
         Event.RemoveDirectory (L "C:\\Apps\\Old")] ∧
    ((DeleteDirectory (L "C:\\Apps\\Old") (some shortTree)).2.any isRefusal) = false := by
  decide

/-! ## UninstallApplication -/

/-- C3 (amended): every call to `DeleteDirectory` made by `UninstallApplication`
passes the resolved shortcut target, which is longer than 20 characters and
exists as a directory; for a resolved target of 20 characters or fewer
`DeleteDirectory` is not invoked; and the separator count plays no part: a
resolved target that is longer than 20 characters and is a directory is always
passed to `DeleteDirectory`. -/
theorem UninstallApplication_deletes_long_existing_target (loc : Locale) (env : UninstallEnv)
    (appName folderName : WStr) (h : appName ≠ []) :
    ∃ ev, UninstallApplication loc env appName folderName = some ev ∧
      (∀ p, Event.DeleteDirectory p ∈ ev →
        wcslen p > 20 ∧ env.DirectoryExists p = true ∧ env.shortcut.resolvedDir = some p) ∧
      (∀ p, env.shortcut.resolvedDir = some p → wcslen p ≤ 20 →
        ∀ q, Event.DeleteDirectory q ∉ ev) ∧
      (∀ p menu, env.shortcut.startMenuPath = some menu → env.shortcut.resolvedDir = some p →
        wcslen p > 20 → env.DirectoryExists p = true → Event.DeleteDirectory p ∈ ev) := by
  cases appName with
  | nil => exact absurd rfl h
  | cons c tail =>
    simp only [UninstallApplication, AddSpaces_cons, FindShortcut]
    refine ⟨_, rfl, ?_, ?_, ?_⟩
    · intro p hp
      cases hs : env.shortcut.startMenuPath with
      | none => simp [hs] at hp
      | some menu =>
        cases hr : env.shortcut.resolvedDir with
        | none => simp [hs, hr] at hp
        | some dir =>
          simp only [hs, hr] at hp
          by_cases hc : (decide (wcslen dir > 20) && env.DirectoryExists dir) = true
          · simp only [hc, if_true] at hp
            simp at hp
            subst hp
            simp only [Bool.and_eq_true, decide_eq_true_eq] at hc
            exact ⟨hc.1, hc.2, rfl⟩
          · simp [hc] at hp
    · intro p hr hlen q hq
      cases hs : env.shortcut.startMenuPath with
      | none => simp [hs] at hq
      | some menu =>
        have hc : ¬ (wcslen p > 20) := by omega
        simp [hs, hr, hc] at hq
    · intro p menu hs hr hlen hdir
      simp [hs, hr, hlen, hdir]

/-- Witness for C3 at the legacy install of "GroupManager". -/
theorem UninstallApplication_deletes_long_existing_target_witness :
    L "GroupManager" ≠ [] ∧
    ∃ ev, UninstallApplication cLocale legacyUninstallEnv (L "GroupManager") (L "MyOldApps")
        = some ev ∧
      Event.DeleteDirectory (L "C:\\MyOldApps\\GroupManager") ∈ ev := by
  refine ⟨by decide, ?_⟩
  obtain ⟨ev, hev, _, _, h3⟩ :=
    UninstallApplication_deletes_long_existing_target cLocale legacyUninstallEnv
      (L "GroupManager") (L "MyOldApps") (by decide)
  exact ⟨ev, hev, h3 (L "C:\\MyOldApps\\GroupManager") (L "C:\\Programs") rfl rfl (by decide) rfl⟩

/-- C3 as stated fails: the shortcut of a legacy install resolves to
`C:\MyOldApps\GroupManager`, whose separator count is 2, and
`UninstallApplication` passes it to `DeleteDirectory`. -/
theorem UninstallApplication_deletes_target_of_depth_two :
    DirDepth (L "C:\\MyOldApps\\GroupManager") ≤ 2 ∧
    (UninstallApplication cLocale legacyUninstallEnv (L "GroupManager") (L "MyOldApps")).map
      (fun ev => decide (Event.DeleteDirectory (L "C:\\MyOldApps\\GroupManager") ∈ ev))
      = some true := by
  decide

/-! ## ProcessInstall -/

theorem UninstallApplication_isSome (loc : Locale) (env : UninstallEnv) (c : Char)
    (tail folderName : WStr) :
    ∃ ev, UninstallApplication loc env (c :: tail) folderName = some ev := by
  simp [UninstallApplication, AddSpaces_cons]

theorem RegisterApp_map_fst (loc : Locale) (env : RegisterEnv) (c : Char)
    (tail exe folder : WStr) :
    (RegisterApp loc env exe folder (c :: tail)).map Prod.fst = some (RegisterApp.retval env) := by
  simp only [RegisterApp, AddSpaces_cons, RegisterApp.retval]
  split
  · split <;> simp
  · simp

theorem ite_some_some {α : Type} (p : Prop) [Decidable p] (a b : α) :
    (if p then some a else some b) = some (if p then a else b) := by
  split <;> rfl

theorem zip_beq_exe : (L "\\*.zip" == L "\\*.exe") = false := by decide

theorem noStage_of_all {l : List Event} (h : l.all (fun e => !e.isStage) = true) :
    ∀ e ∈ l, e.isStage = false := by
  simpa using h

theorem install_isSome (env : InstallEnv) (c : Char) (tail appdata lz zf : WStr) (g : Globals) :
    ∃ out, ProcessInstall.install env (c :: tail) appdata lz zf g = some out := by
  obtain ⟨u1, hu1⟩ := UninstallApplication_isSome env.locale env.uninstallOld c tail (L "MyOldApps")
  obtain ⟨u2, hu2⟩ := UninstallApplication_isSome env.locale env.uninstallNew c tail (L "MyApps")
  simp only [ProcessInstall.install, hu1, hu2, RegisterApp_map_fst, ite_some_some, ite_self]
  exact ⟨_, rfl⟩

theorem ProcessInstall_cases (env : InstallEnv) (appName : WStr) (g : Globals) :
    (∃ out, ProcessInstall env appName g = some out ∧ out.globals = g ∧
      ∀ e ∈ out.events, e.isStage = false) ∨
    (∃ c tail appdata zf inner pre, appName = c :: tail ∧ env.localAppData = some appdata ∧
      ProcessInstall.install env appName appdata (wcscat_s appdata (L "\\Worley\\")) zf g
        = some inner ∧
      ProcessInstall env appName g = some { inner with events := pre ++ inner.events } ∧
      ∀ e ∈ pre, e.isStage = false) := by
  unfold ProcessInstall
  cases hA : env.localAppData with
  | none => left; exact ⟨_, rfl, rfl, noStage_of_all (by simp [Event.isStage])⟩
  | some appdata =>
    simp only []
    by_cases hW : (!env.worleyDirExists (wcscat_s appdata (L "\\Worley\\")) &&
        !env.wmkdir (wcscat_s appdata (L "\\Worley\\"))) = true
    · left; simp only [hW, if_true]
      exact ⟨_, rfl, rfl, noStage_of_all (by simp [Event.isStage])⟩
    · simp only [hW]
      cases appName with
      | nil =>
        left; simp only [wcslen, List.length_nil, gt_iff_lt, lt_self_iff_false, if_false]
        exact ⟨_, rfl, rfl, noStage_of_all (by split <;> simp [Event.isStage])⟩
      | cons c tail =>
        simp only [wcslen, List.length_cons, gt_iff_lt, Nat.zero_lt_succ, if_true]
        by_cases hF : env.appFolderExists (wcscat_s PROGRAMDIR (c :: tail)) = true
        · simp only [hF, Bool.not_true]
          cases hZ : GetNewestFileInDir env.zipSearch (wcscat_s PROGRAMDIR (c :: tail)) (L "\\*.zip") with
          | none =>
            left
            exact ⟨_, rfl, rfl, noStage_of_all (by split <;> simp [Event.isStage, zip_beq_exe])⟩
          | some zf =>
            simp only []
            by_cases hzf : zf.length < 1
            · left; simp only [hzf, if_true]
              exact ⟨_, rfl, rfl, noStage_of_all (by split <;> simp [Event.isStage, zip_beq_exe])⟩
            · simp only [hzf, if_false]
              right
              cases hI : ProcessInstall.install env (c :: tail) appdata
                  (wcscat_s appdata (L "\\Worley\\")) zf g with
              | none =>
                obtain ⟨inner, hinner⟩ := install_isSome env c tail appdata
                  (wcscat_s appdata (L "\\Worley\\")) zf g
                rw [hinner] at hI
                exact absurd hI (by simp)
              | some inner =>
                refine ⟨c, tail, appdata, zf, inner,
                  ((if env.worleyDirExists (wcscat_s appdata (L "\\Worley\\")) then []
                    else [Event.wmkdir (wcscat_s appdata (L "\\Worley\\")) true]) ++
                    [Event.UpdateInstaller appdata env.UpdateInstaller]) ++
                    [Event.GetNewestFileInDir (wcscat_s PROGRAMDIR (c :: tail)) (L "\\*.zip")
                      (some zf)],
                  rfl, rfl, hI, ?_, ?_⟩
                · simp [Option.map]
                · exact noStage_of_all (by split <;> simp [Event.isStage, zip_beq_exe])
        · left
          simp only [hF]
          exact ⟨_, rfl, rfl, noStage_of_all (by split <;> simp [Event.isStage])⟩

theorem mem_append_stage {pre rest : List Event} (hpre : ∀ e ∈ pre, e.isStage = false)
    {e : Event} (he : e.isStage = true) : e ∈ pre ++ rest ↔ e ∈ rest := by
  constructor
  · intro h
    rcases List.mem_append.mp h with h | h
    · rw [hpre e h] at he; cases he
    · exact h
  · intro h; exact List.mem_append_right _ h

theorem install_running (env : InstallEnv) (c : Char) (tail appdata lz zf : WStr)
    (out : Outcome)
    (h : ProcessInstall.install env (c :: tail) appdata lz zf Globals.initial = some out) :
    (∀ zip r, Event.CheckIfRunning zip r ∈ out.events →
      r = (CheckIfRunning env.locale env.check zip).1) ∧
    ((∃ src dst, Event.CopyFileWithProgress src dst 0 ∈ out.events) →
     (∃ zip, Event.CheckIfRunning zip 1 ∈ out.events) →
      (∀ a f, Event.UninstallApplication a f ∉ out.events) ∧
      (∀ z d r, Event.ExtractZip z d r ∉ out.events) ∧
      (∀ x f a r, Event.RegisterApp x f a r ∉ out.events) ∧
      out.globals.GOODTOLAUNCH = false ∧ out.returned = some 0) := by
  obtain ⟨u1, hu1⟩ := UninstallApplication_isSome env.locale env.uninstallOld c tail (L "MyOldApps")
  obtain ⟨u2, hu2⟩ := UninstallApplication_isSome env.locale env.uninstallNew c tail (L "MyApps")
  simp only [ProcessInstall.install, hu1, hu2, RegisterApp_map_fst, ite_some_some, ite_self,
    Option.some.injEq] at h
  subst h
  generalize int_of_DWORD (CopyFileWithProgress env.copy zf _).retval = r0
  generalize hrc : (CheckIfRunning env.locale env.check _).1 = rc
  generalize int_of_DWORD (ExtractZip env.extract _ _).retval = rx
  generalize RegisterApp.retval env.register = rr
  by_cases h0 : r0 = 0
  · by_cases h1 : rc = 0
    · subst h0 h1
      simp [Globals.initial, wcslen]
      exact hrc.symm
    · simp [h0, h1, Globals.initial, wcslen]
      exact hrc.symm
  · simp [h0, Globals.initial, wcslen]

/-- C1: starting from the initial globals, in every run of `ProcessInstall` in
which the transfer succeeds (returns 0) and `CheckIfRunning` returns 1,
`ProcessInstall` calls none of `UninstallApplication`, `ExtractZip` and
`RegisterApp`, and it returns with `GOODTOLAUNCH` still `FALSE`; the value
recorded for the `CheckIfRunning` call is the one the function returns for this
environment. -/
theorem ProcessInstall_running_is_hard_stop (env : InstallEnv) (appName : WStr) :
    ∃ out, ProcessInstall env appName Globals.initial = some out ∧
      (∀ zip r, Event.CheckIfRunning zip r ∈ out.events →
        r = (CheckIfRunning env.locale env.check zip).1) ∧
      ((∃ src dst, Event.CopyFileWithProgress src dst 0 ∈ out.events) →
       (∃ zip, Event.CheckIfRunning zip 1 ∈ out.events) →
        (∀ a f, Event.UninstallApplication a f ∉ out.events) ∧
        (∀ z d r, Event.ExtractZip z d r ∉ out.events) ∧
        (∀ x f a r, Event.RegisterApp x f a r ∉ out.events) ∧
        out.globals.GOODTOLAUNCH = false ∧ out.returned = some 0) := by
  rcases ProcessInstall_cases env appName Globals.initial with
    ⟨out, hout, _, hns⟩ | ⟨c, tail, appdata, zf, inner, pre, rfl, _, hI, hP, hpre⟩
  · refine ⟨out, hout, ?_, ?_⟩
    · intro zip r hmem
      have := hns _ hmem
      simp [Event.isStage] at this
    · rintro ⟨src, dst, hmem⟩
      have := hns _ hmem
      simp [Event.isStage] at this
  · refine ⟨_, hP, ?_⟩
    have hm : ∀ e : Event, e.isStage = true → (e ∈ pre ++ inner.events ↔ e ∈ inner.events) :=
      fun e he => mem_append_stage hpre he
    have key := install_running env c tail appdata _ zf inner hI
    simpa only [hm, Event.isStage] using key

/-- Witness for C1: `Widget.exe` is among the live processes. -/
theorem ProcessInstall_running_is_hard_stop_witness :
    ∃ out, ProcessInstall runningEnv (L "Widget") Globals.initial = some out ∧
      (∃ src dst, Event.CopyFileWithProgress src dst 0 ∈ out.events) ∧
      (∃ zip, Event.CheckIfRunning zip 1 ∈ out.events) ∧
      (∀ a f, Event.UninstallApplication a f ∉ out.events) ∧
      (∀ z d r, Event.ExtractZip z d r ∉ out.events) ∧
      (∀ x f a r, Event.RegisterApp x f a r ∉ out.events) ∧
      out.globals.GOODTOLAUNCH = false ∧ out.returned = some 0 := by
  obtain ⟨out, hout, _, himp⟩ := ProcessInstall_running_is_hard_stop runningEnv (L "Widget")
  have hc : (ProcessInstall runningEnv (L "Widget") Globals.initial).map
      (fun o =>
        decide (Event.CopyFileWithProgress (L "c:\\Dev\\Test\\Widget\\widget_v2.zip")
          (L "C:\\Users\\me\\AppData\\Local\\Worley\\Widget.zip") 0 ∈ o.events) &&
        decide (Event.CheckIfRunning (L "C:\\Users\\me\\AppData\\Local\\Worley\\Widget.zip") 1
          ∈ o.events)) = some true := by
    decide
  rw [hout] at hc
  simp only [Option.map_some', Option.some.injEq, Bool.and_eq_true, decide_eq_true_eq] at hc
  exact ⟨out, hout, ⟨_, _, hc.1⟩, ⟨_, hc.2⟩, himp ⟨_, _, hc.1⟩ ⟨_, hc.2⟩⟩

theorem GetNewestFileInDir_shape (findFiles : WStr → List FindData) (dirLoc ext f : WStr)
    (h : GetNewestFileInDir findFiles dirLoc ext = some f) :
    ∃ name, f = dirLoc ++ L "\\" ++ name := by
  simp only [GetNewestFileInDir] at h
  split at h
  · cases h
  · simp only [wcscat_s, Option.some.injEq] at h
    exact ⟨_, h.symm⟩

theorem MyApps_ne_Worley (appdata appName rest rest2 : WStr) :
    appdata ++ L "\\MyApps\\" ++ appName ++ rest ≠ appdata ++ L "\\Worley\\" ++ appName ++ rest2 := by
  intro h
  simp only [List.append_assoc] at h
  have h2 := List.append_cancel_left h
  simp [L] at h2

theorem Worley_not_under_MyApps (appdata appName name : WStr) :
    ¬ (appdata ++ L "\\Worley\\" ++ appName) <+: (appdata ++ L "\\MyApps\\" ++ appName ++ L "\\" ++ name) := by
  rintro ⟨t, ht⟩
  exact MyApps_ne_Worley appdata appName (L "\\" ++ name) t (by simpa [List.append_assoc] using ht.symm)

theorem install_search_dir (env : InstallEnv) (c : Char) (tail appdata lz zf : WStr)
    (out : Outcome)
    (h : ProcessInstall.install env (c :: tail) appdata lz zf Globals.initial = some out) :
    ∀ zip outdir r dir nf, Event.ExtractZip zip outdir r ∈ out.events →
      Event.GetNewestFileInDir dir (L "\\*.exe") nf ∈ out.events →
      outdir = lz ++ c :: tail ∧ dir = appdata ++ L "\\MyApps\\" ++ c :: tail ∧
      nf = GetNewestFileInDir env.exeSearch dir (L "\\*.exe") ∧
      ∀ f, nf = some f → out.globals.exeFileName = f := by
  obtain ⟨u1, hu1⟩ := UninstallApplication_isSome env.locale env.uninstallOld c tail (L "MyOldApps")
  obtain ⟨u2, hu2⟩ := UninstallApplication_isSome env.locale env.uninstallNew c tail (L "MyApps")
  simp only [ProcessInstall.install, hu1, hu2, RegisterApp_map_fst, ite_some_some, ite_self,
    Option.some.injEq] at h
  subst h
  generalize int_of_DWORD (CopyFileWithProgress env.copy zf _).retval = r0
  generalize hrc : (CheckIfRunning env.locale env.check _).1 = rc
  generalize int_of_DWORD (ExtractZip env.extract _ _).retval = rx
  generalize RegisterApp.retval env.register = rr
  intro zip outdir r dir nf
  by_cases h0 : r0 = 0
  · by_cases h1 : rc = 0
    · by_cases hx : rx = 0
      · subst h0 h1 hx
        simp only [wcscat_s, Globals.initial, wcslen, if_true]
        generalize hnf : GetNewestFileInDir env.exeSearch (appdata ++ L "\\MyApps\\" ++ c :: tail)
            (L "\\*.exe") = nf0
        cases nf0 with
        | none =>
          simp
          intro _ ho _ hd hn
          subst hd hn
          simp only [List.append_assoc] at hnf
          simp [hnf, ho]
        | some f =>
          obtain ⟨name, hname⟩ := GetNewestFileInDir_shape _ _ _ _ hnf
          have hpos : 0 < f.length := by rw [hname]; simp [L]
          simp [hpos]
          intro _ ho _ hd hn
          subst hd hn
          simp only [List.append_assoc] at hnf
          simp [hnf, ho]
      · simp [h0, h1, hx, Globals.initial, wcslen]
    · simp [h0, h1, Globals.initial, wcslen]
  · simp [h0, Globals.initial, wcslen]

/-- C4 (what the code does): in every run, the directory `ProcessInstall`
hands to `ExtractZip` is `<LocalAppData>\Worley\<appName>`, while the directory
it searches for the newest `*.exe` is `<LocalAppData>\MyApps\<appName>`; the
two differ, and an executable path found by the search becomes `exeFileName`
and lies under the searched directory, not under the extraction directory. -/
theorem ProcessInstall_searches_MyApps_extracts_to_Worley (env : InstallEnv) (appName : WStr) :
    ∃ out, ProcessInstall env appName Globals.initial = some out ∧
      ∀ zip outdir r dir nf, Event.ExtractZip zip outdir r ∈ out.events →
        Event.GetNewestFileInDir dir (L "\\*.exe") nf ∈ out.events →
        ∃ appdata, env.localAppData = some appdata ∧
          outdir = appdata ++ L "\\Worley\\" ++ appName ∧
          dir = appdata ++ L "\\MyApps\\" ++ appName ∧
          dir ≠ outdir ∧
          ∀ f, nf = some f →
            out.globals.exeFileName = f ∧ dir <+: f ∧ ¬ outdir <+: f := by
  rcases ProcessInstall_cases env appName Globals.initial with
    ⟨out, hout, _, hns⟩ | ⟨c, tail, appdata, zf, inner, pre, rfl, hA, hI, hP, hpre⟩
  · refine ⟨out, hout, ?_⟩
    intro zip outdir r dir nf hmem
    have := hns _ hmem
    simp [Event.isStage] at this
  · refine ⟨_, hP, ?_⟩
    have hm : ∀ e : Event, e.isStage = true → (e ∈ pre ++ inner.events ↔ e ∈ inner.events) :=
      fun e he => mem_append_stage hpre he
    have key := install_search_dir env c tail appdata _ zf inner hI
    intro zip outdir r dir nf h1 h2
    simp only [hm, Event.isStage, beq_self_eq_true] at h1 h2
    obtain ⟨ho, hd, hn, hf⟩ := key zip outdir r dir nf h1 h2
    refine ⟨appdata, hA, ?_, hd, ?_, ?_⟩
    · simpa [wcscat_s, List.append_assoc] using ho
    · rw [hd, ho]
      have := MyApps_ne_Worley appdata (c :: tail) [] []
      simpa [wcscat_s, List.append_assoc] using this
    · intro f hnf
      refine ⟨hf f hnf, ?_, ?_⟩
      · rw [hnf] at hn
        obtain ⟨name, hname⟩ := GetNewestFileInDir_shape _ _ _ _ hn.symm
        exact ⟨L "\\" ++ name, by rw [hname]; simp [List.append_assoc]⟩
      · rw [hnf] at hn
        obtain ⟨name, hname⟩ := GetNewestFileInDir_shape _ _ _ _ hn.symm
        rw [hname, hd, ho]
        have := Worley_not_under_MyApps appdata (c :: tail) name
        simpa [wcscat_s, List.append_assoc] using this

/-- C4 at the failing input: installing "Widget" extracts to `...\Worley\Widget`
and then takes the executable from `...\MyApps\Widget`. -/
theorem ProcessInstall_searches_MyApps_extracts_to_Worley_witness :
    (ProcessInstall widgetEnv (L "Widget") Globals.initial).map
      (fun out =>
        decide (Event.ExtractZip (L "C:\\Users\\me\\AppData\\Local\\Worley\\Widget.zip")
          (L "C:\\Users\\me\\AppData\\Local\\Worley\\Widget") 0 ∈ out.events) &&
        decide (Event.GetNewestFileInDir (L "C:\\Users\\me\\AppData\\Local\\MyApps\\Widget")
          (L "\\*.exe") (some (L "C:\\Users\\me\\AppData\\Local\\MyApps\\Widget\\Widget.exe"))
          ∈ out.events) &&
        decide (out.globals.exeFileName
          = L "C:\\Users\\me\\AppData\\Local\\MyApps\\Widget\\Widget.exe"))
      = some true ∧
    (∃ out, ProcessInstall widgetEnv (L "Widget") Globals.initial = some out ∧
      ∀ zip outdir r dir nf, Event.ExtractZip zip outdir r ∈ out.events →
        Event.GetNewestFileInDir dir (L "\\*.exe") nf ∈ out.events → dir ≠ outdir) := by
  refine ⟨by decide, ?_⟩
  obtain ⟨out, hout, h⟩ :=
    ProcessInstall_searches_MyApps_extracts_to_Worley widgetEnv (L "Widget")
  refine ⟨out, hout, ?_⟩
  intro zip outdir r dir nf h1 h2
  obtain ⟨_, _, _, _, hne, _⟩ := h zip outdir r dir nf h1 h2
  exact hne

theorem install_no_executable (env : InstallEnv) (c : Char) (tail appdata lz zf : WStr)
    (out : Outcome)
    (h : ProcessInstall.install env (c :: tail) appdata lz zf Globals.initial = some out) :
    (∃ dir, Event.GetNewestFileInDir dir (L "\\*.exe") none ∈ out.events) →
      out.globals.GOODTOLAUNCH = true ∧ out.globals.exeFileName = [] ∧
      (∀ x f a r, Event.RegisterApp x f a r ∉ out.events) ∧
      Event.AddMessage (L "ERROR") (L "1096 ProcessInstall: Did not find unzipped executable")
        ∈ out.events := by
  obtain ⟨u1, hu1⟩ := UninstallApplication_isSome env.locale env.uninstallOld c tail (L "MyOldApps")
  obtain ⟨u2, hu2⟩ := UninstallApplication_isSome env.locale env.uninstallNew c tail (L "MyApps")
  have hreg := fun exe folder => RegisterApp_map_fst env.locale env.register c tail exe folder
  simp only [ProcessInstall.install, hu1, hu2, RegisterApp_map_fst, ite_some_some, ite_self,
    Option.some.injEq] at h
  subst h
  generalize hr0 : int_of_DWORD (CopyFileWithProgress env.copy zf _).retval = r0
  generalize hrc : (CheckIfRunning env.locale env.check _).1 = rc
  generalize hrx : int_of_DWORD (ExtractZip env.extract _ _).retval = rx
  generalize hrr : RegisterApp.retval env.register = rr at hreg ⊢
  by_cases h0 : r0 = 0
  · by_cases h1 : rc = 0
    · by_cases hx : rx = 0
      · subst h0 h1 hx
        simp only [if_true]
        generalize hnf : GetNewestFileInDir env.exeSearch _ _ = nf0
        cases nf0 with
        | none => simp [Globals.initial, wcslen]
        | some f =>
          by_cases hpos : 0 < f.length
          · simp [Globals.initial, wcslen, hpos]
          · simp [Globals.initial, wcslen, hpos]
      · simp [h0, h1, hx, Globals.initial, wcslen]
    · simp [h0, h1, Globals.initial, wcslen]
  · simp [h0, Globals.initial, wcslen]

theorem install_stage_failure (env : InstallEnv) (c : Char) (tail appdata lz zf : WStr)
    (out : Outcome)
    (h : ProcessInstall.install env (c :: tail) appdata lz zf Globals.initial = some out) :
    (∀ src dst r, Event.CopyFileWithProgress src dst r ∈ out.events →
      r = int_of_DWORD (CopyFileWithProgress env.copy src dst).retval ∧
      (r ≠ 0 →
        (∀ z r, Event.CheckIfRunning z r ∉ out.events) ∧
        (∀ a f, Event.UninstallApplication a f ∉ out.events) ∧
        (∀ z d r, Event.ExtractZip z d r ∉ out.events) ∧
        (∀ d nf, Event.GetNewestFileInDir d (L "\\*.exe") nf ∉ out.events) ∧
        (∀ x f a r, Event.RegisterApp x f a r ∉ out.events) ∧
        out.globals.GOODTOLAUNCH = false)) ∧
    (∀ z d r, Event.ExtractZip z d r ∈ out.events →
      r = int_of_DWORD (ExtractZip env.extract z d).retval ∧
      (r ≠ 0 →
        (∀ d nf, Event.GetNewestFileInDir d (L "\\*.exe") nf ∉ out.events) ∧
        (∀ x f a r, Event.RegisterApp x f a r ∉ out.events) ∧
        out.globals.GOODTOLAUNCH = false)) ∧
    (∀ x f a r, Event.RegisterApp x f a r ∈ out.events →
      (RegisterApp env.locale env.register x f a).map Prod.fst = some r ∧
      (r ≠ 0 → out.globals.GOODTOLAUNCH = false)) := by
  obtain ⟨u1, hu1⟩ := UninstallApplication_isSome env.locale env.uninstallOld c tail (L "MyOldApps")
  obtain ⟨u2, hu2⟩ := UninstallApplication_isSome env.locale env.uninstallNew c tail (L "MyApps")
  have hreg := fun exe folder => RegisterApp_map_fst env.locale env.register c tail exe folder
  simp only [ProcessInstall.install, hu1, hu2, RegisterApp_map_fst, ite_some_some, ite_self,
    Option.some.injEq] at h
  subst h
  generalize hr0 : int_of_DWORD (CopyFileWithProgress env.copy zf _).retval = r0
  generalize hrc : (CheckIfRunning env.locale env.check _).1 = rc
  generalize hrx : int_of_DWORD (ExtractZip env.extract _ _).retval = rx
  generalize hrr : RegisterApp.retval env.register = rr at hreg ⊢
  by_cases h0 : r0 = 0
  · by_cases h1 : rc = 0
    · by_cases hx : rx = 0
      · subst h0 h1 hx
        simp only [if_true]
        generalize hnf : GetNewestFileInDir env.exeSearch _ _ = nf0
        cases nf0 with
        | none =>
          simp [Globals.initial, wcslen]
          refine ⟨?_, ?_⟩ <;> intros <;> subst_vars <;> simp [hr0, hrx]
        | some f =>
          by_cases hpos : 0 < f.length
          · simp [Globals.initial, wcslen, hpos]
            refine ⟨?_, ?_, ?_⟩ <;> intros <;> subst_vars <;>
              first
              | (simpa using hreg _ _)
              | simp [hr0, hrx]
          · simp [Globals.initial, wcslen, hpos]
            refine ⟨?_, ?_⟩ <;> intros <;> subst_vars <;> simp [hr0, hrx]
      · simp [h0, h1, hx, Globals.initial, wcslen]
        refine ⟨?_, ?_⟩ <;> intros <;> subst_vars <;> simp_all
    · simp [h0, h1, Globals.initial, wcslen]
      intros; subst_vars; simp_all
  · simp [h0, Globals.initial, wcslen]
    intros; subst_vars; simp_all

theorem install_check_error (env : InstallEnv) (c : Char) (tail appdata lz zf : WStr)
    (out : Outcome)
    (h : ProcessInstall.install env (c :: tail) appdata lz zf Globals.initial = some out) :
    ∀ zip r, Event.CheckIfRunning zip r ∈ out.events →
      r = (CheckIfRunning env.locale env.check zip).1 ∧
      (r = -1 →
        (∀ a f, Event.UninstallApplication a f ∉ out.events) ∧
        (∀ z d r, Event.ExtractZip z d r ∉ out.events) ∧
        (∀ d nf, Event.GetNewestFileInDir d (L "\\*.exe") nf ∉ out.events) ∧
        (∀ x f a r, Event.RegisterApp x f a r ∉ out.events) ∧
        out.globals.GOODTOLAUNCH = false) := by
  obtain ⟨u1, hu1⟩ := UninstallApplication_isSome env.locale env.uninstallOld c tail (L "MyOldApps")
  obtain ⟨u2, hu2⟩ := UninstallApplication_isSome env.locale env.uninstallNew c tail (L "MyApps")
  simp only [ProcessInstall.install, hu1, hu2, RegisterApp_map_fst, ite_some_some, ite_self,
    Option.some.injEq] at h
  subst h
  generalize hr0 : int_of_DWORD (CopyFileWithProgress env.copy zf _).retval = r0
  generalize hrc : (CheckIfRunning env.locale env.check _).1 = rc
  generalize hrx : int_of_DWORD (ExtractZip env.extract _ _).retval = rx
  generalize hrr : RegisterApp.retval env.register = rr
  by_cases h0 : r0 = 0
  · by_cases h1 : rc = 0
    · subst h0 h1
      simp [Globals.initial, wcslen]
      subst_vars; simp_all
    · simp [h0, h1, Globals.initial, wcslen]
      subst_vars; simp_all
  · simp [h0, Globals.initial, wcslen]

theorem CheckIfRunning_loop_no_exe (loc : Locale) (processes : Option (List WStr))
    (entries : List ZipEntry)
    (h : ∀ e ∈ entries, ∀ n, e.name = some n → strchr_dot n ≠ some (L ".exe")) :
    CheckIfRunning.loop loc processes entries = -1 := by
  induction entries with
  | nil => rfl
  | cons e rest ih =>
    have ih2 := ih (fun e he => h e (List.mem_cons_of_mem _ he))
    unfold CheckIfRunning.loop
    cases hn : e.name with
    | none => simpa using ih2
    | some n =>
      have hne := h e (List.mem_cons_self _ _) n hn
      cases hs : strchr_dot n with
      | none => simpa [hs] using ih2
      | some ext =>
        have hext : ext ≠ L ".exe" := by
          intro heq; rw [heq] at hs; exact hne hs
        simpa [hs, hext] using ih2

theorem CopyFileWithProgress_failure (cenv : CopyEnv) (src dst : WStr)
    (h : cenv.source = none ∨ cenv.destinationOpens = false ∨
      ∃ bytes, cenv.source = some bytes ∧ ftell bytes.length ≤ 0) :
    int_of_DWORD (CopyFileWithProgress cenv src dst).retval = -1 := by
  have hm1 : int_of_DWORD (DWORD_of_int (-1)) = -1 := by decide
  unfold CopyFileWithProgress
  rcases h with h | h | ⟨bytes, h, hz⟩
  · simp [h, hm1]
  · cases hs : cenv.source with
    | none => simp [hm1]
    | some b => simp [h, hm1]
  · cases hd : cenv.destinationOpens with
    | false => simp [h, hm1]
    | true => simp [h, hz, hm1]

theorem ExtractZip_cannot_open (xenv : ExtractEnv) (z d : WStr) (h : xenv.archive = none) :
    int_of_DWORD (ExtractZip xenv z d).retval = -1 := by
  have hm1 : int_of_DWORD (DWORD_of_int (-1)) = -1 := by decide
  simp [ExtractZip, h, hm1]

theorem RegisterApp_failure (loc : Locale) (renv : RegisterEnv) (exe folder appName : WStr)
    (r : Int) (hr : (RegisterApp loc renv exe folder appName).map Prod.fst = some r)
    (h : renv.programs = none ∨ CreateShortcut renv = false) : r = -1 := by
  unfold RegisterApp at hr
  cases ha : AddSpaces loc appName with
  | none => simp [ha] at hr
  | some sn =>
    simp only [ha] at hr
    rcases h with h | h
    · simp only [h, Option.map_some', Option.some.injEq] at hr
      exact hr.symm
    · cases hp : renv.programs with
      | none =>
        simp only [hp, Option.map_some', Option.some.injEq] at hr
        exact hr.symm
      | some p =>
        simp only [hp, h, Bool.not_false, if_true, Option.map_some', Option.some.injEq] at hr
        exact hr.symm

/-- C5 (what the code does): starting from the initial globals, in every run
in which the search for the extracted executable returns `NULL`,
`ProcessInstall` logs the error, leaves `exeFileName` empty and does not call
`RegisterApp`, but still sets `GOODTOLAUNCH` to `TRUE`. -/
theorem ProcessInstall_sets_launch_flag_without_executable (env : InstallEnv)
    (appName : WStr) :
    ∃ out, ProcessInstall env appName Globals.initial = some out ∧
      ((∃ dir, Event.GetNewestFileInDir dir (L "\\*.exe") none ∈ out.events) →
        out.globals.GOODTOLAUNCH = true ∧ out.globals.exeFileName = [] ∧
        (∀ x f a r, Event.RegisterApp x f a r ∉ out.events) ∧
        Event.AddMessage (L "ERROR")
          (L "1096 ProcessInstall: Did not find unzipped executable") ∈ out.events) := by
  rcases ProcessInstall_cases env appName Globals.initial with
    ⟨out, hout, _, hns⟩ | ⟨c, tail, appdata, zf, inner, pre, rfl, _, hI, hP, hpre⟩
  · refine ⟨out, hout, ?_⟩
    rintro ⟨dir, hmem⟩
    have := hns _ hmem
    simp [Event.isStage] at this
  · refine ⟨_, hP, ?_⟩
    have hm : ∀ e : Event, e.isStage = true → (e ∈ pre ++ inner.events ↔ e ∈ inner.events) :=
      fun e he => mem_append_stage hpre he
    have key := install_no_executable env c tail appdata _ zf inner hI
    simp only [hm, Event.isStage, beq_self_eq_true]
    intro hex
    obtain ⟨k1, k2, k3, k4⟩ := key hex
    exact ⟨k1, k2, k3, List.mem_append_right _ k4⟩

/-- C5 at the failing input: the transfer, the running check and the extraction
succeed and the search finds nothing; `GOODTOLAUNCH` ends `TRUE`. -/
theorem ProcessInstall_sets_launch_flag_without_executable_witness :
    (ProcessInstall noExeEnv (L "Widget") Globals.initial).map
      (fun out =>
        decide (Event.ExtractZip (L "C:\\Users\\me\\AppData\\Local\\Worley\\Widget.zip")
          (L "C:\\Users\\me\\AppData\\Local\\Worley\\Widget") 0 ∈ out.events) &&
        decide (Event.GetNewestFileInDir (L "C:\\Users\\me\\AppData\\Local\\MyApps\\Widget")
          (L "\\*.exe") none ∈ out.events) &&
        out.globals.GOODTOLAUNCH)
      = some true ∧
    (∃ out, ProcessInstall noExeEnv (L "Widget") Globals.initial = some out ∧
      out.globals.GOODTOLAUNCH = true ∧ out.globals.exeFileName = []) := by
  have hc : (ProcessInstall noExeEnv (L "Widget") Globals.initial).map
      (fun out =>
        decide (Event.ExtractZip (L "C:\\Users\\me\\AppData\\Local\\Worley\\Widget.zip")
          (L "C:\\Users\\me\\AppData\\Local\\Worley\\Widget") 0 ∈ out.events) &&
        decide (Event.GetNewestFileInDir (L "C:\\Users\\me\\AppData\\Local\\MyApps\\Widget")
          (L "\\*.exe") none ∈ out.events) &&
        out.globals.GOODTOLAUNCH)
      = some true := by decide
  refine ⟨hc, ?_⟩
  obtain ⟨out, hout, himp⟩ :=
    ProcessInstall_sets_launch_flag_without_executable noExeEnv (L "Widget")
  rw [hout] at hc
  simp only [Option.map_some', Option.some.injEq, Bool.and_eq_true, decide_eq_true_eq] at hc
  obtain ⟨k1, k2, _, _⟩ := himp ⟨_, hc.1.2⟩
  exact ⟨out, hout, k1, k2⟩

/-- C6: starting from the initial globals, in every run of `ProcessInstall`:
if `CopyFileWithProgress` fails (returns non-zero), none of `CheckIfRunning`,
`UninstallApplication`, `ExtractZip`, the executable search and `RegisterApp`
is called; if `ExtractZip` fails, neither the executable search nor
`RegisterApp` is called; and in both cases, as when `RegisterApp` fails,
`GOODTOLAUNCH` is `FALSE` on return.  The values recorded for the calls are
those the functions return for this environment, and the functions return -1
when the source or destination cannot be opened or the source is empty, when
the archive cannot be opened, and when the Programs folder or the shortcut
cannot be obtained. -/
theorem ProcessInstall_stage_failure_halts (env : InstallEnv) (appName : WStr) :
    (∃ out, ProcessInstall env appName Globals.initial = some out ∧
      (∀ src dst r, Event.CopyFileWithProgress src dst r ∈ out.events →
        r = int_of_DWORD (CopyFileWithProgress env.copy src dst).retval ∧
        (r ≠ 0 →
          (∀ z r, Event.CheckIfRunning z r ∉ out.events) ∧
          (∀ a f, Event.UninstallApplication a f ∉ out.events) ∧
          (∀ z d r, Event.ExtractZip z d r ∉ out.events) ∧
          (∀ d nf, Event.GetNewestFileInDir d (L "\\*.exe") nf ∉ out.events) ∧
          (∀ x f a r, Event.RegisterApp x f a r ∉ out.events) ∧
          out.globals.GOODTOLAUNCH = false)) ∧
      (∀ z d r, Event.ExtractZip z d r ∈ out.events →
        r = int_of_DWORD (ExtractZip env.extract z d).retval ∧
        (r ≠ 0 →
          (∀ d nf, Event.GetNewestFileInDir d (L "\\*.exe") nf ∉ out.events) ∧
          (∀ x f a r, Event.RegisterApp x f a r ∉ out.events) ∧
          out.globals.GOODTOLAUNCH = false)) ∧
      (∀ x f a r, Event.RegisterApp x f a r ∈ out.events →
        (RegisterApp env.locale env.register x f a).map Prod.fst = some r ∧
        (r ≠ 0 → out.globals.GOODTOLAUNCH = false))) ∧
    (∀ src dst, (env.copy.source = none ∨ env.copy.destinationOpens = false ∨
        ∃ bytes, env.copy.source = some bytes ∧ ftell bytes.length ≤ 0) →
      int_of_DWORD (CopyFileWithProgress env.copy src dst).retval = -1) ∧
    (∀ z d, env.extract.archive = none →
      int_of_DWORD (ExtractZip env.extract z d).retval = -1) ∧
    (∀ x f a r, (RegisterApp env.locale env.register x f a).map Prod.fst = some r →
      (env.register.programs = none ∨ CreateShortcut env.register = false) → r = -1) := by
  refine ⟨?_, fun src dst h => CopyFileWithProgress_failure env.copy src dst h,
    fun z d h => ExtractZip_cannot_open env.extract z d h,
    fun x f a r hr h => RegisterApp_failure env.locale env.register x f a r hr h⟩
  rcases ProcessInstall_cases env appName Globals.initial with
    ⟨out, hout, _, hns⟩ | ⟨c, tail, appdata, zf, inner, pre, rfl, _, hI, hP, hpre⟩
  · refine ⟨out, hout, ?_, ?_, ?_⟩
    · intro src dst r hmem
      have := hns _ hmem
      simp [Event.isStage] at this
    · intro z d r hmem
      have := hns _ hmem
      simp [Event.isStage] at this
    · intro x f a r hmem
      have := hns _ hmem
      simp [Event.isStage] at this
  · refine ⟨_, hP, ?_⟩
    have hm : ∀ e : Event, e.isStage = true → (e ∈ pre ++ inner.events ↔ e ∈ inner.events) :=
      fun e he => mem_append_stage hpre he
    have key := install_stage_failure env c tail appdata _ zf inner hI
    simpa only [hm, Event.isStage, beq_self_eq_true] using key

/-- Witness for C6: the source archive cannot be opened. -/
theorem ProcessInstall_stage_failure_halts_witness :
    copyFailEnv.copy.source = none ∧
    ∃ out, ProcessInstall copyFailEnv (L "Widget") Globals.initial = some out ∧
      Event.CopyFileWithProgress (L "c:\\Dev\\Test\\Widget\\widget_v2.zip")
        (L "C:\\Users\\me\\AppData\\Local\\Worley\\Widget.zip") (-1) ∈ out.events ∧
      (∀ z r, Event.CheckIfRunning z r ∉ out.events) ∧
      (∀ z d r, Event.ExtractZip z d r ∉ out.events) ∧
      out.globals.GOODTOLAUNCH = false := by
  refine ⟨rfl, ?_⟩
  obtain ⟨⟨out, hout, hcopy, _, _⟩, _, _, _⟩ :=
    ProcessInstall_stage_failure_halts copyFailEnv (L "Widget")
  have hc : (ProcessInstall copyFailEnv (L "Widget") Globals.initial).map
      (fun o =>
        decide (Event.CopyFileWithProgress (L "c:\\Dev\\Test\\Widget\\widget_v2.zip")
          (L "C:\\Users\\me\\AppData\\Local\\Worley\\Widget.zip") (-1) ∈ o.events))
      = some true := by decide
  rw [hout] at hc
  simp only [Option.map_some', Option.some.injEq, decide_eq_true_eq] at hc
  obtain ⟨_, k⟩ := hcopy _ _ _ hc
  obtain ⟨k1, _, k3, _, _, k6⟩ := k (by decide)
  exact ⟨out, hout, hc, k1, k3, k6⟩

/-- C7 (amended): when `CheckIfRunning` returns the no-executable error -1,
`ProcessInstall` does not proceed: starting from the initial globals it calls
none of `UninstallApplication`, `ExtractZip`, the executable search and
`RegisterApp`, and `GOODTOLAUNCH` stays `FALSE`.  `CheckIfRunning` returns -1
whenever the archive opens and no entry name has `.exe` as the text from its
first dot on. -/
theorem ProcessInstall_check_error_skips_install (env : InstallEnv) (appName : WStr) :
    (∃ out, ProcessInstall env appName Globals.initial = some out ∧
      ∀ zip r, Event.CheckIfRunning zip r ∈ out.events →
        r = (CheckIfRunning env.locale env.check zip).1 ∧
        (r = -1 →
          (∀ a f, Event.UninstallApplication a f ∉ out.events) ∧
          (∀ z d r, Event.ExtractZip z d r ∉ out.events) ∧
          (∀ d nf, Event.GetNewestFileInDir d (L "\\*.exe") nf ∉ out.events) ∧
          (∀ x f a r, Event.RegisterApp x f a r ∉ out.events) ∧
          out.globals.GOODTOLAUNCH = false)) ∧
    (∀ zip entries, env.check.archive = some entries →
      (∀ e ∈ entries, ∀ n, e.name = some n → strchr_dot n ≠ some (L ".exe")) →
      (CheckIfRunning env.locale env.check zip).1 = -1) := by
  constructor
  · rcases ProcessInstall_cases env appName Globals.initial with
      ⟨out, hout, _, hns⟩ | ⟨c, tail, appdata, zf, inner, pre, rfl, _, hI, hP, hpre⟩
    · refine ⟨out, hout, ?_⟩
      intro zip r hmem
      have := hns _ hmem
      simp [Event.isStage] at this
    · refine ⟨_, hP, ?_⟩
      have hm : ∀ e : Event, e.isStage = true → (e ∈ pre ++ inner.events ↔ e ∈ inner.events) :=
        fun e he => mem_append_stage hpre he
      have key := install_check_error env c tail appdata _ zf inner hI
      simpa only [hm, Event.isStage, beq_self_eq_true] using key
  · intro zip entries ha hno
    simp only [CheckIfRunning, ha]
    exact CheckIfRunning_loop_no_exe _ _ _ hno

/-- Witness for C7: the archive holds `readme.txt` and `bin/widget.dll`. -/
theorem ProcessInstall_check_error_skips_install_witness :
    ∃ out, ProcessInstall noExeArchiveEnv (L "Widget") Globals.initial = some out ∧
      Event.CheckIfRunning (L "C:\\Users\\me\\AppData\\Local\\Worley\\Widget.zip") (-1)
        ∈ out.events ∧
      (∀ a f, Event.UninstallApplication a f ∉ out.events) ∧
      (∀ z d r, Event.ExtractZip z d r ∉ out.events) ∧
      out.globals.GOODTOLAUNCH = false := by
  obtain ⟨⟨out, hout, hchk⟩, _⟩ :=
    ProcessInstall_check_error_skips_install noExeArchiveEnv (L "Widget")
  have hc : (ProcessInstall noExeArchiveEnv (L "Widget") Globals.initial).map
      (fun o =>
        decide (Event.CheckIfRunning (L "C:\\Users\\me\\AppData\\Local\\Worley\\Widget.zip") (-1)
          ∈ o.events))
      = some true := by decide
  rw [hout] at hc
  simp only [Option.map_some', Option.some.injEq, decide_eq_true_eq] at hc
  obtain ⟨_, k⟩ := hchk _ _ hc
  obtain ⟨k1, k2, _, _, k5⟩ := k rfl
  exact ⟨out, hout, hc, k1, k2, k5⟩

/-- C7 as stated fails: the archive has no `.exe` entry, `CheckIfRunning`
returns -1, and the run performs neither the uninstall nor the extraction. -/
theorem ProcessInstall_check_error_does_not_proceed :
    (CheckIfRunning noExeArchiveEnv.locale noExeArchiveEnv.check
      (L "C:\\Users\\me\\AppData\\Local\\Worley\\Widget.zip")).1 = -1 ∧
    (ProcessInstall noExeArchiveEnv (L "Widget") Globals.initial).map
      (fun out =>
        decide (Event.CheckIfRunning (L "C:\\Users\\me\\AppData\\Local\\Worley\\Widget.zip")
          (-1) ∈ out.events) &&
        !out.events.any (fun e =>
          match e with
          | .UninstallApplication _ _ => true
          | .ExtractZip _ _ _ => true
          | _ => false))
      = some true := by
  decide

/-! ## AddSpaces: consecutive spaces -/

theorem twoSpaces_spaceWords (loc : Locale) (t : WStr) :
    ∀ p : Char, twoSpaces (p :: spaceWords loc t)
      = (twoSpaces (p :: t) || spaceBeforeBoundary loc (p :: t)) := by
  induction t with
  | nil => intro p; simp [spaceWords, twoSpaces, spaceBeforeBoundary]
  | cons x rest ih =>
    intro p
    cases rest with
    | nil => simp [spaceWords, twoSpaces, spaceBeforeBoundary]
    | cons y r =>
      have ihx := ih x
      by_cases hb : (loc.iswupper x && loc.iswlower y) = true
      · have hx : loc.iswupper x = true := by
          simp only [Bool.and_eq_true] at hb; exact hb.1
        have hy : loc.iswlower y = true := by
          simp only [Bool.and_eq_true] at hb; exact hb.2
        have hxs : (x == ' ') = false := by
          cases hxe : (x == ' ') with
          | false => rfl
          | true =>
            have : x = ' ' := by simpa using hxe
            rw [this, loc.upper_space] at hx; cases hx
        simp only [spaceWords, hb, if_true]
        simp only [twoSpaces, spaceBeforeBoundary, hx, hy, hxs, Bool.and_false, Bool.and_true,
          Bool.false_or, Bool.or_false, Bool.false_and] at ihx ⊢
        rw [ihx]
        cases (p == ' ') <;> simp
      · have hb2 : (loc.iswupper x && loc.iswlower y) = false := by simpa using hb
        simp only [spaceWords, hb2]
        simp only [twoSpaces, spaceBeforeBoundary] at ihx ⊢
        rw [ihx]
        have hb3 : (p == ' ' && loc.iswupper x && loc.iswlower y) = false := by
          rw [Bool.and_assoc, hb2, Bool.and_false]
        rw [hb3]
        cases (p == ' ' && x == ' ') <;> simp

/-- C11: `AddSpaces` itself puts two spaces side by side.  For every non-empty
input the output is defined and holds two consecutive spaces exactly when the
input holds two consecutive spaces, which are copied, or a space immediately
before an upper-case letter that is followed by a lower-case letter, in front
of which `AddSpaces` writes a second space. -/
theorem AddSpaces_two_spaces_iff (loc : Locale) (S : WStr) (hne : S ≠ []) :
    ∃ out, AddSpaces loc S = some out ∧
      twoSpaces out = (twoSpaces S || spaceBeforeBoundary loc S) := by
  cases S with
  | nil => exact absurd rfl hne
  | cons c tail =>
    refine ⟨_, AddSpaces_cons loc c tail, ?_⟩
    simp only [displayName]
    rw [twoSpaces_spaceWords]

/-- C11 on "My App", which holds no two consecutive spaces: the output is
"My  App", with two. -/
theorem AddSpaces_two_spaces_iff_witness :
    L "My App" ≠ [] ∧ twoSpaces (L "My App") = false ∧
    spaceBeforeBoundary cLocale (L "My App") = true ∧
    AddSpaces cLocale (L "My App") = some (L "My  App") ∧
    twoSpaces (L "My  App") = true ∧
    ∃ out, AddSpaces cLocale (L "My App") = some out ∧
      twoSpaces out = (twoSpaces (L "My App") || spaceBeforeBoundary cLocale (L "My App")) :=
  ⟨by decide, by decide, by decide, by decide, by decide,
   AddSpaces_two_spaces_iff cLocale (L "My App") (by decide)⟩

/-! ## DeleteDirectory: complete deletion and refusal -/

theorem DirDepth_append (a b : WStr) : DirDepth (a ++ b) = DirDepth a + DirDepth b := by
  induction a with
  | nil => simp [DirDepth]
  | cons c rest ih =>
    simp only [List.cons_append, DirDepth]
    split
    · simp [ih]; omega
    · simp [ih]

theorem deleteGuard_child (path name : WStr) (h : deleteGuard path = true) :
    deleteGuard (path ++ L "\\" ++ name) = true := by
  unfold deleteGuard at h ⊢
  simp only [Bool.and_eq_true, decide_eq_true_eq, wcslen, gt_iff_lt] at h ⊢
  simp only [DirDepth_append, List.length_append]
  constructor <;> omega

mutual
theorem entry_deletes : ∀ (n : FsNode) (path : WStr), deleteGuard path = true →
    n.deletes = true →
    DeleteDirectoryContents.entry path n = (none, deleteOrder.entry path n, false)
  | .file name deletable, path, hg, hd => by
    simp only [FsNode.deletes, Bool.and_eq_true, bne_iff_ne, ne_eq] at hd
    obtain ⟨⟨hdel, h1⟩, h2⟩ := hd
    have hg2 := deleteGuard_child path name hg
    simp only [List.append_assoc] at hg2
    simp [DeleteDirectoryContents.entry, h1, h2, hdel, hg2, deleteOrder.entry]
  | .dir name listable removable children, path, hg, hd => by
    simp only [FsNode.deletes, Bool.and_eq_true, bne_iff_ne, ne_eq] at hd
    obtain ⟨⟨⟨⟨hl, hr⟩, h1⟩, h2⟩, hc⟩ := hd
    have hg2 := deleteGuard_child path name hg
    have ih := loop_deletes children (path ++ L "\\" ++ name) hg2 hc
    simp only [List.append_assoc] at hg2 ih
    simp [DeleteDirectoryContents.entry, h1, h2, hl, hr, hg2, deleteOrder.entry, ih]
theorem loop_deletes : ∀ (cs : List FsNode) (path : WStr), deleteGuard path = true →
    FsNode.deletesAll cs = true →
    DeleteDirectoryContents.loop path cs = ([], deleteOrder path cs)
  | [], path, _, _ => by simp [DeleteDirectoryContents.loop, deleteOrder]
  | n :: rest, path, hg, hd => by
    simp only [FsNode.deletesAll, Bool.and_eq_true] at hd
    have h1 := entry_deletes n path hg hd.1
    have h2 := loop_deletes rest path hg hd.2
    simp [DeleteDirectoryContents.loop, h1, h2, deleteOrder]
end

/-- C12: for every directory tree rooted at a path that satisfies the guard
(length > 20 and separator count > 2) and on which every individual delete
succeeds, `DeleteDirectory(path)` (a total function: it terminates) leaves
nothing at `path`, and its deletions are exactly those of the depth-first
order in which the entries of a directory come before the directory itself,
ending with the removal of `path`. -/
theorem DeleteDirectory_deletes_whole_tree (path name : WStr) (children : List FsNode)
    (hlen : wcslen path > 20) (hdepth : DirDepth path > 2)
    (hdel : FsNode.deletesAll children = true) :
    DeleteDirectory path (some (.dir name true true children))
      = (none, deleteOrder path children ++ [Event.RemoveDirectory path]) := by
  have hg : deleteGuard path = true := by
    simp [deleteGuard, hlen, hdepth]
  simp [DeleteDirectory, DeleteDirectoryContents, loop_deletes children path hg hdel,
    RemoveDirectory]

/-- Witness for C12: an install directory with a nested directory. -/
theorem DeleteDirectory_deletes_whole_tree_witness :
    wcslen (L "C:\\Users\\me\\AppData\\Local\\MyApps\\Widget") > 20 ∧
    DirDepth (L "C:\\Users\\me\\AppData\\Local\\MyApps\\Widget") > 2 ∧
    FsNode.deletesAll widgetTree = true ∧
    DeleteDirectory (L "C:\\Users\\me\\AppData\\Local\\MyApps\\Widget")
        (some (.dir (L "Widget") true true widgetTree))
      = (none, deleteOrder (L "C:\\Users\\me\\AppData\\Local\\MyApps\\Widget") widgetTree ++
          [Event.RemoveDirectory (L "C:\\Users\\me\\AppData\\Local\\MyApps\\Widget")]) :=
  ⟨by decide, by decide, by decide,
   DeleteDirectory_deletes_whole_tree _ _ _ (by decide) (by decide) (by decide)⟩

theorem isRefusal_unable (p : WStr) :
    isRefusal (Event.AddMessage (L "Error") (L "Unable to open directory " ++ p)) = false := by
  have h : (L "Error" = L "ERROR") = False := by
    apply eq_false; decide
  simp [isRefusal, h]

mutual
theorem entry_guarded : ∀ (n : FsNode) (path : WStr), deleteGuard path = true →
    (DeleteDirectoryContents.entry path n).2.2 = false ∧
    ∀ e ∈ (DeleteDirectoryContents.entry path n).2.1, isRefusal e = false
  | .file name deletable, path, hg => by
    have hg2 := deleteGuard_child path name hg
    simp only [List.append_assoc] at hg2
    by_cases hdot : name = L "." ∨ name = L ".."
    · simp [DeleteDirectoryContents.entry, hdot]
    · simp [DeleteDirectoryContents.entry, hdot, hg2, isRefusal]
  | .dir name listable removable children, path, hg => by
    have hg2 := deleteGuard_child path name hg
    have ih := loop_guarded children (path ++ L "\\" ++ name) hg2
    simp only [List.append_assoc] at hg2 ih
    by_cases hdot : name = L "." ∨ name = L ".."
    · simp [DeleteDirectoryContents.entry, hdot]
    · cases listable with
      | true =>
        simp only [DeleteDirectoryContents.entry, hdot, hg2, if_true, if_false,
          List.append_assoc, List.mem_append, List.mem_singleton, true_and]
        rintro e (he | he)
        · exact ih e he
        · subst he; rfl
      | false =>
        simp only [DeleteDirectoryContents.entry, hdot, hg2, if_true, if_false,
          List.append_assoc, List.mem_append, List.mem_singleton, true_and]
        rintro e (he | he)
        · simp at he; subst he; exact isRefusal_unable _
        · subst he; rfl
theorem loop_guarded : ∀ (cs : List FsNode) (path : WStr), deleteGuard path = true →
    ∀ e ∈ (DeleteDirectoryContents.loop path cs).2, isRefusal e = false
  | [], path, _ => by simp [DeleteDirectoryContents.loop]
  | n :: rest, path, hg => by
    have h1 := entry_guarded n path hg
    have h2 := loop_guarded rest path hg
    simp only [DeleteDirectoryContents.loop, h1.1]
    intro e he
    simp only [Bool.false_eq_true, if_false, List.mem_append] at he
    rcases he with he | he
    · exact h1.2 e he
    · exact h2 e he
end

theorem entry_accepted (n : FsNode) (path : WStr)
    (h : n.name = L "." ∨ n.name = L ".." ∨ deleteGuard (path ++ L "\\" ++ n.name) = true) :
    (DeleteDirectoryContents.entry path n).2.2 = false ∧
    ∀ e ∈ (DeleteDirectoryContents.entry path n).2.1, isRefusal e = false := by
  cases n with
  | file name deletable =>
    simp only [FsNode.name] at h
    by_cases hdot : name = L "." ∨ name = L ".."
    · simp [DeleteDirectoryContents.entry, hdot]
    · have hg : deleteGuard (path ++ (L "\\" ++ name)) = true := by
        rcases h with h | h | h
        · exact absurd (Or.inl h) hdot
        · exact absurd (Or.inr h) hdot
        · simpa [List.append_assoc] using h
      simp [DeleteDirectoryContents.entry, hdot, hg, isRefusal]
  | dir name listable removable children =>
    simp only [FsNode.name] at h
    by_cases hdot : name = L "." ∨ name = L ".."
    · simp [DeleteDirectoryContents.entry, hdot]
    · have hg0 : deleteGuard (path ++ L "\\" ++ name) = true := by
        rcases h with h | h | h
        · exact absurd (Or.inl h) hdot
        · exact absurd (Or.inr h) hdot
        · exact h
      have ih := loop_guarded children (path ++ L "\\" ++ name) hg0
      have hg : deleteGuard (path ++ (L "\\" ++ name)) = true := by
        simpa [List.append_assoc] using hg0
      simp only [List.append_assoc] at ih
      cases listable with
      | true =>
        simp only [DeleteDirectoryContents.entry, hdot, hg, if_true, if_false,
          List.append_assoc, List.mem_append, List.mem_singleton, true_and]
        rintro e (he | he)
        · exact ih e he
        · subst he; rfl
      | false =>
        simp only [DeleteDirectoryContents.entry, hdot, hg, if_true, if_false,
          List.append_assoc, List.mem_append, List.mem_singleton, true_and]
        rintro e (he | he)
        · simp at he; subst he; exact isRefusal_unable _
        · subst he; rfl

theorem entry_refused (e : FsNode) (path : WStr)
    (hdot : e.name ≠ L "." ∧ e.name ≠ L "..")
    (hguard : wcslen (path ++ L "\\" ++ e.name) ≤ 20 ∨ DirDepth (path ++ L "\\" ++ e.name) ≤ 2) :
    ∃ refusal, isRefusal refusal = true ∧
      DeleteDirectoryContents.entry path e = (some e, [refusal], true) := by
  have hg := (deleteGuard_eq_false _).2 hguard
  cases e with
  | file fname deletable =>
    simp only [FsNode.name, List.append_assoc] at hdot hg
    exact ⟨Event.AddMessage (L "ERROR")
        (L "Please report: Aborting attempt to delete file " ++ (path ++ (L "\\" ++ fname))),
      isRefusal_file _, by simp [DeleteDirectoryContents.entry, hdot.1, hdot.2, hg]⟩
  | dir dname listable rem children =>
    simp only [FsNode.name, List.append_assoc] at hdot hg
    exact ⟨Event.AddMessage (L "ERROR")
        (L "Please report: Aborting attempt to delete from " ++ (path ++ (L "\\" ++ dname))),
      isRefusal_dir _, by simp [DeleteDirectoryContents.entry, hdot.1, hdot.2, hg]⟩

theorem loop_stops (path : WStr) (e : FsNode) (post : List FsNode) (refusal : Event)
    (he : DeleteDirectoryContents.entry path e = (some e, [refusal], true)) :
    ∀ pre : List FsNode,
      (∀ n ∈ pre, n.name = L "." ∨ n.name = L ".." ∨
        deleteGuard (path ++ L "\\" ++ n.name) = true) →
      DeleteDirectoryContents.loop path (pre ++ e :: post)
        = ((DeleteDirectoryContents.loop path pre).1 ++ e :: post,
           (DeleteDirectoryContents.loop path pre).2 ++ [refusal]) ∧
      ∀ ev ∈ (DeleteDirectoryContents.loop path pre).2, isRefusal ev = false := by
  intro pre
  induction pre with
  | nil =>
    intro _
    simp [DeleteDirectoryContents.loop, he]
  | cons n rest ih =>
    intro hpre
    have hn := entry_accepted n path (hpre n (List.mem_cons_self _ _))
    have hrest := ih (fun m hm => hpre m (List.mem_cons_of_mem _ hm))
    constructor
    · simp only [List.cons_append, DeleteDirectoryContents.loop, hn.1, List.append_eq, hrest.1]
      simp
    · intro ev hev
      simp only [DeleteDirectoryContents.loop, hn.1, Bool.false_eq_true, if_false,
        List.mem_append] at hev
      rcases hev with hev | hev
      · exact hn.2 ev hev
      · exact hrest.2 ev hev

/-- C13: when `DeleteDirectoryContents(path)` meets an entry that is not `.` or
`..` and whose full path fails the guard (length <= 20 or separator count
<= 2), every entry before it having been accepted, the deletion stops there:
that entry and every entry enumerated after it are left as they were, the only
events are those of the entries before it followed by one "Please report:
Aborting attempt to delete" error, and `DeleteDirectory` then only adds the
failing `RemoveDirectory` of the non-empty `path`.  No refusal can come from a
nested call, whose path satisfies the guard, so the refusal always ends the
whole deletion. -/
theorem DeleteDirectoryContents_stops_at_refused_entry (path name : WStr) (removable : Bool)
    (pre : List FsNode) (e : FsNode) (post : List FsNode)
    (hpre : ∀ n ∈ pre, n.name = L "." ∨ n.name = L ".." ∨
      deleteGuard (path ++ L "\\" ++ n.name) = true)
    (hdot : e.name ≠ L "." ∧ e.name ≠ L "..")
    (hguard : wcslen (path ++ L "\\" ++ e.name) ≤ 20 ∨ DirDepth (path ++ L "\\" ++ e.name) ≤ 2) :
    ∃ refusal, isRefusal refusal = true ∧
      DeleteDirectoryContents path (some (.dir name true removable (pre ++ e :: post)))
        = (some (.dir name true removable
              ((DeleteDirectoryContents.loop path pre).1 ++ e :: post)),
           (DeleteDirectoryContents.loop path pre).2 ++ [refusal]) ∧
      (∀ ev ∈ (DeleteDirectoryContents.loop path pre).2, isRefusal ev = false) ∧
      DeleteDirectory path (some (.dir name true removable (pre ++ e :: post)))
        = (some (.dir name true removable
              ((DeleteDirectoryContents.loop path pre).1 ++ e :: post)),
           (DeleteDirectoryContents.loop path pre).2 ++
             [refusal, Event.RemoveDirectory path]) ∧
      (∀ p cs, deleteGuard p = true →
        ∀ ev ∈ (DeleteDirectoryContents.loop p cs).2, isRefusal ev = false) := by
  obtain ⟨refusal, href, hent⟩ := entry_refused e path hdot hguard
  obtain ⟨hloop, hno⟩ := loop_stops path e post refusal hent pre hpre
  refine ⟨refusal, href, ?_, hno, ?_, fun p cs hg => loop_guarded cs p hg⟩
  · simp [DeleteDirectoryContents, hloop]
  · simp [DeleteDirectory, DeleteDirectoryContents, hloop, RemoveDirectory]

/-- Witness for C13: under `C:\Apps\Old` the first entry has a full path longer
than 20 characters with 3 separators and is deleted, the second one has a full
path of 17 characters. -/
theorem DeleteDirectoryContents_stops_at_refused_entry_witness :
    wcslen (L "C:\\Apps\\Old" ++ L "\\" ++ (FsNode.file (L "b.txt") true).name) ≤ 20 ∧
    (DeleteDirectoryContents.loop (L "C:\\Apps\\Old")
      [.file (L "a-file-with-a-long-name.txt") true]).1.isEmpty = true ∧
    ∃ refusal, isRefusal refusal = true ∧
      DeleteDirectory (L "C:\\Apps\\Old")
          (some (.dir (L "Old") true true
            ([.file (L "a-file-with-a-long-name.txt") true] ++ .file (L "b.txt") true ::
              [.dir (L "c") true true [.file (L "d.txt") true]])))
        = (some (.dir (L "Old") true true
              ((DeleteDirectoryContents.loop (L "C:\\Apps\\Old")
                  [.file (L "a-file-with-a-long-name.txt") true]).1 ++
                .file (L "b.txt") true :: [.dir (L "c") true true [.file (L "d.txt") true]])),
           (DeleteDirectoryContents.loop (L "C:\\Apps\\Old")
              [.file (L "a-file-with-a-long-name.txt") true]).2 ++
             [refusal, Event.RemoveDirectory (L "C:\\Apps\\Old")]) := by
  refine ⟨by decide, by decide, ?_⟩
  obtain ⟨refusal, href, _, _, h, _⟩ :=
    DeleteDirectoryContents_stops_at_refused_entry (L "C:\\Apps\\Old") (L "Old") true
      [.file (L "a-file-with-a-long-name.txt") true] (.file (L "b.txt") true)
      [.dir (L "c") true true [.file (L "d.txt") true]]
      (by intro n hn; simp at hn; subst hn; right; right; decide)
      (by decide) (Or.inl (by decide))
  exact ⟨refusal, href, h⟩

/-! ## CopyFileWithProgress -/

theorem copy_loop_all (reads : List Nat) :
    ∀ (remaining written : List Nat), (∀ r ∈ reads, 0 < r) →
      remaining.length ≤ (reads.map (fun r => min r 8192)).sum →
      CopyFileWithProgress.loop reads remaining written = written ++ remaining := by
  induction reads with
  | nil =>
    intro remaining written _ hsum
    have : remaining = [] := by
      simpa using hsum
    simp [CopyFileWithProgress.loop, this]
  | cons r rs ih =>
    intro remaining written hpos hsum
    have hr : 0 < r := hpos r (List.mem_cons_self _ _)
    simp only [List.map_cons, List.sum_cons] at hsum
    unfold CopyFileWithProgress.loop
    by_cases hrem : remaining.length = 0
    · have : remaining = [] := List.length_eq_zero.mp hrem
      simp [this]
    · have hb : min r (min 8192 remaining.length) > 0 := by
        simp only [gt_iff_lt, lt_min_iff]
        omega
      simp only [hb, if_true]
      rw [ih _ _ (fun x hx => hpos x (List.mem_cons_of_mem _ hx))]
      · simp [List.append_assoc]
      · simp only [List.length_drop]
        have h1 : min r 8192 ≤ 8192 := Nat.min_le_right _ _
        rcases Nat.le_total remaining.length (min r 8192) with h | h
        · have : min r (min 8192 remaining.length) = remaining.length := by
            simp only [Nat.min_def]; split_ifs <;> omega
          omega
        · have : min r (min 8192 remaining.length) = min r 8192 := by
            simp only [Nat.min_def] at h ⊢; split_ifs at h ⊢ <;> omega
          omega

/-- C14 (amended): for every source file of N bytes with 0 < N < 2^31 that can
be opened and every destination that can be created, and however the reads
are split into chunks (every `fread` delivers at least one byte, at most the
8192 bytes of the buffer, until the N bytes are delivered),
`CopyFileWithProgress` returns 0 and the destination then holds exactly the N
bytes of the source in the same order. -/
theorem CopyFileWithProgress_copies_source (bytes reads : List Nat) (src dst : WStr)
    (hN : 0 < bytes.length) (hlong : bytes.length < 2 ^ 31)
    (hpos : ∀ r ∈ reads, 0 < r)
    (hall : bytes.length ≤ (reads.map (fun r => min r 8192)).sum) :
    (CopyFileWithProgress ⟨some bytes, true, reads⟩ src dst).retval = 0 ∧
    (CopyFileWithProgress ⟨some bytes, true, reads⟩ src dst).destination = some bytes := by
  have hlong2 : bytes.length < 2147483648 := by
    have h : (2 : Nat) ^ 31 = 2147483648 := by decide
    omega
  have hft : ftell bytes.length = bytes.length := by
    simp [ftell, hlong2]
  have hnot : ¬ (ftell bytes.length ≤ 0) := by
    rw [hft]; omega
  simp [CopyFileWithProgress, hnot, copy_loop_all reads bytes [] hpos hall]

/-- Witness for C14: ten bytes read as 4, 4 and 2. -/
theorem CopyFileWithProgress_copies_source_witness :
    0 < [80, 75, 3, 4, 20, 0, 0, 0, 8, 0].length ∧
    (CopyFileWithProgress ⟨some [80, 75, 3, 4, 20, 0, 0, 0, 8, 0], true, [4, 4, 2]⟩
      (L "c:\\Dev\\Test\\Widget\\widget_v2.zip")
      (L "C:\\Users\\me\\AppData\\Local\\Worley\\Widget.zip")).destination
      = some [80, 75, 3, 4, 20, 0, 0, 0, 8, 0] :=
  ⟨by decide,
   (CopyFileWithProgress_copies_source [80, 75, 3, 4, 20, 0, 0, 0, 8, 0] [4, 4, 2] _ _
      (by decide) (by decide) (by decide) (by decide)).2⟩

/-- C14 as stated fails for a source of 2^31 bytes: `ftell` cannot report the
size in a `long`, the size test `totalSize <= 0` fails the call, and nothing
is copied. -/
theorem CopyFileWithProgress_fails_at_two_GiB :
    (List.replicate (2 ^ 31) 0).length = 2 ^ 31 ∧
    (∀ r ∈ List.replicate (2 ^ 18) 8192, 0 < r) ∧
    (List.replicate (2 ^ 31) 0).length
      ≤ ((List.replicate (2 ^ 18) 8192).map (fun r => min r 8192)).sum ∧
    (CopyFileWithProgress ⟨some (List.replicate (2 ^ 31) 0), true, List.replicate (2 ^ 18) 8192⟩
      (L "c:\\Dev\\Test\\Widget\\widget_v2.zip")
      (L "C:\\Users\\me\\AppData\\Local\\Worley\\Widget.zip")).retval = 4294967295 ∧
    (CopyFileWithProgress ⟨some (List.replicate (2 ^ 31) 0), true, List.replicate (2 ^ 18) 8192⟩
      (L "c:\\Dev\\Test\\Widget\\widget_v2.zip")
      (L "C:\\Users\\me\\AppData\\Local\\Worley\\Widget.zip")).destination = some [] := by
  have hft : ftell (2 ^ 31) ≤ 0 := by decide
  refine ⟨List.length_replicate _ _, ?_, ?_, ?_, ?_⟩
  · intro r hr
    rw [List.eq_of_mem_replicate hr]
    decide
  · rw [List.length_replicate, List.map_replicate, List.sum_replicate]
    decide
  · simp only [CopyFileWithProgress, List.length_replicate, hft, Bool.not_true,
      Bool.false_eq_true, if_false, if_true]
    decide
  · simp only [CopyFileWithProgress, List.length_replicate, hft, Bool.not_true,
      Bool.false_eq_true, if_false, if_true]

/-! ## CreateDirectories -/

theorem normalizePath_append (a b : WStr) :
    normalizePath (a ++ b) = normalizePath a ++ normalizePath b := by
  simp [normalizePath]

theorem normalizePath_idem (a : WStr) : normalizePath (normalizePath a) = normalizePath a := by
  simp only [normalizePath, List.map_map]
  apply List.map_congr_left
  intro c _
  by_cases h : c = '/' <;> simp [h]

theorem normalizePath_length (a : WStr) : (normalizePath a).length = a.length := by
  simp [normalizePath]

theorem normalizePath_separator (c : Char) (h : isSeparator c = true) :
    normalizePath [c] = ['\\'] := by
  simp only [isSeparator, Bool.or_eq_true, beq_iff_eq] at h
  rcases h with h | h <;> subst h <;> rfl

theorem normalizePath_other (c : Char) (h : isSeparator c = false) :
    normalizePath [c] = [c] := by
  simp only [isSeparator, Bool.or_eq_false_iff, beq_eq_false_iff_ne] at h
  simp [normalizePath, h.2]

theorem DirectoryExists_iff (dirs : List WStr) (p : WStr) :
    DirectoryExists dirs p = true ↔ normalizePath p ∈ dirs := by
  simp [DirectoryExists]

/-- The second loop, when every `_wmkdir` succeeds: `tempPath` is whole again
afterwards, nothing is removed, every prefix before a separator exists, and
nothing else was created. -/
theorem CreateDirectories_loop_spec (mkdirOk : WStr → Bool) (hok : ∀ p, mkdirOk p = true) :
    ∀ (rest pre : WStr) (dirs : List WStr),
      (CreateDirectories.loop mkdirOk (normalizePath pre) rest dirs).1
          = normalizePath (pre ++ rest) ∧
      (∀ d ∈ dirs, d ∈ (CreateDirectories.loop mkdirOk (normalizePath pre) rest dirs).2.dirs) ∧
      (∀ a c b, rest = a ++ c :: b → isSeparator c = true →
        normalizePath (pre ++ a) ∈
          (CreateDirectories.loop mkdirOk (normalizePath pre) rest dirs).2.dirs) ∧
      (∀ d ∈ (CreateDirectories.loop mkdirOk (normalizePath pre) rest dirs).2.dirs,
        d ∈ dirs ∨ ∃ a c b, rest = a ++ c :: b ∧ isSeparator c = true ∧
          d = normalizePath (pre ++ a))
  | [], pre, dirs => by
    simp [CreateDirectories.loop]
  | x :: rest, pre, dirs => by
    by_cases hx : isSeparator x = true
    · have hn : normalizePath pre ++ ['\\'] = normalizePath (pre ++ [x]) := by
        rw [normalizePath_append, normalizePath_separator x hx]
      by_cases hex : DirectoryExists dirs (normalizePath pre) = true
      · have ih := CreateDirectories_loop_spec mkdirOk hok rest (pre ++ [x]) dirs
        simp only [CreateDirectories.loop, hx, hex, if_true, hn]
        obtain ⟨h1, h2, h3, h4⟩ := ih
        refine ⟨by simpa using h1, h2, ?_, ?_⟩
        · intro a c b hsplit hc
          cases a with
          | nil =>
            rw [DirectoryExists_iff, normalizePath_idem] at hex
            simpa using h2 _ hex
          | cons y a =>
            simp only [List.cons_append, List.cons.injEq] at hsplit
            obtain ⟨rfl, hsplit⟩ := hsplit
            simpa using h3 a c b hsplit hc
        · intro d hd
          rcases h4 d hd with h | ⟨a, c, b, hsplit, hc, rfl⟩
          · exact Or.inl h
          · exact Or.inr ⟨x :: a, c, b, by simp [hsplit], hc, by simp⟩
      · have ih := CreateDirectories_loop_spec mkdirOk hok rest (pre ++ [x])
          (normalizePath (normalizePath pre) :: dirs)
        simp only [CreateDirectories.loop, hx, hex, if_true, hn, hok, Bool.false_eq_true,
          if_false]
        obtain ⟨h1, h2, h3, h4⟩ := ih
        refine ⟨by simpa using h1, fun d hd => h2 d (List.mem_cons_of_mem _ hd), ?_, ?_⟩
        · intro a c b hsplit hc
          cases a with
          | nil =>
            have := h2 (normalizePath (normalizePath pre)) (List.mem_cons_self _ _)
            rw [normalizePath_idem] at this
            simpa [normalizePath_idem] using this
          | cons y a =>
            simp only [List.cons_append, List.cons.injEq] at hsplit
            obtain ⟨rfl, hsplit⟩ := hsplit
            simpa using h3 a c b hsplit hc
        · intro d hd
          rcases h4 d hd with h | ⟨a, c, b, hsplit, hc, rfl⟩
          · rcases List.mem_cons.1 h with h | h
            · exact Or.inr ⟨[], x, rest, rfl, hx, by simp [h, normalizePath_idem]⟩
            · exact Or.inl h
          · exact Or.inr ⟨x :: a, c, b, by simp [hsplit], hc, by simp⟩
    · have hx2 : isSeparator x = false := by simpa using hx
      have hn : normalizePath pre ++ [x] = normalizePath (pre ++ [x]) := by
        rw [normalizePath_append, normalizePath_other x hx2]
      have ih := CreateDirectories_loop_spec mkdirOk hok rest (pre ++ [x]) dirs
      simp only [CreateDirectories.loop, hx2, Bool.false_eq_true, if_false, hn]
      obtain ⟨h1, h2, h3, h4⟩ := ih
      refine ⟨by simpa using h1, h2, ?_, ?_⟩
      · intro a c b hsplit hc
        cases a with
        | nil =>
          simp only [List.nil_append, List.cons.injEq] at hsplit
          rw [hsplit.1, hc] at hx2
          exact absurd hx2 (by simp)
        | cons y a =>
          simp only [List.cons_append, List.cons.injEq] at hsplit
          obtain ⟨rfl, hsplit⟩ := hsplit
          simpa using h3 a c b hsplit hc
      · intro d hd
        rcases h4 d hd with h | ⟨a, c, b, hsplit, hc, rfl⟩
        · exact Or.inl h
        · exact Or.inr ⟨x :: a, c, b, by simp [hsplit], hc, by simp⟩

theorem lastSeparator_none (rest : WStr) (h : ∀ c ∈ rest, isSeparator c = false) :
    ∀ (pos : Nat) (acc : Option Nat), CreateDirectories.lastSeparator rest pos acc = acc := by
  induction rest with
  | nil => intro pos acc; rfl
  | cons x rest ih =>
    intro pos acc
    simp only [CreateDirectories.lastSeparator, h x (List.mem_cons_self _ _),
      Bool.false_eq_true, if_false]
    exact ih (fun c hc => h c (List.mem_cons_of_mem _ hc)) _ _

theorem lastSeparator_split (a : WStr) (s : Char) (tail : WStr) (hs : isSeparator s = true)
    (htail : ∀ c ∈ tail, isSeparator c = false) :
    ∀ (pos : Nat) (acc : Option Nat),
      CreateDirectories.lastSeparator (a ++ s :: tail) pos acc = some (pos + a.length) := by
  induction a with
  | nil =>
    intro pos acc
    simp only [List.nil_append, CreateDirectories.lastSeparator, hs, if_true]
    rw [lastSeparator_none tail htail]
    simp
  | cons x a ih =>
    intro pos acc
    simp only [List.cons_append, CreateDirectories.lastSeparator, List.length_cons,
      List.append_eq, ih]
    congr 1
    omega

theorem split_at_last_separator (path : WStr) (h : ∃ c ∈ path, isSeparator c = true) :
    ∃ a s tail, path = a ++ s :: tail ∧ isSeparator s = true ∧
      ∀ c ∈ tail, isSeparator c = false := by
  induction path with
  | nil => simp at h
  | cons x path ih =>
    by_cases hp : ∃ c ∈ path, isSeparator c = true
    · obtain ⟨a, s, tail, rfl, hs, ht⟩ := ih hp
      exact ⟨x :: a, s, tail, rfl, hs, ht⟩
    · obtain ⟨c, hc, hsep⟩ := h
      rcases List.mem_cons.1 hc with rfl | hc
      · refine ⟨[], c, path, rfl, hsep, ?_⟩
        intro d hd
        by_contra hcon
        exact hp ⟨d, hd, by simpa using hcon⟩
      · exact absurd ⟨c, hc, hsep⟩ hp

theorem normalizePath_nil : normalizePath [] = [] := rfl

/-- What `CreateDirectories` leaves when every `_wmkdir` succeeds, in terms of
the path `t` that remains once the file name is cut off. -/
theorem CreateDirectories_dirs (mkdirOk : WStr → Bool) (hok : ∀ p, mkdirOk p = true)
    (dirs : List WStr) (path t : WStr)
    (ht : (match CreateDirectories.lastSeparator path 0 none with
            | some lastSeparator => path.take lastSeparator
            | none => path) = t) (d : WStr) :
    d ∈ (CreateDirectories mkdirOk dirs path).dirs ↔
      d = normalizePath t ∨ d ∈ dirs ∨
        ∃ a c b, t = a ++ c :: b ∧ isSeparator c = true ∧ d = normalizePath a := by
  have hl := CreateDirectories_loop_spec mkdirOk hok t [] dirs
  simp only [normalizePath_nil, List.nil_append] at hl
  obtain ⟨h1, h2, h3, h4⟩ := hl
  have hmem : d ∈ (CreateDirectories.loop mkdirOk [] t dirs).2.dirs ↔
      d ∈ dirs ∨ ∃ a c b, t = a ++ c :: b ∧ isSeparator c = true ∧ d = normalizePath a := by
    constructor
    · exact h4 d
    · rintro (h | ⟨a, c, b, hsplit, hc, rfl⟩)
      · exact h2 d h
      · exact h3 a c b hsplit hc
  unfold CreateDirectories
  simp only [ht, h1, hok, if_true]
  by_cases hex : DirectoryExists (CreateDirectories.loop mkdirOk [] t dirs).2.dirs
      (normalizePath t) = true
  · simp only [hex, if_true, hmem]
    rw [DirectoryExists_iff, normalizePath_idem] at hex
    constructor
    · exact fun h => Or.inr h
    · rintro (rfl | h)
      · exact (h4 _ hex)
      · exact h
  · simp only [hex, Bool.false_eq_true, if_false, List.mem_cons, hmem, normalizePath_idem]

theorem tempPath_of_split (a : WStr) (s : Char) (tail : WStr) (hs : isSeparator s = true)
    (htail : ∀ c ∈ tail, isSeparator c = false) :
    (match CreateDirectories.lastSeparator (a ++ s :: tail) 0 none with
      | some lastSeparator => (a ++ s :: tail).take lastSeparator
      | none => a ++ s :: tail) = a := by
  rw [lastSeparator_split a s tail hs htail]
  simp

theorem tempPath_of_plain (path : WStr) (h : ∀ c ∈ path, isSeparator c = false) :
    (match CreateDirectories.lastSeparator path 0 none with
      | some lastSeparator => path.take lastSeparator
      | none => path) = path := by
  rw [lastSeparator_none path h]

/-- With every `_wmkdir` succeeding, `CreateDirectories(path)` removes nothing
and leaves every prefix of `path` that ends just before a separator in place. -/
theorem CreateDirectories_ancestors (mkdirOk : WStr → Bool) (hok : ∀ p, mkdirOk p = true)
    (dirs : List WStr) (path : WStr) :
    (∀ d ∈ dirs, d ∈ (CreateDirectories mkdirOk dirs path).dirs) ∧
    (∀ a c b, path = a ++ c :: b → isSeparator c = true →
      DirectoryExists (CreateDirectories mkdirOk dirs path).dirs a = true) := by
  constructor
  · intro d hd
    exact (CreateDirectories_dirs mkdirOk hok dirs path _ rfl d).2 (Or.inr (Or.inl hd))
  · intro a c b hsplit hc
    rw [DirectoryExists_iff]
    obtain ⟨t0, s, tail, hp, hs, htail⟩ :=
      split_at_last_separator path ⟨c, by simp [hsplit], hc⟩
    rw [CreateDirectories_dirs mkdirOk hok dirs path t0
      (by rw [hp]; exact tempPath_of_split t0 s tail hs htail)]
    rw [hp] at hsplit
    rcases List.append_eq_append_iff.1 hsplit with ⟨a1, ha, hrest⟩ | ⟨c1, ha, hrest⟩
    · -- a = t0 ++ a1 and s :: tail = a1 ++ c :: b
      cases a1 with
      | nil => simp at ha; exact Or.inl (by rw [ha])
      | cons y a1 =>
        simp only [List.cons_append, List.cons.injEq] at hrest
        have : c ∈ tail := by rw [hrest.2]; simp
        rw [htail c this] at hc
        exact absurd hc (by simp)
    · -- t0 = a ++ c1 and c :: b = c1 ++ s :: tail
      cases c1 with
      | nil => simp at ha; exact Or.inl (by rw [ha])
      | cons y c1 =>
        simp only [List.cons_append, List.cons.injEq] at hrest
        obtain ⟨rfl, hrest⟩ := hrest
        exact Or.inr (Or.inr ⟨a, c, c1, ha, hc, rfl⟩)

/-- With every `_wmkdir` succeeding, `CreateDirectories` on a path that has a
separator creates nothing as long as the path itself. -/
theorem CreateDirectories_shorter (mkdirOk : WStr → Bool) (hok : ∀ p, mkdirOk p = true)
    (dirs : List WStr) (path : WStr) (hsep : ∃ c ∈ path, isSeparator c = true) :
    ∀ d ∈ (CreateDirectories mkdirOk dirs path).dirs, d ∈ dirs ∨ d.length < path.length := by
  intro d hd
  obtain ⟨t0, s, tail, hp, hs, htail⟩ := split_at_last_separator path hsep
  rw [CreateDirectories_dirs mkdirOk hok dirs path t0
    (by rw [hp]; exact tempPath_of_split t0 s tail hs htail)] at hd
  rcases hd with rfl | h | ⟨a, c, b, hsplit, _, rfl⟩
  · right; rw [normalizePath_length, hp]; simp
  · exact Or.inl h
  · right; rw [normalizePath_length, hp, hsplit]; simp

/-! ## ExtractZip -/

theorem runDirs_append (mkdirOk : WStr → Bool) (l1 l2 : List Event) :
    ∀ dirs, runDirs mkdirOk (l1 ++ l2) dirs = runDirs mkdirOk l2 (runDirs mkdirOk l1 dirs) := by
  induction l1 with
  | nil => intro dirs; rfl
  | cons x l1 ih =>
    intro dirs
    cases x <;> simp only [List.cons_append, runDirs, List.append_eq, ih]

theorem writesPrepared_of_no_write (l : List Event)
    (h : ∀ p b, Event.WriteFile p b ∉ l) : writesPrepared l := by
  intro pre p bytes post heq
  exact absurd (by rw [heq]; simp) (h p bytes)

theorem writesPrepared_append (l1 l2 : List Event) (h1 : writesPrepared l1)
    (h2 : writesPrepared l2) : writesPrepared (l1 ++ l2) := by
  intro pre p bytes post heq
  rcases List.append_eq_append_iff.1 heq with ⟨a, ha, hrest⟩ | ⟨c, ha, hrest⟩
  · -- pre = l1 ++ a, l2 = a ++ write :: post
    obtain ⟨before, hb⟩ := h2 a p bytes post hrest
    exact ⟨l1 ++ before, by rw [ha, hb, List.append_assoc]⟩
  · -- l1 = pre ++ c, write :: post = c ++ l2
    cases c with
    | nil =>
      simp only [List.nil_append] at hrest
      simp only [List.append_nil] at ha
      obtain ⟨before, hb⟩ := h2 [] p bytes post (by simpa using hrest.symm)
      simp at hb
    | cons y c =>
      simp only [List.cons_append, List.cons.injEq] at hrest
      obtain ⟨rfl, _⟩ := hrest
      exact h1 pre p bytes c ha

theorem writesPrepared_pair (p : WStr) (bytes : List Nat) :
    writesPrepared [Event.CreateDirectories p, Event.WriteFile p bytes] := by
  intro pre q b post heq
  match pre, heq with
  | [], heq => simp at heq
  | [x], heq =>
    simp only [List.cons_append, List.nil_append, List.cons.injEq, Event.WriteFile.injEq] at heq
    obtain ⟨hx, ⟨rfl, _⟩, _⟩ := heq
    exact ⟨[], by simp [hx]⟩
  | x :: y :: pre, heq => simp at heq

/-- A turn of the loop writes a file only right after `CreateDirectories` on
its path. -/
theorem writesPrepared_entry (outdir : WStr) (e : ZipEntry) :
    writesPrepared (ExtractZip.entry outdir e) := by
  unfold ExtractZip.entry
  split
  · exact writesPrepared_of_no_write _ (by simp)
  · split
    · split
      · exact writesPrepared_of_no_write _ (by simp)
      · split
        · exact writesPrepared_of_no_write _ (by simp)
        · split
          · exact writesPrepared_pair _ _
          · exact writesPrepared_of_no_write _ (by simp)
    · exact writesPrepared_of_no_write _ (by simp)

theorem writesPrepared_entries (outdir : WStr) (entries : List ZipEntry) :
    writesPrepared ((entries.map (ExtractZip.entry outdir)).flatten) := by
  induction entries with
  | nil => exact writesPrepared_of_no_write _ (by simp)
  | cons e entries ih =>
    simp only [List.map_cons, List.flatten_cons]
    exact writesPrepared_append _ _ (writesPrepared_entry outdir e) ih

theorem writesPrepared_ExtractZip (env : ExtractEnv) (zipfile outdir : WStr) :
    writesPrepared (ExtractZip env zipfile outdir).events := by
  unfold ExtractZip
  cases env.archive with
  | none => exact writesPrepared_of_no_write _ (by simp)
  | some entries =>
    simp only
    refine writesPrepared_append _ _ (writesPrepared_append _ _ (writesPrepared_append _ _
      (writesPrepared_of_no_write _ (by simp)) (writesPrepared_entries outdir entries))
      (writesPrepared_of_no_write _ (by simp))) (writesPrepared_of_no_write _ ?_)
    intro p b
    split <;> simp

/-- An entry that lacks its name, its stat record, its content or its output
file writes nothing. -/
theorem entry_unobtainable_no_write (outdir : WStr) (bad : ZipEntry)
    (h : bad.name = none ∨ bad.statOk = false ∨ bad.content = none ∨ bad.outputOpens = false) :
    ∀ p b, Event.WriteFile p b ∉ ExtractZip.entry outdir bad := by
  intro p b
  unfold ExtractZip.entry
  rcases hn : bad.name with _ | wname
  · simp
  · rcases hs : bad.statOk with _ | _
    · simp
    · rcases hc : bad.content with _ | bytes
      · by_cases hd : wname.getLast? = some '/' <;> simp [hd]
      · rcases ho : bad.outputOpens with _ | _
        · by_cases hd : wname.getLast? = some '/' <;> simp [hd]
        · simp [hn, hs, hc, ho] at h

/-- An entry that lacks its name, its stat record, its content or its output
file leaves an error message, unless it is a directory entry, for which
neither content nor output file is asked for. -/
theorem entry_unobtainable_logged (outdir : WStr) (bad : ZipEntry)
    (h : bad.name = none ∨ bad.statOk = false ∨ bad.content = none ∨ bad.outputOpens = false) :
    (∃ msg, Event.AddMessage (L "ERROR") msg ∈ ExtractZip.entry outdir bad) ∨
    (∃ wname, bad.name = some wname ∧ wname.getLast? = some '/') := by
  unfold ExtractZip.entry
  rcases hn : bad.name with _ | wname
  · simp
  · rcases hs : bad.statOk with _ | _
    · simp
    · by_cases hd : wname.getLast? = some '/'
      · exact Or.inr ⟨wname, rfl, hd⟩
      · rcases hc : bad.content with _ | bytes
        · simp [hd]
        · rcases ho : bad.outputOpens with _ | _
          · simp [hd]
          · simp [hn, hs, hc, ho] at h

/-- C16: `ExtractZip` returns 0 exactly when the archive opens and the error
value -1 exactly when it does not.  When the archive opens, an entry whose
name, stat record, content or output file cannot be obtained writes no file
and leaves an error message (a directory entry, for which content and output
file are never asked for, leaves none), the turns for all later entries follow
it exactly as they would without it, and the value returned is still 0. -/
theorem ExtractZip_returns_zero_iff_archive_opens (env : ExtractEnv) (zipfile outdir : WStr) :
    ((ExtractZip env zipfile outdir).retval = 0 ↔ env.archive.isSome = true) ∧
    (int_of_DWORD (ExtractZip env zipfile outdir).retval = -1 ↔ env.archive = none) ∧
    (∀ pre bad post, env.archive = some (pre ++ bad :: post) →
      (bad.name = none ∨ bad.statOk = false ∨ bad.content = none ∨
        bad.outputOpens = false) →
      (ExtractZip env zipfile outdir).retval = 0 ∧
      (∀ p b, Event.WriteFile p b ∉ ExtractZip.entry outdir bad) ∧
      ((∃ msg, Event.AddMessage (L "ERROR") msg ∈ ExtractZip.entry outdir bad) ∨
        (∃ wname, bad.name = some wname ∧ wname.getLast? = some '/')) ∧
      (∃ before after, (ExtractZip env zipfile outdir).events =
        before ++ ExtractZip.entry outdir bad ++
          (post.map (ExtractZip.entry outdir)).flatten ++ after ∧
        (∀ z, Event.zip_close z ∉ before) ∧ Event.zip_close zipfile ∈ after)) := by
  have hm1 : int_of_DWORD (DWORD_of_int (-1)) = -1 := by decide
  have hd : DWORD_of_int (-1) ≠ 0 := by decide
  have h0 : int_of_DWORD 0 ≠ -1 := by decide
  refine ⟨?_, ?_, ?_⟩
  · cases h : env.archive <;> simp [ExtractZip, h, hd]
  · cases h : env.archive <;> simp [ExtractZip, h, hm1, h0]
  · intro pre bad post harch hbad
    refine ⟨by simp [ExtractZip, harch], entry_unobtainable_no_write outdir bad hbad,
      entry_unobtainable_logged outdir bad hbad, ?_⟩
    refine ⟨[Event.AddMessage (L "INFO")
        (StringCchPrintf (260 + 30) (L "Extracting files from " ++ zipfile)),
        Event.zip_open zipfile] ++ (pre.map (ExtractZip.entry outdir)).flatten,
      [Event.zip_close zipfile] ++
        (if env.zipFileExists then [Event.DeleteFile zipfile] else []), ?_, ?_, by simp⟩
    · simp [ExtractZip, harch]
    · intro z hz
      simp only [List.mem_append, List.mem_cons, List.mem_singleton, List.mem_flatten,
        List.mem_map, false_or, List.not_mem_nil, or_false] at hz
      rcases hz with hz | ⟨l, ⟨e, _, rfl⟩, hz⟩
      · simp at hz
      · revert hz
        unfold ExtractZip.entry
        split
        · simp
        · split
          · split
            · simp
            · split
              · simp
              · split <;> simp
          · simp

/-- C16 on an archive whose second entry has no readable content: the file of
the first and of the third entry are written, and 0 is returned. -/
theorem ExtractZip_returns_zero_iff_archive_opens_witness :
    (ExtractZip ⟨some ([⟨some (L "a.txt"), true, some [1], true⟩] ++
        ⟨some (L "b.txt"), true, none, true⟩ ::
        [⟨some (L "c.txt"), true, some [3], true⟩]), false⟩ (L "w.zip") (L "out")).retval = 0 ∧
    (∀ p b, Event.WriteFile p b ∉
      ExtractZip.entry (L "out") ⟨some (L "b.txt"), true, none, true⟩) ∧
    Event.WriteFile (L "out/c.txt") [3] ∈
      (ExtractZip ⟨some ([⟨some (L "a.txt"), true, some [1], true⟩] ++
        ⟨some (L "b.txt"), true, none, true⟩ ::
        [⟨some (L "c.txt"), true, some [3], true⟩]), false⟩ (L "w.zip") (L "out")).events :=
  have h := (ExtractZip_returns_zero_iff_archive_opens
    ⟨some ([⟨some (L "a.txt"), true, some [1], true⟩] ++
        ⟨some (L "b.txt"), true, none, true⟩ ::
        [⟨some (L "c.txt"), true, some [3], true⟩]), false⟩ (L "w.zip") (L "out")).2.2
      [⟨some (L "a.txt"), true, some [1], true⟩] ⟨some (L "b.txt"), true, none, true⟩
      [⟨some (L "c.txt"), true, some [3], true⟩] rfl (Or.inr (Or.inr (Or.inl rfl)))
  ⟨h.1, h.2.1, by decide⟩

/-- C17 (amended): in a filesystem where every directory creation succeeds,
`CreateDirectories(path)` removes no directory and leaves every prefix of
`path` that ends just before a separator in place; if `path` contains a
separator, the path itself is not created.  Hence before each file that
`ExtractZip` writes, every such prefix of the output path exists. -/
theorem CreateDirectories_creates_ancestors_only (mkdirOk : WStr → Bool)
    (hok : ∀ p, mkdirOk p = true) (dirs : List WStr) (path : WStr) :
    (∀ d ∈ dirs, d ∈ (CreateDirectories mkdirOk dirs path).dirs) ∧
    (∀ a c b, path = a ++ c :: b → isSeparator c = true →
      DirectoryExists (CreateDirectories mkdirOk dirs path).dirs a = true) ∧
    ((∃ c ∈ path, isSeparator c = true) → DirectoryExists dirs path = false →
      DirectoryExists (CreateDirectories mkdirOk dirs path).dirs path = false) ∧
    (∀ env zipfile outdir pre p bytes post,
      (ExtractZip env zipfile outdir).events = pre ++ Event.WriteFile p bytes :: post →
      ∀ a c b, p = a ++ c :: b → isSeparator c = true →
        DirectoryExists (runDirs mkdirOk pre dirs) a = true) := by
  refine ⟨(CreateDirectories_ancestors mkdirOk hok dirs path).1,
    (CreateDirectories_ancestors mkdirOk hok dirs path).2, ?_, ?_⟩
  · intro hsep hnot
    cases hex : DirectoryExists (CreateDirectories mkdirOk dirs path).dirs path with
    | false => rfl
    | true =>
      rw [DirectoryExists_iff] at hex
      rcases CreateDirectories_shorter mkdirOk hok dirs path hsep _ hex with h | h
      · rw [← DirectoryExists_iff, hnot] at h
        exact absurd h (by simp)
      · rw [normalizePath_length] at h
        exact absurd h (Nat.lt_irrefl _)
  · intro env zipfile outdir pre p bytes post hev a c b hsplit hc
    obtain ⟨before, rfl⟩ := writesPrepared_ExtractZip env zipfile outdir pre p bytes post hev
    rw [runDirs_append]
    simp only [runDirs]
    exact (CreateDirectories_ancestors mkdirOk hok _ p).2 a c b hsplit hc

/-- C17 (amended) on `dest/a/b/c.txt` in an empty filesystem: `dest/a/b`
exists afterwards and `dest/a/b/c.txt` does not; and when `ExtractZip` writes
`dest/a/b/c.txt`, `dest/a/b` exists after the events before the write. -/
theorem CreateDirectories_creates_ancestors_only_witness :
    (∀ p : WStr, (fun _ => true) p = true) ∧
    DirectoryExists (CreateDirectories (fun _ => true) [] (L "dest/a/b/c.txt")).dirs
      (L "dest/a/b") = true ∧
    DirectoryExists (CreateDirectories (fun _ => true) [] (L "dest/a/b/c.txt")).dirs
      (L "dest/a/b/c.txt") = false ∧
    DirectoryExists (runDirs (fun _ => true)
      [Event.AddMessage (L "INFO") (L "Extracting files from w.zip"),
       Event.zip_open (L "w.zip"), Event.CreateDirectories (L "dest/a/b/c.txt")] [])
      (L "dest/a/b") = true :=
  ⟨fun _ => rfl,
   (CreateDirectories_creates_ancestors_only (fun _ => true) (fun _ => rfl) []
      (L "dest/a/b/c.txt")).2.1 (L "dest/a/b") '/' (L "c.txt") (by decide) (by decide),
   (CreateDirectories_creates_ancestors_only (fun _ => true) (fun _ => rfl) []
      (L "dest/a/b/c.txt")).2.2.1 ⟨'/', by decide, by decide⟩ (by decide),
   (CreateDirectories_creates_ancestors_only (fun _ => true) (fun _ => rfl) []
      (L "dest/a/b/c.txt")).2.2.2
      ⟨some [⟨some (L "a/b/c.txt"), true, some [7], true⟩], false⟩ (L "w.zip") (L "dest")
      [Event.AddMessage (L "INFO") (L "Extracting files from w.zip"),
       Event.zip_open (L "w.zip"), Event.CreateDirectories (L "dest/a/b/c.txt")]
      (L "dest/a/b/c.txt") [7] [Event.zip_close (L "w.zip")] (by decide)
      (L "dest/a/b") '/' (L "c.txt") (by decide) (by decide)⟩

/-- C17 as stated fails for a path without a separator: `CreateDirectories` on
`file.txt` finds no file name to cut off and creates `file.txt` itself as a
directory. -/
theorem CreateDirectories_creates_plain_name :
    DirectoryExists [] (L "file.txt") = false ∧
    (CreateDirectories (fun _ => true) [] (L "file.txt")).events
      = [Event.wmkdir (L "file.txt") true] ∧
    DirectoryExists (CreateDirectories (fun _ => true) [] (L "file.txt")).dirs
      (L "file.txt") = true := by
  decide

/-- C18 (amended): an entry whose name ends with `/` never has an output file
written or an output file failure reported; if its stat record can be read,
its turn is the `CreateDirectories` call alone, and in a filesystem where
every directory creation succeeds the directory named by the entry exists
under the destination root afterwards. -/
theorem ExtractZip_directory_entry (outdir wname : WStr) (e : ZipEntry)
    (hname : e.name = some wname) (hslash : wname.getLast? = some '/') :
    (∀ p b, Event.WriteFile p b ∉ ExtractZip.entry outdir e) ∧
    (∀ p, Event.AddMessage (L "ERROR") (wcscat_s (L "Failed to open output file ") p) ∉
      ExtractZip.entry outdir e) ∧
    (e.statOk = true →
      ExtractZip.entry outdir e = [Event.CreateDirectories (outdir ++ L "/" ++ wname)] ∧
      ∀ mkdirOk : WStr → Bool, (∀ p, mkdirOk p = true) → ∀ dirs,
        DirectoryExists (runDirs mkdirOk (ExtractZip.entry outdir e) dirs)
          (outdir ++ L "/" ++ wname.dropLast) = true) := by
  have hev : e.statOk = true →
      ExtractZip.entry outdir e = [Event.CreateDirectories (outdir ++ L "/" ++ wname)] := by
    intro hs
    simp [ExtractZip.entry, hname, hs, hslash]
  refine ⟨?_, ?_, ?_⟩
  · intro p b
    cases hs : e.statOk with
    | true => rw [hev hs]; simp
    | false => simp [ExtractZip.entry, hname, hs]
  · intro p
    cases hs : e.statOk with
    | true => rw [hev hs]; simp
    | false =>
      simp only [ExtractZip.entry, hname, hs, Bool.false_eq_true, if_false,
        List.mem_singleton, Event.AddMessage.injEq, true_and]
      intro h
      have := congrArg (fun l => l.take 11) h
      simp [wcscat_s, L] at this
  · intro hs
    refine ⟨hev hs, ?_⟩
    intro mkdirOk hok dirs
    rw [hev hs]
    simp only [runDirs]
    have hw : wname = wname.dropLast ++ ['/'] := by
      have := List.dropLast_append_getLast? '/' (by simpa using hslash)
      exact this.symm
    refine (CreateDirectories_ancestors mkdirOk hok dirs _).2
      (outdir ++ L "/" ++ wname.dropLast) '/' [] ?_ (by decide)
    conv_lhs => rw [hw]
    simp

/-- C18 (amended) on the entry `a/b/` extracted under `dest`. -/
theorem ExtractZip_directory_entry_witness :
    ExtractZip.entry (L "dest") ⟨some (L "a/b/"), true, none, true⟩
      = [Event.CreateDirectories (L "dest/a/b/")] ∧
    DirectoryExists (runDirs (fun _ => true)
      (ExtractZip.entry (L "dest") ⟨some (L "a/b/"), true, none, true⟩) [])
      (L "dest/a/b") = true :=
  have h := (ExtractZip_directory_entry (L "dest") (L "a/b/")
    ⟨some (L "a/b/"), true, none, true⟩ rfl (by decide)).2.2 rfl
  ⟨h.1, h.2 (fun _ => true) (fun _ => rfl) []⟩

/-- C18 as stated fails for a directory entry whose stat record cannot be
read: its turn is the error message alone, `CreateDirectories` is not called
and the directory does not exist afterwards.  It fails as well where
`_wmkdir` fails: `CreateDirectories` is called and the directory still does
not exist afterwards. -/
theorem ExtractZip_directory_entry_not_created :
    ExtractZip.entry (L "dest") ⟨some (L "a/b/"), false, none, true⟩
      = [Event.AddMessage (L "ERROR") (L "Failed to get file information")] ∧
    DirectoryExists (runDirs (fun _ => true)
      (ExtractZip.entry (L "dest") ⟨some (L "a/b/"), false, none, true⟩) [])
      (L "dest/a/b") = false ∧
    ExtractZip.entry (L "dest") ⟨some (L "a/b/"), true, none, true⟩
      = [Event.CreateDirectories (L "dest/a/b/")] ∧
    DirectoryExists (runDirs (fun _ => false)
      (ExtractZip.entry (L "dest") ⟨some (L "a/b/"), true, none, true⟩) [])
      (L "dest/a/b") = false := by
  decide

/-! ## CheckIfRunning -/

/-- C19: `CheckIfRunning` hands the whole entry name, folder included, to
`IsProcessRunning`, and takes the extension from the first dot of the name.
For an archive whose executable is `bin/Widget.exe`, with the process
`Widget.exe` alive, it returns 0, although the bare name of the entry is the
name of a live process; for an archive whose executable is `Widget.v2.exe`,
with that process alive, it finds no executable and returns -1. -/
theorem CheckIfRunning_compares_whole_entry_name :
    (CheckIfRunning cLocale folderExeEnv (L "Widget.zip")).1 = 0 ∧
    spec_bareName (L "bin/Widget.exe") = L "Widget.exe" ∧
    IsProcessRunning cLocale folderExeEnv.processes (spec_bareName (L "bin/Widget.exe")) = 1 ∧
    (CheckIfRunning cLocale dottedExeEnv (L "Widget.zip")).1 = -1 ∧
    IsProcessRunning cLocale dottedExeEnv.processes (spec_bareName (L "Widget.v2.exe")) = 1 := by
  decide

/-! ## UpdateInstaller -/

theorem IsFileNewer_iff (fileTimes : WStr → Option Nat) (file1 : WStr) (file2 : Option WStr) :
    IsFileNewer fileTimes (some file1) file2 = true ↔
      ∃ t1 r t2, fileTimes file1 = some t1 ∧ file2 = some r ∧ fileTimes r = some t2 ∧
        t1 < t2 := by
  unfold IsFileNewer
  cases h1 : fileTimes file1 with
  | none => simp [GetFileAttributesEx, h1]
  | some t1 =>
    cases file2 with
    | none => simp [GetFileAttributesEx, h1]
    | some r =>
      cases h2 : fileTimes r with
      | none => simp [GetFileAttributesEx, h1, h2]
      | some t2 =>
        simp only [GetFileAttributesEx, h1, h2, CompareFileTime, Option.some.injEq,
          exists_and_left, exists_eq_left', beq_iff_eq]
        by_cases hlt : t1 < t2
        · simp [hlt]
        · by_cases heq : t1 = t2 <;> simp [hlt, heq]

theorem GetInstaller_no_wrename (env : GetInstallerEnv) (appdata : WStr) :
    ∀ o n ok, Event.wrename o n ok ∉ (GetInstaller env appdata).2 := by
  intro o n ok
  unfold GetInstaller
  simp only
  split
  · simp
  · split
    · split <;> simp
    · simp

/-- C20 (amended): when the local helper directory exists and the search for
a local helper executable returns one, `UpdateInstaller` attempts to rename it
to `<name>_Old_<timestamp>` exactly when the last-write time of the remote
package that its search returned is strictly later than that of the local
helper, both times being readable, and it attempts no other rename.  It goes
on to `GetInstaller`, and returns what that returns, when in addition the
rename succeeds; in every other case it calls neither `CopyFileWithProgress`
nor `ExtractZip` and returns 0, and when the remote package is not strictly
later its only calls are the two searches. -/
theorem UpdateInstaller_renames_iff_remote_later (env : UpdateEnv)
    (appdata localInstaller : WStr) (hdir : env.localDirExists = true)
    (hlocal : GetNewestFileInDir env.findFiles (UpdateInstaller.localDir appdata) (L "\\*.exe")
      = some localInstaller) :
    ((∃ ok, Event.wrename localInstaller (localInstaller ++ L "_Old_" ++ env.nowStr) ok ∈
        (UpdateInstaller env appdata).2) ↔ spec_remoteLater env localInstaller) ∧
    (∀ o n ok, Event.wrename o n ok ∈ (UpdateInstaller env appdata).2 →
      o = localInstaller ∧ n = localInstaller ++ L "_Old_" ++ env.nowStr ∧
        ok = env.wrenameOk) ∧
    (spec_remoteLater env localInstaller → env.wrenameOk = true →
      (UpdateInstaller env appdata).1 = (GetInstaller env.installer appdata).1 ∧
      ∃ before, (UpdateInstaller env appdata).2 =
        before ++ Event.wrename localInstaller (localInstaller ++ L "_Old_" ++ env.nowStr) true
          :: (GetInstaller env.installer appdata).2) ∧
    (¬ (spec_remoteLater env localInstaller ∧ env.wrenameOk = true) →
      (UpdateInstaller env appdata).1 = 0 ∧
      (∀ s d r, Event.CopyFileWithProgress s d r ∉ (UpdateInstaller env appdata).2) ∧
      (∀ z d r, Event.ExtractZip z d r ∉ (UpdateInstaller env appdata).2)) ∧
    (¬ spec_remoteLater env localInstaller →
      UpdateInstaller env appdata =
        (0, [Event.GetNewestFileInDir UpdateInstaller.srcDir (L "\\*.zip")
              (GetNewestFileInDir env.findFiles UpdateInstaller.srcDir (L "\\*.zip")),
             Event.GetNewestFileInDir (UpdateInstaller.localDir appdata) (L "\\*.exe")
              (some localInstaller)])) := by
  have hiff : IsFileNewer env.fileTimes (some localInstaller)
      (GetNewestFileInDir env.findFiles UpdateInstaller.srcDir (L "\\*.zip")) = true ↔
      spec_remoteLater env localInstaller := by
    rw [IsFileNewer_iff]; rfl
  have hnw := GetInstaller_no_wrename env.installer appdata
  generalize hg : GetInstaller env.installer appdata = g at hnw
  by_cases hlater : spec_remoteLater env localInstaller
  · have hnew := hiff.2 hlater
    by_cases hok : env.wrenameOk = true
    · simp [UpdateInstaller, hdir, hlocal, hnew, hok, hlater, hg, wcscat_s, hnw]
      exact ⟨[_, _, _], rfl⟩
    · simp [UpdateInstaller, hdir, hlocal, hnew, hok, hlater, wcscat_s]
  · have hnew : IsFileNewer env.fileTimes (some localInstaller)
        (GetNewestFileInDir env.findFiles UpdateInstaller.srcDir (L "\\*.zip")) = false := by
      cases h : IsFileNewer env.fileTimes (some localInstaller)
        (GetNewestFileInDir env.findFiles UpdateInstaller.srcDir (L "\\*.zip")) with
      | false => rfl
      | true => exact absurd (hiff.1 h) hlater
    simp [UpdateInstaller, hdir, hlocal, hnew, hlater]

/-- C20 (amended) on the sample helper written at time 100: with the remote
package written at time 200 and the rename succeeding, `UpdateInstaller`
returns what `GetInstaller` returns; with the remote package written at time
50 it makes the two searches only and returns 0. -/
theorem UpdateInstaller_renames_iff_remote_later_witness :
    (helperEnv 200 true).localDirExists = true ∧
    GetNewestFileInDir (helperEnv 200 true).findFiles (UpdateInstaller.localDir helperAppdata)
      (L "\\*.exe") = some helperPath ∧
    (UpdateInstaller (helperEnv 200 true) helperAppdata).1
      = (GetInstaller (helperEnv 200 true).installer helperAppdata).1 ∧
    UpdateInstaller (helperEnv 50 true) helperAppdata =
      (0, [Event.GetNewestFileInDir UpdateInstaller.srcDir (L "\\*.zip")
            (GetNewestFileInDir (helperEnv 50 true).findFiles UpdateInstaller.srcDir
              (L "\\*.zip")),
           Event.GetNewestFileInDir (UpdateInstaller.localDir helperAppdata) (L "\\*.exe")
            (some helperPath)]) :=
  ⟨rfl, by decide,
   ((UpdateInstaller_renames_iff_remote_later (helperEnv 200 true) helperAppdata helperPath
      rfl (by decide)).2.2.1
      ⟨100, packagePath, 200, by decide, by decide, by decide, by decide⟩ rfl).1,
   (UpdateInstaller_renames_iff_remote_later (helperEnv 50 true) helperAppdata helperPath
      rfl (by decide)).2.2.2.2 (by
        rintro ⟨localTime, remoteInstaller, remoteTime, h1, h2, h3, h4⟩
        have e1 : (helperEnv 50 true).fileTimes helperPath = some 100 := by decide
        have e2 : GetNewestFileInDir (helperEnv 50 true).findFiles UpdateInstaller.srcDir
            (L "\\*.zip") = some packagePath := by decide
        have e3 : (helperEnv 50 true).fileTimes packagePath = some 50 := by decide
        rw [e1] at h1
        rw [e2] at h2
        cases h1
        cases h2
        rw [e3] at h3
        cases h3
        omega)⟩

/-- C20 as stated fails when the rename fails: in the sample environment the
remote package (time 200) is strictly later than the local helper (time 100),
yet with `_wrename` failing the helper keeps its name, nothing is fetched and
`UpdateInstaller` returns 0. -/
theorem UpdateInstaller_rename_failure_fetches_nothing :
    (helperEnv 200 false).fileTimes helperPath = some 100 ∧
    GetNewestFileInDir (helperEnv 200 false).findFiles UpdateInstaller.srcDir (L "\\*.zip")
      = some packagePath ∧
    (helperEnv 200 false).fileTimes packagePath = some 200 ∧
    UpdateInstaller (helperEnv 200 false) helperAppdata =
      (0, [Event.GetNewestFileInDir UpdateInstaller.srcDir (L "\\*.zip") (some packagePath),
           Event.GetNewestFileInDir (UpdateInstaller.localDir helperAppdata) (L "\\*.exe")
            (some helperPath),
           Event.AddMessage (L "INFO") (helperPath ++ L "_Old_" ++ L "10302026_120000"),
           Event.wrename helperPath (helperPath ++ L "_Old_" ++ L "10302026_120000")
            false]) := by
  decide

/-! ## AddSpaces: the two passes, and the place of each space -/

/-- C25: for every name of length at least 1, the second pass of `AddSpaces`
writes the characters of the name and as many spaces as the first pass added
to `newLen` (one for each word boundary after the first character), so that
the output has exactly `newLen` characters, the terminator lands at index
`newLen`, inside the `newLen + 1` elements allocated, and the call has a
defined result. -/
theorem AddSpaces_passes_agree (loc : Locale) (appName : WStr) (h : wcslen appName ≥ 1) :
    AddSpaces.firstPass loc appName (wcslen appName)
      = wcslen appName + wordBoundaries loc appName.tail ∧
    (AddSpaces.secondPass loc appName (wcslen appName)).length
      = wcslen appName + wordBoundaries loc appName.tail ∧
    (AddSpaces.secondPass loc appName (wcslen appName)).length
      = AddSpaces.firstPass loc appName (wcslen appName) ∧
    (AddSpaces.secondPass loc appName (wcslen appName)).length + 1
      ≤ AddSpaces.firstPass loc appName (wcslen appName) + 1 ∧
    AddSpaces loc appName = some (AddSpaces.secondPass loc appName (wcslen appName)) := by
  cases appName with
  | nil => simp [wcslen] at h
  | cons c tail =>
    have h1 := firstPass_eq loc c tail
    have h2 := secondPass_eq loc (c :: tail)
    have h3 : (displayName loc (c :: tail)).length
        = wcslen (c :: tail) + wordBoundaries loc tail := by
      simp only [displayName, List.length_cons, spaceWords_length, wcslen]
      omega
    have h4 : (c :: tail).length = wcslen (c :: tail) := rfl
    rw [h4] at h1
    refine ⟨h1, ?_, ?_, ?_, ?_⟩
    · rw [h2]; exact h3
    · rw [h2, h3, h1]
    · rw [h2, h3, h1]
    · rw [h2]; exact AddSpaces_cons loc c tail

/-- C25 on "GroupManager": both passes count one space, 13 characters. -/
theorem AddSpaces_passes_agree_witness :
    wcslen (L "GroupManager") ≥ 1 ∧
    AddSpaces.firstPass cLocale (L "GroupManager") (wcslen (L "GroupManager")) = 13 ∧
    (AddSpaces.secondPass cLocale (L "GroupManager") (wcslen (L "GroupManager"))).length
      = AddSpaces.firstPass cLocale (L "GroupManager") (wcslen (L "GroupManager")) :=
  ⟨by decide, by decide,
   (AddSpaces_passes_agree cLocale (L "GroupManager") (by decide)).2.2.1⟩

theorem spaceWords_split (loc : Locale) (c : Char) (post : WStr) :
    ∀ a : WStr, ∃ x, spaceWords loc (a ++ c :: post) = x ++ spaceWords loc (c :: post) ∧
      a.Sublist x ∧ ∀ p : Char, (p :: x).getLast? = (p :: a).getLast? := by
  intro a
  induction a with
  | nil => exact ⟨[], by simp, List.Sublist.refl _, fun _ => rfl⟩
  | cons y a ih =>
    obtain ⟨x, hx, hsub, hlast⟩ := ih
    have hl : ∀ p : Char, (p :: ' ' :: y :: x).getLast? = (p :: y :: a).getLast? := by
      intro p
      rw [List.getLast?_cons_cons, List.getLast?_cons_cons, List.getLast?_cons_cons]
      exact hlast y
    have hl2 : ∀ p : Char, (p :: y :: x).getLast? = (p :: y :: a).getLast? := by
      intro p
      rw [List.getLast?_cons_cons, List.getLast?_cons_cons]
      exact hlast y
    cases a with
    | nil =>
      simp only [List.cons_append, List.nil_append]
      by_cases hb : (loc.iswupper y && loc.iswlower c) = true
      · exact ⟨[' ', y], by simp [spaceWords, hb],
          List.Sublist.cons _ (List.Sublist.refl _), fun _ => rfl⟩
      · exact ⟨[y], by simp [spaceWords, hb], List.Sublist.refl _, fun _ => rfl⟩
    | cons z a =>
      simp only [List.cons_append] at hx
      simp only [List.cons_append]
      rw [spaceWords, hx]
      split
      · exact ⟨' ' :: y :: x, by simp, List.Sublist.cons _ (List.Sublist.cons₂ _ hsub), hl⟩
      · exact ⟨y :: x, by simp, List.Sublist.cons₂ _ hsub, hl2⟩

theorem spaceWords_head (loc : Locale) (c : Char) (post : WStr) :
    ∃ after, spaceWords loc (c :: post)
        = (if loc.iswupper c && loc.iswlower (post.headD NUL) then [' ', c] else [c]) ++ after ∧
      post.Sublist after := by
  cases post with
  | nil => exact ⟨[], by simp [spaceWords, loc.lower_NUL], List.Sublist.refl _⟩
  | cons d rest =>
    refine ⟨spaceWords loc (d :: rest), ?_, spaceWords_sublist loc (d :: rest)⟩
    simp only [spaceWords, List.headD_cons]
    split <;> simp

/-- C23: whether `AddSpaces` writes a space before the character at an index
i >= 1 depends on that character and the next one, never on the one before.
The output is defined; it has the characters before index i in order, ending
with name[i-1] itself, then a space and name[i] if name[i] is upper-case and
name[i+1] lower-case, and name[i] with no space otherwise, then the characters
after index i in order.  So a capital letter that follows a lower-case letter
and is not followed by one stands right after that lower-case letter. -/
theorem AddSpaces_space_depends_on_next_letter (loc : Locale) (pre : WStr) (c : Char)
    (post : WStr) (hpre : pre ≠ []) :
    ∃ before after,
      AddSpaces loc (pre ++ c :: post) = some (before ++
        (if loc.iswupper c && loc.iswlower (post.headD NUL) then [' ', c] else [c]) ++ after) ∧
      pre.Sublist before ∧ before.getLast? = pre.getLast? ∧ post.Sublist after := by
  cases pre with
  | nil => exact absurd rfl hpre
  | cons p0 ptail =>
    obtain ⟨x, hx, hsub, hlast⟩ := spaceWords_split loc c post ptail
    obtain ⟨after, hafter, hsub2⟩ := spaceWords_head loc c post
    refine ⟨p0 :: x, after, ?_, List.Sublist.cons₂ _ hsub, hlast p0, hsub2⟩
    rw [List.cons_append, AddSpaces_cons, displayName, hx, hafter]
    simp

/-- C23 on "myAPP", index 2: `A` follows the lower-case `y` and is followed by
`P`; the output is "myAPP", with `A` right after `y`.  On "GroupManager",
index 5, `M` is followed by the lower-case `a` and gets its space. -/
theorem AddSpaces_space_depends_on_next_letter_witness :
    L "my" ≠ [] ∧ cLocale.iswlower 'y' = true ∧ cLocale.iswupper 'A' = true ∧
    AddSpaces cLocale (L "myAPP") = some (L "myAPP") ∧
    AddSpaces cLocale (L "appX") = some (L "appX") ∧
    (∃ before after,
      AddSpaces cLocale (L "my" ++ 'A' :: L "PP") = some (before ++
        (if cLocale.iswupper 'A' && cLocale.iswlower ((L "PP").headD NUL) then [' ', 'A']
          else ['A']) ++ after) ∧
      (L "my").Sublist before ∧ before.getLast? = (L "my").getLast? ∧
      (L "PP").Sublist after) ∧
    (∃ before after,
      AddSpaces cLocale (L "Group" ++ 'M' :: L "anager") = some (before ++
        (if cLocale.iswupper 'M' && cLocale.iswlower ((L "anager").headD NUL) then [' ', 'M']
          else ['M']) ++ after) ∧
      (L "Group").Sublist before ∧ before.getLast? = (L "Group").getLast? ∧
      (L "anager").Sublist after) :=
  ⟨by decide, by decide, by decide, by decide, by decide,
   AddSpaces_space_depends_on_next_letter cLocale (L "my") 'A' (L "PP") (by decide),
   AddSpaces_space_depends_on_next_letter cLocale (L "Group") 'M' (L "anager") (by decide)⟩

/-! ## DeleteDirectory: where a refusal can come from -/

theorem entry_refusal_direct (n : FsNode) (path : WStr) (ev : Event)
    (hev : ev ∈ (DeleteDirectoryContents.entry path n).2.1) (href : isRefusal ev = true) :
    deleteGuard (path ++ L "\\" ++ n.name) = false ∧
    DeleteDirectoryContents.entry path n = (some n, [ev], true) := by
  by_cases hacc : n.name = L "." ∨ n.name = L ".." ∨
      deleteGuard (path ++ L "\\" ++ n.name) = true
  · have := (entry_accepted n path hacc).2 ev hev
    rw [this] at href
    exact absurd href (by simp)
  · simp only [not_or] at hacc
    obtain ⟨h1, h2, h3⟩ := hacc
    have hg : deleteGuard (path ++ L "\\" ++ n.name) = false := by simpa using h3
    obtain ⟨refusal, _, hent⟩ := entry_refused n path ⟨h1, h2⟩ ((deleteGuard_eq_false _).1 hg)
    rw [hent] at hev
    simp only [List.mem_singleton] at hev
    subst hev
    exact ⟨hg, hent⟩

theorem loop_refusal_direct (path : WStr) (ev : Event) (href : isRefusal ev = true) :
    ∀ cs : List FsNode, ev ∈ (DeleteDirectoryContents.loop path cs).2 →
      ∃ child ∈ cs, deleteGuard (path ++ L "\\" ++ child.name) = false ∧
        DeleteDirectoryContents.entry path child = (some child, [ev], true) := by
  intro cs
  induction cs with
  | nil => intro h; simp [DeleteDirectoryContents.loop] at h
  | cons n rest ih =>
    intro h
    have hin : ev ∈ (DeleteDirectoryContents.entry path n).2.1 ∨
        ev ∈ (DeleteDirectoryContents.loop path rest).2 := by
      simp only [DeleteDirectoryContents.loop] at h
      split at h
      · exact Or.inl h
      · exact List.mem_append.1 h
    rcases hin with h1 | h2
    · obtain ⟨hg, hent⟩ := entry_refusal_direct n path ev h1 href
      exact ⟨n, List.mem_cons_self _ _, hg, hent⟩
    · obtain ⟨child, hc, hg, hent⟩ := ih h2
      exact ⟨child, List.mem_cons_of_mem _ hc, hg, hent⟩

/-- C24: the deletion guard is monotone along the recursion: a path of length
above 20 with more than 2 separators keeps both properties when `\` and an
entry name are appended.  Hence the turn of `DeleteDirectoryContents` for a
subdirectory that passes the guard ends without refusal, whatever lies beneath
it, and every refusal among the events of `DeleteDirectory(path)` is the one
message of the turn for a direct child of `path` whose own path fails the
guard. -/
theorem deleteGuard_monotone_along_recursion (path : WStr) :
    (∀ name, wcslen path > 20 → DirDepth path > 2 →
      wcslen (path ++ L "\\" ++ name) > 20 ∧ DirDepth (path ++ L "\\" ++ name) > 2) ∧
    (∀ name listable removable children,
      deleteGuard (path ++ L "\\" ++ name) = true →
      (∀ ev ∈ (DeleteDirectoryContents.loop (path ++ L "\\" ++ name) children).2,
        isRefusal ev = false) ∧
      (DeleteDirectoryContents.entry path (.dir name listable removable children)).2.2 = false ∧
      ∀ ev ∈ (DeleteDirectoryContents.entry path (.dir name listable removable children)).2.1,
        isRefusal ev = false) ∧
    (∀ target ev, ev ∈ (DeleteDirectory path target).2 → isRefusal ev = true →
      ∃ name removable children child,
        target = some (.dir name true removable children) ∧ child ∈ children ∧
        deleteGuard (path ++ L "\\" ++ child.name) = false ∧
        DeleteDirectoryContents.entry path child = (some child, [ev], true)) := by
  refine ⟨?_, ?_, ?_⟩
  · intro name hlen hdepth
    have hg : deleteGuard path = true := by simp [deleteGuard, hlen, hdepth]
    have := deleteGuard_child path name hg
    simpa [deleteGuard] using this
  · intro name listable removable children hg
    exact ⟨loop_guarded children _ hg,
      entry_accepted (.dir name listable removable children) path (Or.inr (Or.inr hg))⟩
  · intro target ev hev href
    have hne : ev ≠ Event.RemoveDirectory path := by
      intro h; rw [h] at href; simp [isRefusal] at href
    have hun : ev ≠ Event.AddMessage (L "Error") (L "Unable to open directory " ++ path) := by
      intro h; rw [h, isRefusal_unable] at href; simp at href
    simp only [DeleteDirectory, List.mem_append, List.mem_singleton, hne, or_false] at hev
    unfold DeleteDirectoryContents at hev
    split at hev
    · rename_i name removable children
      obtain ⟨child, hc, hg, hent⟩ := loop_refusal_direct path ev href children hev
      exact ⟨name, removable, children, child, rfl, hc, hg, hent⟩
    · simp only [List.mem_singleton] at hev
      exact absurd hev hun

/-- C24 on the install directory of the sample: it passes the guard, and so
does the path of its entry `data`. -/
theorem deleteGuard_monotone_along_recursion_witness :
    wcslen (L "C:\\Users\\me\\AppData\\Local\\MyApps\\Widget") > 20 ∧
    DirDepth (L "C:\\Users\\me\\AppData\\Local\\MyApps\\Widget") > 2 ∧
    wcslen (L "C:\\Users\\me\\AppData\\Local\\MyApps\\Widget" ++ L "\\" ++ L "data") > 20 ∧
    DirDepth (L "C:\\Users\\me\\AppData\\Local\\MyApps\\Widget" ++ L "\\" ++ L "data") > 2 ∧
    ∀ ev ∈ (DeleteDirectoryContents.loop
        (L "C:\\Users\\me\\AppData\\Local\\MyApps" ++ L "\\" ++ L "Widget") widgetTree).2,
      isRefusal ev = false :=
  ⟨by decide, by decide,
   ((deleteGuard_monotone_along_recursion (L "C:\\Users\\me\\AppData\\Local\\MyApps\\Widget")).1
      (L "data") (by decide) (by decide)).1,
   ((deleteGuard_monotone_along_recursion (L "C:\\Users\\me\\AppData\\Local\\MyApps\\Widget")).1
      (L "data") (by decide) (by decide)).2,
   ((deleteGuard_monotone_along_recursion (L "C:\\Users\\me\\AppData\\Local\\MyApps")).2.1
      (L "Widget") true true widgetTree (by decide)).1⟩

/-! ## Archive handles -/

theorem entry_no_archive_event (outdir : WStr) (x : ZipEntry) :
    ∀ e ∈ ExtractZip.entry outdir x, e.opensArchive = false ∧ e.closesArchive = false := by
  intro e
  unfold ExtractZip.entry
  split
  · intro h; simp at h; subst h; exact ⟨rfl, rfl⟩
  · split
    · split
      · intro h; simp at h; subst h; exact ⟨rfl, rfl⟩
      · split
        · intro h; simp at h; rcases h with h | h <;> subst h <;> exact ⟨rfl, rfl⟩
        · split
          · intro h; simp at h; rcases h with h | h <;> subst h <;> exact ⟨rfl, rfl⟩
          · intro h; simp at h; rcases h with h | h <;> subst h <;> exact ⟨rfl, rfl⟩
    · intro h; simp at h; subst h; exact ⟨rfl, rfl⟩

theorem entries_no_archive_event (outdir : WStr) (entries : List ZipEntry) :
    List.countP Event.opensArchive (entries.map (ExtractZip.entry outdir)).flatten = 0 ∧
    List.countP Event.closesArchive (entries.map (ExtractZip.entry outdir)).flatten = 0 := by
  constructor
  · rw [List.countP_eq_zero]
    intro e he
    simp only [List.mem_flatten, List.mem_map] at he
    obtain ⟨l, ⟨x, _, rfl⟩, hx⟩ := he
    simp [(entry_no_archive_event outdir x e hx).1]
  · rw [List.countP_eq_zero]
    intro e he
    simp only [List.mem_flatten, List.mem_map] at he
    obtain ⟨l, ⟨x, _, rfl⟩, hx⟩ := he
    simp [(entry_no_archive_event outdir x e hx).2]

/-- `ExtractZip` closes the archive it opened: no handle is left open. -/
theorem ExtractZip_closes_archive (xenv : ExtractEnv) (zipfile outdir : WStr) :
    openArchives (ExtractZip xenv zipfile outdir).events = 0 := by
  unfold ExtractZip openArchives
  cases xenv.archive with
  | none => simp [List.countP_cons, Event.opensArchive, Event.closesArchive]
  | some entries =>
    obtain ⟨h1, h2⟩ := entries_no_archive_event outdir entries
    cases xenv.zipFileExists <;>
      simp [List.countP_append, List.countP_cons, Event.opensArchive, Event.closesArchive,
        h1, h2]

/-- C22: whenever the archive opens, `CheckIfRunning` returns with the handle
still open: its only archive event is the `zip_open`, on the return paths
"running", "not running" and "no executable found" alike.  `ExtractZip`
leaves no handle open. -/
theorem CheckIfRunning_leaves_archive_open (loc : Locale) (env : CheckEnv) (zipPath : WStr)
    (h : env.archive.isSome = true) :
    (CheckIfRunning loc env zipPath).2 = [Event.zip_open zipPath] ∧
    (∀ z, Event.zip_close z ∉ (CheckIfRunning loc env zipPath).2) ∧
    openArchives (CheckIfRunning loc env zipPath).2 = 1 ∧
    ∀ xenv zipfile outdir, openArchives (ExtractZip xenv zipfile outdir).events = 0 := by
  cases ha : env.archive with
  | none => rw [ha] at h; simp at h
  | some entries =>
    refine ⟨by simp [CheckIfRunning, ha], by simp [CheckIfRunning, ha], ?_,
      ExtractZip_closes_archive⟩
    simp [CheckIfRunning, ha, openArchives, List.countP_cons, Event.opensArchive,
      Event.closesArchive]

/-- C22 on the three return paths of `CheckIfRunning`: running (1), not
running (0) and no executable found (-1); each leaves one handle open. -/
theorem CheckIfRunning_leaves_archive_open_witness :
    (CheckIfRunning cLocale runningEnv.check (L "W.zip")).1 = 1 ∧
    openArchives (CheckIfRunning cLocale runningEnv.check (L "W.zip")).2 = 1 ∧
    (CheckIfRunning cLocale widgetEnv.check (L "W.zip")).1 = 0 ∧
    openArchives (CheckIfRunning cLocale widgetEnv.check (L "W.zip")).2 = 1 ∧
    (CheckIfRunning cLocale noExeArchiveEnv.check (L "W.zip")).1 = -1 ∧
    openArchives (CheckIfRunning cLocale noExeArchiveEnv.check (L "W.zip")).2 = 1 :=
  ⟨by decide,
   (CheckIfRunning_leaves_archive_open cLocale runningEnv.check (L "W.zip") (by decide)).2.2.1,
   by decide,
   (CheckIfRunning_leaves_archive_open cLocale widgetEnv.check (L "W.zip") (by decide)).2.2.1,
   by decide,
   (CheckIfRunning_leaves_archive_open cLocale noExeArchiveEnv.check (L "W.zip")
      (by decide)).2.2.1⟩

/-! ## ProcessInstall and the value of UpdateInstaller -/

theorem set_append_length (d : List Char) (x y : Char) (rest : List Char) :
    (d ++ x :: rest).set d.length y = d ++ y :: rest := by
  induction d with
  | nil => rfl
  | cons a d ih => simp [List.set, ih]

theorem wcharAt_length (d : List Char) : wcharAt d d.length = NUL := by
  simp [wcharAt, List.getD_eq_getElem?_getD]

theorem cstr_append (d : List Char) (hd : ∀ c ∈ d, c ≠ NUL) (tail : List Char)
    (ht : tail = [] ∨ ∃ junk, tail = NUL :: junk) : cstr (d ++ tail) = d := by
  induction d with
  | nil =>
    rcases ht with rfl | ⟨junk, rfl⟩
    · rfl
    · simp [cstr]
  | cons a d ih =>
    have ha : a ≠ NUL := hd a (List.mem_cons_self _ _)
    have := ih (fun c hc => hd c (List.mem_cons_of_mem _ hc))
    have hb : (a != NUL) = true := by simpa using ha
    simp only [cstr] at this ⊢
    simp only [List.cons_append, List.takeWhile, hb, List.append_eq, this]

theorem wcharAt_at_end (d tail : List Char) (ht : tail = [] ∨ ∃ junk, tail = NUL :: junk) :
    wcharAt (d ++ tail) d.length = NUL := by
  rcases ht with rfl | ⟨junk, rfl⟩
  · simpa using wcharAt_length d
  · exact wcharAt_append_length d NUL junk

theorem scan_at_end (mkdirOk : WStr → Bool) (d tail : List Char) (dirs : List WStr)
    (ev : List Event) (fuel : Nat) (hfuel : 1 ≤ fuel)
    (ht : tail = [] ∨ ∃ junk, tail = NUL :: junk) :
    CreateDirectories.scan mkdirOk fuel ⟨d ++ tail, d.length, dirs, ev⟩
      = some ⟨d ++ tail, d.length, dirs, ev⟩ := by
  cases fuel with
  | zero => omega
  | succ fuel =>
    simp [CreateDirectories.scan, wcharAt_at_end d tail ht]

/-- The loop on the buffer ends within one test of its condition for each
remaining character and one more, and what it leaves is what
`CreateDirectories.loop` computes.  The buffer holds the restored characters
`d` up to `currentPos`, the remaining characters `r`, and then either the end
of the allocation or a terminator written earlier. -/
theorem scan_spec (mkdirOk : WStr → Bool) (r : List Char) :
    ∀ (d tail : List Char) (dirs : List WStr) (ev : List Event) (fuel : Nat),
      (∀ c ∈ d, c ≠ NUL) → (∀ c ∈ r, c ≠ NUL) →
      (tail = [] ∨ ∃ junk, tail = NUL :: junk) → r.length + 1 ≤ fuel →
      ∃ s, CreateDirectories.scan mkdirOk fuel ⟨d ++ (r ++ tail), d.length, dirs, ev⟩ = some s ∧
        cstr s.tempPath = (CreateDirectories.loop mkdirOk d r dirs).1 ∧
        s.dirs = (CreateDirectories.loop mkdirOk d r dirs).2.dirs ∧
        s.events = ev ++ (CreateDirectories.loop mkdirOk d r dirs).2.events := by
  induction r with
  | nil =>
    intro d tail dirs ev fuel hd _ ht hf
    refine ⟨_, by simpa using scan_at_end mkdirOk d tail dirs ev fuel hf ht, ?_, ?_, ?_⟩
    · simpa [CreateDirectories.loop] using cstr_append d hd tail ht
    · simp [CreateDirectories.loop]
    · simp [CreateDirectories.loop]
  | cons c r ih =>
    intro d tail dirs ev fuel hd hr ht hf
    cases fuel with
    | zero => simp at hf
    | succ fuel =>
      have hc : c ≠ NUL := hr c (List.mem_cons_self _ _)
      have hr2 : ∀ x ∈ r, x ≠ NUL := fun x hx => hr x (List.mem_cons_of_mem _ hx)
      have hf2 : r.length + 1 ≤ fuel := by simpa using hf
      have hat : wcharAt (d ++ c :: (r ++ tail)) d.length = c :=
        wcharAt_append_length d c (r ++ tail)
      by_cases hsep : isSeparator c = true
      · have hset : (d ++ c :: (r ++ tail)).set d.length NUL = d ++ NUL :: (r ++ tail) :=
          set_append_length d c NUL (r ++ tail)
        have hcs : cstr (d ++ NUL :: (r ++ tail)) = d :=
          cstr_append d hd _ (Or.inr ⟨_, rfl⟩)
        have hset2 : (d ++ NUL :: (r ++ tail)).set d.length '\\' = d ++ '\\' :: (r ++ tail) :=
          set_append_length d NUL '\\' (r ++ tail)
        have hd2 : ∀ x ∈ d ++ ['\\'], x ≠ NUL := by
          intro x hx
          rcases List.mem_append.1 hx with h | h
          · exact hd x h
          · simp at h; subst h; decide
        by_cases hex : DirectoryExists dirs d = true
        · obtain ⟨s, hs, h1, h2, h3⟩ := ih (d ++ ['\\']) tail dirs ev fuel hd2 hr2 ht hf2
          refine ⟨s, ?_, ?_, ?_, ?_⟩
          · simp only [CreateDirectories.scan, List.cons_append, hat, hc, if_false,
              CreateDirectories.body, hsep, if_true, hset, hcs, hex, hset2]
            simpa using hs
          · simpa [CreateDirectories.loop, hsep, hex] using h1
          · simpa [CreateDirectories.loop, hsep, hex] using h2
          · simpa [CreateDirectories.loop, hsep, hex] using h3
        · by_cases hok : mkdirOk d = true
          · obtain ⟨s, hs, h1, h2, h3⟩ := ih (d ++ ['\\']) tail (normalizePath d :: dirs)
              (ev ++ [Event.wmkdir d true]) fuel hd2 hr2 ht hf2
            refine ⟨s, ?_, ?_, ?_, ?_⟩
            · simp only [CreateDirectories.scan, List.cons_append, hat, hc, if_false,
                CreateDirectories.body, hsep, if_true, hset, hcs, hex, hok, hset2]
              simpa using hs
            · simpa [CreateDirectories.loop, hsep, hex, hok] using h1
            · simpa [CreateDirectories.loop, hsep, hex, hok] using h2
            · simpa [CreateDirectories.loop, hsep, hex, hok] using h3
          · have hend := scan_at_end mkdirOk d (NUL :: (r ++ tail)) dirs
              (ev ++ [Event.wmkdir d false]) fuel (by omega) (Or.inr ⟨_, rfl⟩)
            refine ⟨⟨d ++ NUL :: (r ++ tail), d.length, dirs, ev ++ [Event.wmkdir d false]⟩,
              ?_, ?_, ?_, ?_⟩
            · simp only [CreateDirectories.scan, List.cons_append, hat, hc, if_false,
                CreateDirectories.body, hsep, if_true, hset, hcs, hex, hok]
              exact hend
            · simpa [CreateDirectories.loop, hsep, hex, hok] using hcs
            · simp [CreateDirectories.loop, hsep, hex, hok]
            · simp [CreateDirectories.loop, hsep, hex, hok]
      · have hd2 : ∀ x ∈ d ++ [c], x ≠ NUL := by
          intro x hx
          rcases List.mem_append.1 hx with h | h
          · exact hd x h
          · simp at h; subst h; exact hc
        obtain ⟨s, hs, h1, h2, h3⟩ := ih (d ++ [c]) tail dirs ev fuel hd2 hr2 ht hf2
        refine ⟨s, ?_, ?_, ?_, ?_⟩
        · simp only [CreateDirectories.scan, List.cons_append, hat, hc, if_false,
            CreateDirectories.body, hsep]
          simpa using hs
        · simpa [CreateDirectories.loop, hsep] using h1
        · simpa [CreateDirectories.loop, hsep] using h2
        · simpa [CreateDirectories.loop, hsep] using h3

theorem run_eq (mkdirOk : WStr → Bool) (dirs : List WStr) (path : WStr) (fuel : Nat)
    (hpath : ∀ c ∈ path, c ≠ NUL) (hf : path.length + 1 ≤ fuel) :
    CreateDirectories.run mkdirOk fuel dirs path = some (CreateDirectories mkdirOk dirs path) := by
  have hnil : ∀ c ∈ ([] : List Char), c ≠ NUL := by simp
  by_cases hsep : ∃ c ∈ path, isSeparator c = true
  · obtain ⟨t0, s, tl, rfl, hs, htl⟩ := split_at_last_separator path hsep
    have ht0 : ∀ c ∈ t0, c ≠ NUL := fun c hc => hpath c (by simp [hc])
    have hf2 : t0.length + 1 ≤ fuel := by simp at hf; omega
    obtain ⟨st, hst, h1, h2, h3⟩ := scan_spec mkdirOk t0 [] (NUL :: tl) dirs [] fuel hnil ht0
      (Or.inr ⟨_, rfl⟩) hf2
    simp only [List.nil_append, List.length_nil] at hst h3
    have hset : (t0 ++ s :: tl).set t0.length NUL = t0 ++ NUL :: tl :=
      set_append_length t0 s NUL tl
    unfold CreateDirectories.run CreateDirectories
    rw [lastSeparator_split t0 s tl hs htl]
    simp only [Nat.zero_add, hset, hst, List.take_left', h1, h2, h3]
  · have hplain : ∀ c ∈ path, isSeparator c = false := by
      intro c hc
      cases h : isSeparator c with
      | false => rfl
      | true => exact absurd ⟨c, hc, h⟩ hsep
    obtain ⟨st, hst, h1, h2, h3⟩ := scan_spec mkdirOk path [] [] dirs [] fuel hnil hpath
      (Or.inl rfl) hf
    simp only [List.nil_append, List.length_nil, List.append_nil] at hst h3
    unfold CreateDirectories.run CreateDirectories
    rw [lastSeparator_none path hplain]
    simp only [hst, h1, h2, h3]

/-- A failed `_wmkdir` is the last event of the loop, and the loop leaves
`tempPath` reading as the path whose creation failed. -/
theorem loop_failure_last (mkdirOk : WStr → Bool) (rest : WStr) :
    ∀ (done : WStr) (dirs : List WStr) (pre : List Event) (p : WStr) (post : List Event),
      (CreateDirectories.loop mkdirOk done rest dirs).2.events
        = pre ++ Event.wmkdir p false :: post →
      post = [] ∧ (CreateDirectories.loop mkdirOk done rest dirs).1 = p := by
  induction rest with
  | nil =>
    intro done dirs pre p post h
    simp [CreateDirectories.loop] at h
  | cons c rest ih =>
    intro done dirs pre p post h
    by_cases hsep : isSeparator c = true
    · by_cases hex : DirectoryExists dirs done = true
      · simp only [CreateDirectories.loop, hsep, hex, if_true] at h ⊢
        exact ih _ _ _ _ _ h
      · by_cases hok : mkdirOk done = true
        · simp only [CreateDirectories.loop, hsep, hex, hok, if_true, if_false,
            Bool.false_eq_true] at h ⊢
          cases pre with
          | nil => simp at h
          | cons x pre =>
            simp only [List.cons_append, List.cons.injEq] at h
            exact ih _ _ _ _ _ h.2
        · simp only [CreateDirectories.loop, hsep, hex, hok, if_true, if_false,
            Bool.false_eq_true] at h ⊢
          cases pre with
          | nil =>
            simp only [List.nil_append, List.cons.injEq, Event.wmkdir.injEq, and_true] at h
            exact ⟨h.2.symm, h.1⟩
          | cons x pre => simp at h
    · simp only [CreateDirectories.loop, hsep, if_false, Bool.false_eq_true] at h ⊢
      exact ih _ _ _ _ _ h

/-- After a failed `_wmkdir`, `CreateDirectories` calls `_wmkdir` on no other
path. -/
theorem CreateDirectories_after_failure (mkdirOk : WStr → Bool) (dirs : List WStr)
    (path : WStr) (pre : List Event) (p : WStr) (post : List Event)
    (h : (CreateDirectories mkdirOk dirs path).events = pre ++ Event.wmkdir p false :: post) :
    ∀ q ok, Event.wmkdir q ok ∈ post → q = p := by
  intro q ok hq
  unfold CreateDirectories at h
  simp only at h
  generalize (match CreateDirectories.lastSeparator path 0 none with
    | some lastSeparator => List.take lastSeparator path
    | none => path) = t at h
  have hloop := loop_failure_last mkdirOk t [] dirs
  generalize CreateDirectories.loop mkdirOk [] t dirs = r at h hloop
  have key : ∀ F : List Event, (∀ q ok, Event.wmkdir q ok ∈ F → q = r.1) →
      (∀ a X b, F = a ++ Event.wmkdir X false :: b → X = r.1 ∧ ∀ q ok, Event.wmkdir q ok ∈ b →
        q = r.1) →
      r.2.events ++ F = pre ++ Event.wmkdir p false :: post → q = p := by
    intro F hF1 hF2 hsplit
    rcases List.append_eq_append_iff.1 hsplit with ⟨a, hpre, hF⟩ | ⟨c, hE, hrest⟩
    · obtain ⟨hp, hb⟩ := hF2 a p post hF
      rw [hp]; exact hb q ok hq
    · cases c with
      | nil =>
        simp only [List.nil_append] at hrest
        obtain ⟨hp, hb⟩ := hF2 [] p post (by simpa using hrest.symm)
        rw [hp]; exact hb q ok hq
      | cons y c =>
        simp only [List.cons_append, List.cons.injEq] at hrest
        obtain ⟨rfl, hpost⟩ := hrest
        obtain ⟨hc, hp⟩ := hloop pre p c hE
        subst hc
        simp only [List.nil_append] at hpost
        rw [hpost] at hq
        rw [← hp]; exact hF1 q ok hq
  split at h
  · have := key [] (by simp) (by simp) (by simpa using h)
    exact this
  · split at h
    · refine key [Event.wmkdir r.1 true] ?_ ?_ h
      · intro q ok hq; simp at hq; exact hq.1
      · intro a X b hab
        cases a with
        | nil => simp at hab
        | cons y a => cases a <;> simp at hab
    · refine key [Event.wmkdir r.1 false,
        Event.AddMessage (L "ERROR") (L "Unable to create directory")] ?_ ?_ h
      · intro q ok hq; simp at hq; exact hq.1
      · intro a X b hab
        cases a with
        | nil =>
          simp only [List.nil_append, List.cons.injEq, Event.wmkdir.injEq, and_true] at hab
          refine ⟨hab.1.symm, ?_⟩
          intro q ok hq
          rw [← hab.2] at hq
          simp at hq
        | cons y a =>
          cases a with
          | nil => simp at hab
          | cons z a => cases a <;> simp at hab

/-- C26: `CreateDirectories` terminates for every path and every outcome of
the `_wmkdir` calls.  Run on the buffer, the scan loop has ended after at most
one test of its condition for each character of the path and one more, and the
call then returns what the model `CreateDirectories` gives.  When a creation
fails inside the loop, the `continue` leaves the terminator at `currentPos`:
the next test of the condition ends the loop with `tempPath` reading as the
failed path, and after a failed creation `_wmkdir` is called on no other
path. -/
theorem CreateDirectories_terminates (mkdirOk : WStr → Bool) (dirs : List WStr) (path : WStr)
    (hpath : ∀ c ∈ path, c ≠ NUL) :
    (∀ fuel, path.length + 1 ≤ fuel →
      CreateDirectories.run mkdirOk fuel dirs path
        = some (CreateDirectories mkdirOk dirs path)) ∧
    (∀ (d : List Char) (c : Char) (r : List Char) (ds : List WStr) (ev : List Event) (fuel : Nat),
      (∀ x ∈ d, x ≠ NUL) → isSeparator c = true →
      DirectoryExists ds d = false → mkdirOk d = false → 2 ≤ fuel →
      CreateDirectories.scan mkdirOk fuel ⟨d ++ c :: r, d.length, ds, ev⟩
        = some ⟨d ++ NUL :: r, d.length, ds, ev ++ [Event.wmkdir d false]⟩) ∧
    (∀ pre p post,
      (CreateDirectories mkdirOk dirs path).events = pre ++ Event.wmkdir p false :: post →
      ∀ q ok, Event.wmkdir q ok ∈ post → q = p) := by
  refine ⟨fun fuel hf => run_eq mkdirOk dirs path fuel hpath hf, ?_,
    fun pre p post h => CreateDirectories_after_failure mkdirOk dirs path pre p post h⟩
  intro d c r ds ev fuel hd hsep hex hok hf
  have hc : c ≠ NUL := by
    intro h; rw [h] at hsep; exact absurd hsep (by decide)
  have hat : wcharAt (d ++ c :: r) d.length = c := wcharAt_append_length d c r
  have hset : (d ++ c :: r).set d.length NUL = d ++ NUL :: r := set_append_length d c NUL r
  have hcs : cstr (d ++ NUL :: r) = d := cstr_append d hd _ (Or.inr ⟨_, rfl⟩)
  have hend := scan_at_end mkdirOk d (NUL :: r) ds (ev ++ [Event.wmkdir d false])
    (fuel - 1) (by omega) (Or.inr ⟨_, rfl⟩)
  obtain ⟨f, rfl⟩ : ∃ f, fuel = f + 1 := ⟨fuel - 1, by omega⟩
  simp only [Nat.add_sub_cancel] at hend
  simp only [CreateDirectories.scan, hat, hc, if_false, CreateDirectories.body, hsep,
    if_true, hset, hcs, hex, hok, Bool.false_eq_true]
  exact hend

/-- C26 on `dest/a/b/c.txt` in an empty filesystem where `dest\a` cannot be
created: the run on the buffer ends within 15 tests of the loop condition, the
failed creation is tried once more after the loop and reported, and `dest\a\b`
is never tried. -/
theorem CreateDirectories_terminates_witness :
    (∀ c ∈ L "dest/a/b/c.txt", c ≠ NUL) ∧
    CreateDirectories.run (fun p => p != L "dest\\a") 15 [] (L "dest/a/b/c.txt")
      = some (CreateDirectories (fun p => p != L "dest\\a") [] (L "dest/a/b/c.txt")) ∧
    (CreateDirectories (fun p => p != L "dest\\a") [] (L "dest/a/b/c.txt")).events
      = [Event.wmkdir (L "dest") true] ++ Event.wmkdir (L "dest\\a") false ::
          [Event.wmkdir (L "dest\\a") false,
           Event.AddMessage (L "ERROR") (L "Unable to create directory")] ∧
    ∀ q ok, Event.wmkdir q ok ∈
        [Event.wmkdir (L "dest\\a") false,
         Event.AddMessage (L "ERROR") (L "Unable to create directory")] → q = L "dest\\a" :=
  ⟨by decide,
   (CreateDirectories_terminates (fun p => p != L "dest\\a") [] (L "dest/a/b/c.txt")
      (by decide)).1 15 (by decide),
   by decide,
   (CreateDirectories_terminates (fun p => p != L "dest\\a") [] (L "dest/a/b/c.txt")
      (by decide)).2.2 [Event.wmkdir (L "dest") true] (L "dest\\a")
      [Event.wmkdir (L "dest\\a") false,
       Event.AddMessage (L "ERROR") (L "Unable to create directory")] (by decide)⟩

/-! ## The progress value in double arithmetic -/

theorem rne_ge (n d : Nat) : n / d ≤ roundNearestEven n d := by
  unfold roundNearestEven; split_ifs <;> omega

theorem rne_le (n d : Nat) : roundNearestEven n d ≤ n / d + 1 := by
  unfold roundNearestEven; split_ifs <;> omega

theorem rne_exact (n d : Nat) (hd : 0 < d) (h : n % d = 0) : roundNearestEven n d = n / d := by
  unfold roundNearestEven; rw [h]; simp [hd]

theorem rne_err (n d : Nat) (hd : 0 < d) :
    2 * (roundNearestEven n d * d) ≤ 2 * n + d ∧ 2 * n ≤ 2 * (roundNearestEven n d * d) + d := by
  have h := Nat.div_add_mod n d
  have hr := Nat.mod_lt n hd
  unfold roundNearestEven
  generalize n / d = q at *
  generalize n % d = r at *
  split_ifs <;> constructor <;> nlinarith

theorem rne_mono (a b a' b' : Nat) (hb : 0 < b) (hb' : 0 < b') (h : a * b' ≤ a' * b) :
    roundNearestEven a b ≤ roundNearestEven a' b' := by
  have e := Nat.div_add_mod a b
  have e' := Nat.div_add_mod a' b'
  have hr := Nat.mod_lt a hb
  have hr' := Nat.mod_lt a' hb'
  rcases Nat.lt_trichotomy (a / b) (a' / b') with hlt | heq | hgt
  · calc roundNearestEven a b ≤ a / b + 1 := rne_le a b
      _ ≤ a' / b' := hlt
      _ ≤ roundNearestEven a' b' := rne_ge a' b'
  · unfold roundNearestEven
    rw [← heq]
    rw [← heq] at e'
    generalize a / b = q at *
    generalize a % b = r at *
    generalize a' % b' = r' at *
    have hrr : r * b' ≤ r' * b := by nlinarith
    have k1 : 2 * r ≤ b ∨ b' < 2 * r' := by
      by_contra hcon
      simp only [not_or, not_le, not_lt] at hcon
      nlinarith [Nat.mul_lt_mul_of_pos_right hcon.1 hb', Nat.mul_le_mul_right b hcon.2]
    have k2 : 2 * r < b ∨ b' ≤ 2 * r' := by
      by_contra hcon
      simp only [not_or, not_le, not_lt] at hcon
      nlinarith [Nat.mul_le_mul_right b' hcon.1, Nat.mul_lt_mul_of_pos_right hcon.2 hb]
    split_ifs <;> omega
  · exfalso
    generalize a / b = q at *
    generalize a' / b' = q' at *
    generalize a % b = r at *
    generalize a' % b' = r' at *
    have h1 : q' + 1 ≤ q := hgt
    have h2 : (q' + 1) * (b * b') ≤ q * (b * b') := Nat.mul_le_mul_right _ h1
    nlinarith


theorem scale_ge (n d : Nat) : ∀ fuel k, k ≤ Double.scale n d fuel k := by
  intro fuel
  induction fuel with
  | zero => intro k; simp [Double.scale]
  | succ fuel ih =>
    intro k
    simp only [Double.scale]
    split
    · exact Nat.le_refl _
    · exact Nat.le_trans (Nat.le_succ k) (ih (k + 1))

theorem scale_lt_not (n d : Nat) : ∀ fuel k j, k ≤ j → j < Double.scale n d fuel k →
    ¬ 2 ^ 52 * d ≤ n * 2 ^ j := by
  intro fuel
  induction fuel with
  | zero => intro k j h1 h2; simp only [Double.scale] at h2; omega
  | succ fuel ih =>
    intro k j h1 h2
    simp only [Double.scale] at h2
    split at h2
    · omega
    · rename_i hk
      by_cases hjk : j = k
      · rw [hjk]; exact hk
      · exact ih (k + 1) j (by omega) h2

theorem scale_found (n d : Nat) : ∀ fuel k j, k ≤ j → j < k + fuel →
    2 ^ 52 * d ≤ n * 2 ^ j → 2 ^ 52 * d ≤ n * 2 ^ (Double.scale n d fuel k) := by
  intro fuel
  induction fuel with
  | zero => intro k j h1 h2; omega
  | succ fuel ih =>
    intro k j h1 h2 hp
    simp only [Double.scale]
    split
    · assumption
    · rename_i hk
      have hjk : j ≠ k := by
        intro h; rw [h] at hp; exact hk hp
      exact ih (k + 1) j (by omega) (by omega) hp

theorem round_spec (n d : Nat) (hd : 0 < d) (j : Nat) (hj : j < 1074)
    (hp : 2 ^ 52 * d ≤ n * 2 ^ j) :
    2 ^ 52 * d ≤ n * 2 ^ (Double.round n d).exp ∧
    (Double.round n d).exp ≤ j ∧
    2 ^ 52 ≤ (Double.round n d).mant ∧
    (∀ i, i < (Double.round n d).exp → n * 2 ^ i < 2 ^ 52 * d) ∧
    (1 ≤ (Double.round n d).exp → (Double.round n d).mant ≤ 2 ^ 53) := by
  have hP := scale_found n d 1074 0 j (Nat.zero_le _) (by omega) hp
  have hnot := scale_lt_not n d 1074 0
  simp only [Double.round]
  generalize Double.scale n d 1074 0 = k at *
  have hkj : k ≤ j := by
    by_contra hcon
    exact hnot j (Nat.zero_le _) (by omega) hp
  have hlow : ∀ i, i < k → n * 2 ^ i < 2 ^ 52 * d := by
    intro i hi
    have := hnot i (Nat.zero_le _) hi
    omega
  refine ⟨hP, hkj, ?_, hlow, ?_⟩
  · calc 2 ^ 52 ≤ n * 2 ^ k / d := (Nat.le_div_iff_mul_le hd).2 hP
      _ ≤ roundNearestEven (n * 2 ^ k) d := rne_ge _ _
  · intro hk
    have h1 := hlow (k - 1) (by omega)
    have h2 : n * 2 ^ k = 2 * (n * 2 ^ (k - 1)) := by
      have : k = (k - 1) + 1 := by omega
      rw [this, pow_succ]; simp; ring
    have h3 : n * 2 ^ k / d < 2 ^ 53 := by
      rw [Nat.div_lt_iff_lt_mul hd]
      rw [h2]
      have : (2:Nat) ^ 53 = 2 * 2 ^ 52 := by norm_num
      rw [this]
      nlinarith
    have := rne_le (n * 2 ^ k) d
    omega

theorem round_mono (n d n' d' : Nat) (hd : 0 < d) (hd' : 0 < d') (hle : n * d' ≤ n' * d)
    (j : Nat) (hj : j < 1074) (hp : 2 ^ 52 * d ≤ n * 2 ^ j) :
    Double.le (Double.round n d) (Double.round n' d') := by
  obtain ⟨hP, hkj, hm, hlow, hup⟩ := round_spec n d hd j hj hp
  have hp' : ∀ i, 2 ^ 52 * d ≤ n * 2 ^ i → 2 ^ 52 * d' ≤ n' * 2 ^ i := by
    intro i hi
    have h1 : 2 ^ 52 * d * d' ≤ n * 2 ^ i * d' := Nat.mul_le_mul_right _ hi
    have h2 : n * 2 ^ i * d' ≤ n' * 2 ^ i * d := by nlinarith [Nat.mul_le_mul_right (2 ^ i) hle]
    have h3 : 2 ^ 52 * d' * d ≤ n' * 2 ^ i * d := by nlinarith
    exact Nat.le_of_mul_le_mul_right h3 hd
  obtain ⟨hP', hkj', hm', hlow', _⟩ := round_spec n' d' hd' j hj (hp' j hp)
  have hkk : (Double.round n' d').exp ≤ (Double.round n d).exp := by
    by_contra hcon
    have := hlow' (Double.round n d).exp (by omega)
    have := hp' _ hP
    omega
  unfold Double.le
  rcases Nat.eq_or_lt_of_le hkk with heq | hlt
  · have hmm : (Double.round n d).mant ≤ (Double.round n' d').mant := by
      simp only [Double.round] at heq ⊢
      rw [heq]
      apply rne_mono _ _ _ _ hd hd'
      nlinarith [Nat.mul_le_mul_right (2 ^ (Double.scale n d 1074 0)) hle]
    rw [heq]
    exact Nat.mul_le_mul_right _ hmm
  · have hu := hup (by omega)
    have hpw : 2 ^ ((Double.round n' d').exp + 1) ≤ 2 ^ (Double.round n d).exp :=
      Nat.pow_le_pow_right (by norm_num) hlt
    calc (Double.round n d).mant * 2 ^ (Double.round n' d').exp
        ≤ 2 ^ 53 * 2 ^ (Double.round n' d').exp := Nat.mul_le_mul_right _ hu
      _ = 2 ^ 52 * 2 ^ ((Double.round n' d').exp + 1) := by rw [pow_succ]; ring
      _ ≤ 2 ^ 52 * 2 ^ (Double.round n d).exp := Nat.mul_le_mul_left _ hpw
      _ ≤ (Double.round n' d').mant * 2 ^ (Double.round n d).exp := Nat.mul_le_mul_right _ hm'

theorem toInt_mono (a b : Double) (h : Double.le a b) : a.toInt ≤ b.toInt := by
  unfold Double.le at h
  unfold Double.toInt
  have hA : 0 < 2 ^ a.exp := Nat.pow_pos (by norm_num)
  have hB : 0 < 2 ^ b.exp := Nat.pow_pos (by norm_num)
  rw [Nat.le_div_iff_mul_le hB]
  have h1 := Nat.div_mul_le_self a.mant (2 ^ a.exp)
  have h2 : a.mant / 2 ^ a.exp * 2 ^ b.exp * 2 ^ a.exp ≤ b.mant * 2 ^ a.exp := by
    calc a.mant / 2 ^ a.exp * 2 ^ b.exp * 2 ^ a.exp
        = a.mant / 2 ^ a.exp * 2 ^ a.exp * 2 ^ b.exp := by ring
      _ ≤ a.mant * 2 ^ b.exp := Nat.mul_le_mul_right _ h1
      _ ≤ b.mant * 2 ^ a.exp := h
  exact Nat.le_of_mul_le_mul_right h2 hA


theorem progress_eq (c t : Nat) :
    CopyFileWithProgress.progress c t = (Double.round ((Double.round c t).mant * 100)
      (2 ^ (Double.round c t).exp)).toInt := by
  simp [CopyFileWithProgress.progress, Double.div, Double.mul, Double.ofNat]

theorem div_found (c t : Nat) (hc : 0 < c) (ht : t < 2 ^ 31) : 2 ^ 52 * t ≤ c * 2 ^ 83 := by
  have h1 : 2 ^ 52 * t ≤ 2 ^ 52 * 2 ^ 31 := Nat.mul_le_mul_left _ (Nat.le_of_lt ht)
  have h2 : (2:Nat) ^ 52 * 2 ^ 31 = 1 * 2 ^ 83 := by norm_num
  have h3 : 1 * 2 ^ 83 ≤ c * 2 ^ 83 := Nat.mul_le_mul_right _ hc
  omega

theorem progress_mono (c c' t : Nat) (hc : 0 < c) (hcc : c ≤ c') (ht0 : 0 < t)
    (ht : t < 2 ^ 31) : CopyFileWithProgress.progress c t ≤ CopyFileWithProgress.progress c' t := by
  rw [progress_eq, progress_eq]
  have hx := round_mono c t c' t ht0 ht0 (Nat.mul_le_mul_right t hcc) 83 (by norm_num)
    (div_found c t hc ht)
  obtain ⟨_, hk, hm, _, _⟩ := round_spec c t ht0 83 (by norm_num) (div_found c t hc ht)
  apply toInt_mono
  have hpos : ∀ k : Nat, 0 < 2 ^ k := fun k => Nat.pow_pos (by norm_num)
  apply round_mono _ _ _ _ (hpos _) (hpos _) _ (Double.round c t).exp (by omega)
  · nlinarith [Nat.mul_le_mul_right (2 ^ (Double.round c t).exp) hm]
  · unfold Double.le at hx
    nlinarith [hx]

theorem round_self (t : Nat) (ht0 : 0 < t) : Double.round t t = ⟨2 ^ 52, 52⟩ := by
  have hp : 2 ^ 52 * t ≤ t * 2 ^ 52 := by rw [Nat.mul_comm]
  obtain ⟨hP, hk, _, hlow, _⟩ := round_spec t t ht0 52 (by norm_num) hp
  have hk2 : (Double.round t t).exp = 52 := by
    by_contra hne
    have hle : (2:Nat) ^ (Double.round t t).exp ≤ 2 ^ 51 :=
      Nat.pow_le_pow_right (by norm_num) (by omega)
    have h1 : t * 2 ^ (Double.round t t).exp ≤ t * 2 ^ 51 := Nat.mul_le_mul_left _ hle
    have h51 : (2:Nat) ^ 52 = 2 * 2 ^ 51 := by norm_num
    rw [h51] at hP
    have h2 : 0 < t * 2 ^ 51 := Nat.mul_pos ht0 (Nat.pow_pos (by norm_num))
    nlinarith
  have hm : (Double.round t t).mant = 2 ^ 52 := by
    simp only [Double.round] at hk2 ⊢
    rw [hk2, rne_exact _ _ ht0 (Nat.mul_mod_right _ _), Nat.mul_div_cancel_left _ ht0]
  cases hr : Double.round t t with
  | mk m e =>
    rw [hr] at hk2 hm
    simp only at hk2 hm
    rw [hk2, hm]

theorem progress_full (t : Nat) (ht0 : 0 < t) : CopyFileWithProgress.progress t t = 100 := by
  rw [progress_eq, round_self t ht0]
  decide


theorem progress_bounds (c t : Nat) (hc : 0 < c) (hct : c ≤ t) (ht : t < 2 ^ 31) :
    CopyFileWithProgress.progress c t ≤ c * 100 / t ∧ c * 100 / t ≤ CopyFileWithProgress.progress c t + 1 := by
  have ht0 : 0 < t := Nat.lt_of_lt_of_le hc hct
  rw [progress_eq]
  obtain ⟨hP1, hk1, hm1, _, _⟩ := round_spec c t ht0 83 (by norm_num) (div_found c t hc ht)
  have hposA : 0 < 2 ^ (Double.round c t).exp := Nat.pow_pos (by norm_num)
  have hfound2 : 2 ^ 52 * 2 ^ (Double.round c t).exp
      ≤ (Double.round c t).mant * 100 * 2 ^ (Double.round c t).exp := by
    nlinarith [Nat.mul_le_mul_right (2 ^ (Double.round c t).exp) hm1]
  obtain ⟨hP2, _, _, _, _⟩ := round_spec ((Double.round c t).mant * 100)
    (2 ^ (Double.round c t).exp) hposA (Double.round c t).exp (by omega) hfound2
  have hE1 : 2 * ((Double.round c t).mant * t) ≤ 2 * (c * 2 ^ (Double.round c t).exp) + t ∧
      2 * (c * 2 ^ (Double.round c t).exp) ≤ 2 * ((Double.round c t).mant * t) + t := by
    simp only [Double.round]
    exact rne_err _ _ ht0
  have hE2 := rne_err ((Double.round c t).mant * 100 *
      2 ^ (Double.round ((Double.round c t).mant * 100) (2 ^ (Double.round c t).exp)).exp)
    (2 ^ (Double.round c t).exp) hposA
  have hm2 : (Double.round ((Double.round c t).mant * 100) (2 ^ (Double.round c t).exp)).mant
      = roundNearestEven ((Double.round c t).mant * 100 *
          2 ^ (Double.round ((Double.round c t).mant * 100) (2 ^ (Double.round c t).exp)).exp)
        (2 ^ (Double.round c t).exp) := rfl
  rw [← hm2] at hE2
  unfold Double.toInt
  have hposB : 0 < 2 ^ (Double.round ((Double.round c t).mant * 100)
      (2 ^ (Double.round c t).exp)).exp := Nat.pow_pos (by norm_num)
  have hF1 := Nat.div_mul_le_self (c * 100) t
  have hF2 : c * 100 + 1 ≤ (c * 100 / t + 1) * t := by
    have := Nat.div_add_mod (c * 100) t
    have := Nat.mod_lt (c * 100) ht0
    nlinarith
  generalize (Double.round ((Double.round c t).mant * 100) (2 ^ (Double.round c t).exp)).mant
    = m2 at *
  generalize 2 ^ (Double.round ((Double.round c t).mant * 100)
    (2 ^ (Double.round c t).exp)).exp = B at *
  generalize (Double.round c t).mant = m1 at *
  generalize 2 ^ (Double.round c t).exp = A at *
  generalize c * 100 / t = F at *
  obtain ⟨hE1a, hE1b⟩ := hE1
  obtain ⟨hE2a, hE2b⟩ := hE2
  have h52 : (2:Nat) ^ 52 = 4503599627370496 := by norm_num
  have h31 : (2:Nat) ^ 31 = 2147483648 := by norm_num
  rw [h52] at hP1 hP2 hm1
  rw [h31] at ht
  -- A ≥ 2^52
  have hA : 4503599627370496 ≤ A := by
    have h1 : c * A ≤ t * A := Nat.mul_le_mul_right _ hct
    have h2 : 4503599627370496 * t ≤ A * t := by linarith
    exact Nat.le_of_mul_le_mul_right h2 ht0
  -- m1 ≤ A
  have hm1A : m1 ≤ A := by
    have h1 : c * A ≤ t * A := Nat.mul_le_mul_right _ hct
    have h2 : (2 * m1) * t ≤ (2 * A + 1) * t := by linarith
    have h3 := Nat.le_of_mul_le_mul_right h2 ht0
    omega
  -- 100 * B ≥ 2^52
  have hB : 4503599627370496 ≤ 100 * B := by
    have h1 : m1 * 100 * B ≤ A * 100 * B := by
      apply Nat.mul_le_mul_right; exact Nat.mul_le_mul_right _ hm1A
    have h2 : 4503599627370496 * A ≤ (100 * B) * A := by linarith
    exact Nat.le_of_mul_le_mul_right h2 hposA
  have hBt : t < B := by omega
  constructor
  · -- upper bound
    have hlt : m2 / B < F + 1 := by
      rw [Nat.div_lt_iff_lt_mul hposB]
      by_contra hcon
      have hcon2 : (F + 1) * B ≤ m2 := Nat.le_of_not_lt hcon
      have H1 := Nat.mul_le_mul_right t hE2a
      have H2 := Nat.mul_le_mul_left (100 * B) hE1a
      have H3 := Nat.mul_le_mul_left (2 * A * B) hF2
      have H4 := Nat.mul_le_mul_left (2 * A * t) hcon2
      have h100 : 100 * t < A := by omega
      have H5 : 100 * t * B < A * B := Nat.mul_lt_mul_of_pos_right h100 hposB
      have H6 : A * t < A * B := Nat.mul_lt_mul_of_pos_left hBt hposA
      linarith
    exact Nat.lt_succ_iff.mp hlt
  · -- lower bound
    rcases Nat.eq_zero_or_pos F with h0 | hpos
    · rw [h0]; exact Nat.zero_le _
    · have hge : F - 1 ≤ m2 / B := by
        rw [Nat.le_div_iff_mul_le hposB]
        by_contra hcon
        have hcon2 : m2 + 1 ≤ (F - 1) * B := Nat.lt_of_not_le hcon
        obtain ⟨G, rfl⟩ : ∃ G, F = G + 1 := ⟨F - 1, by omega⟩
        simp only [Nat.add_sub_cancel] at hcon2
        have H1 := Nat.mul_le_mul_right t hE2b
        have H2 := Nat.mul_le_mul_left (100 * B) hE1b
        have H3 := Nat.mul_le_mul_left (2 * A * B) hF1
        have H4 := Nat.mul_le_mul_left (2 * A * t) hcon2
        have h100 : 100 ≤ A := by omega
        have H5 : 100 * (B * t) ≤ A * (B * t) := Nat.mul_le_mul_right _ h100
        have H6 : 0 < A * t := Nat.mul_pos hposA ht0
        have H7 : 0 < A * (B * t) := Nat.mul_pos hposA (Nat.mul_pos hposB ht0)
        linarith
      exact Nat.sub_le_iff_le_add.mp hge

/-! ## CopyFileWithProgress: the positions sent to the progress bar -/

theorem positions_mem (total : Nat) (reads : List Nat) :
    ∀ (remaining copied p : Nat),
      p ∈ CopyFileWithProgress.positions total reads remaining copied →
      ∃ c, copied < c ∧ c ≤ copied + remaining ∧ p = CopyFileWithProgress.progress c total := by
  induction reads with
  | nil => intro remaining copied p h; simp [CopyFileWithProgress.positions] at h
  | cons r reads ih =>
    intro remaining copied p h
    simp only [CopyFileWithProgress.positions] at h
    split at h
    · rename_i hb
      rcases List.mem_cons.1 h with h | h
      · exact ⟨_, by omega, by omega, h⟩
      · obtain ⟨c, h1, h2, h3⟩ := ih _ _ _ h
        exact ⟨c, by omega, by omega, h3⟩
    · simp at h

theorem positions_pairwise (total : Nat) (ht0 : 0 < total) (ht : total < 2 ^ 31)
    (reads : List Nat) :
    ∀ (remaining copied : Nat), copied + remaining ≤ total →
      (CopyFileWithProgress.positions total reads remaining copied).Pairwise (· ≤ ·) := by
  induction reads with
  | nil => intro remaining copied _; simp [CopyFileWithProgress.positions]
  | cons r reads ih =>
    intro remaining copied hle
    simp only [CopyFileWithProgress.positions]
    split
    · rename_i hb
      rw [List.pairwise_cons]
      refine ⟨?_, ih _ _ (by omega)⟩
      intro p hp
      obtain ⟨c, h1, h2, rfl⟩ := positions_mem total reads _ _ p hp
      exact progress_mono _ _ _ (by omega) (by omega) ht0 ht
    · exact List.Pairwise.nil

theorem positions_done (total : Nat) (reads : List Nat) (copied : Nat) :
    CopyFileWithProgress.positions total reads 0 copied = [] := by
  cases reads with
  | nil => rfl
  | cons r reads => simp [CopyFileWithProgress.positions]

theorem positions_last (total : Nat) (reads : List Nat) :
    ∀ (remaining copied : Nat), (∀ r ∈ reads, 0 < r) → 0 < remaining →
      remaining ≤ (reads.map (fun r => min r 8192)).sum →
      (CopyFileWithProgress.positions total reads remaining copied).getLast?
        = some (CopyFileWithProgress.progress (copied + remaining) total) := by
  induction reads with
  | nil => intro remaining copied _ h1 h2; simp at h2; omega
  | cons r reads ih =>
    intro remaining copied hpos hrem hall
    have hr : 0 < r := hpos r (List.mem_cons_self _ _)
    have hb : min r (min 8192 remaining) > 0 := by omega
    simp only [List.map_cons, List.sum_cons] at hall
    simp only [CopyFileWithProgress.positions, hb, if_true]
    by_cases hz : remaining - min r (min 8192 remaining) = 0
    · rw [hz, positions_done]
      have : copied + min r (min 8192 remaining) = copied + remaining := by omega
      simp [this]
    · have hih := ih (remaining - min r (min 8192 remaining))
        (copied + min r (min 8192 remaining))
        (fun x hx => hpos x (List.mem_cons_of_mem _ hx)) (by omega) (by omega)
      have hsum : copied + min r (min 8192 remaining) + (remaining - min r (min 8192 remaining))
          = copied + remaining := by omega
      rw [hsum] at hih
      cases htail : CopyFileWithProgress.positions total reads
          (remaining - min r (min 8192 remaining)) (copied + min r (min 8192 remaining)) with
      | nil => rw [htail] at hih; simp at hih
      | cons y ys =>
        rw [htail] at hih
        rw [List.getLast?_cons_cons]
        exact hih

/-- C15 (amended): for every successful `CopyFileWithProgress` (the source
then has N bytes with 0 < N < 2^31), the positions sent to the progress bar
are 0 and then, after each chunk, the value of
`(int)(((double)copiedSize / totalSize) * 100)` in `double` arithmetic for the
number of bytes copied so far; each of these is floor(copiedSize * 100 / N) or
one less.  All positions lie in [0,100] and they form a non-decreasing
sequence; when the reads deliver all N bytes, the last position is 100. -/
theorem CopyFileWithProgress_progress_values (env : CopyEnv) (src dst : WStr)
    (bytes : List Nat) (hsrc : env.source = some bytes)
    (hok : (CopyFileWithProgress env src dst).retval = 0) :
    0 < bytes.length ∧ bytes.length < 2 ^ 31 ∧
    CopyFileWithProgress.sent env
      = 0 :: CopyFileWithProgress.positions bytes.length env.reads bytes.length 0 ∧
    (∀ p ∈ CopyFileWithProgress.positions bytes.length env.reads bytes.length 0,
      ∃ copied, 0 < copied ∧ copied ≤ bytes.length ∧
        p = CopyFileWithProgress.progress copied bytes.length ∧
        p ≤ copied * 100 / bytes.length ∧ copied * 100 / bytes.length ≤ p + 1) ∧
    (∀ p ∈ CopyFileWithProgress.sent env, 0 ≤ p ∧ p ≤ 100) ∧
    (CopyFileWithProgress.sent env).Pairwise (· ≤ ·) ∧
    ((∀ r ∈ env.reads, 0 < r) →
      bytes.length ≤ (env.reads.map (fun r => min r 8192)).sum →
      (CopyFileWithProgress.sent env).getLast? = some 100) := by
  have hd : DWORD_of_int (-1) ≠ 0 := by decide
  have hopen : env.destinationOpens = true := by
    cases h : env.destinationOpens with
    | true => rfl
    | false => simp [CopyFileWithProgress, hsrc, h, hd] at hok
  have hsize : ¬ ftell bytes.length ≤ 0 := by
    intro h
    simp [CopyFileWithProgress, hsrc, hopen, h, hd] at hok
  have e31 : (2:Nat) ^ 31 = 2147483648 := by norm_num
  have hlong : bytes.length < 2 ^ 31 := by
    by_contra hcon
    apply hsize
    rw [e31] at hcon
    simp [ftell, hcon]
  have hN : 0 < bytes.length := by
    by_contra hcon
    apply hsize
    have : bytes.length = 0 := by omega
    simp [ftell, this]
  have hft : (ftell bytes.length).toNat = bytes.length := by
    have h2 : bytes.length < 2147483648 := by rw [← e31]; exact hlong
    simp [ftell, h2]
  have hsent : CopyFileWithProgress.sent env
      = 0 :: CopyFileWithProgress.positions bytes.length env.reads bytes.length 0 := by
    simp only [CopyFileWithProgress.sent, hsrc, hopen, Bool.not_true, Bool.false_eq_true,
      if_false, hsize, hft]
  have hvals : ∀ p ∈ CopyFileWithProgress.positions bytes.length env.reads bytes.length 0,
      ∃ copied, 0 < copied ∧ copied ≤ bytes.length ∧
        p = CopyFileWithProgress.progress copied bytes.length ∧
        p ≤ copied * 100 / bytes.length ∧ copied * 100 / bytes.length ≤ p + 1 := by
    intro p hp
    obtain ⟨c, h1, h2, rfl⟩ := positions_mem _ _ _ _ p hp
    have hb := progress_bounds c bytes.length (by omega) (by omega) hlong
    exact ⟨c, by omega, by omega, rfl, hb.1, hb.2⟩
  refine ⟨hN, hlong, hsent, hvals, ?_, ?_, ?_⟩
  · intro p hp
    refine ⟨Nat.zero_le _, ?_⟩
    rw [hsent] at hp
    rcases List.mem_cons.1 hp with h | h
    · omega
    · obtain ⟨c, _, hc, _, hle, _⟩ := hvals p h
      have : c * 100 / bytes.length ≤ 100 :=
        Nat.div_le_of_le_mul (by nlinarith)
      omega
  · rw [hsent, List.pairwise_cons]
    exact ⟨fun _ _ => Nat.zero_le _,
      positions_pairwise _ hN hlong _ _ _ (by omega)⟩
  · intro hpos hall
    have hl := positions_last bytes.length env.reads bytes.length 0 hpos hN hall
    rw [hsent]
    cases htail : CopyFileWithProgress.positions bytes.length env.reads bytes.length 0 with
    | nil => rw [htail] at hl; simp at hl
    | cons y ys =>
      rw [htail] at hl
      rw [List.getLast?_cons_cons, hl, Nat.zero_add, progress_full _ hN]

/-- C15 (amended) on a source of ten bytes read as 4, 4 and 2 bytes: the
positions are 0, 40, 80 and 100. -/
theorem CopyFileWithProgress_progress_values_witness :
    (CopyFileWithProgress ⟨some [1, 2, 3, 4, 5, 6, 7, 8, 9, 10], true, [4, 4, 2]⟩
      (L "a.zip") (L "b.zip")).retval = 0 ∧
    CopyFileWithProgress.sent ⟨some [1, 2, 3, 4, 5, 6, 7, 8, 9, 10], true, [4, 4, 2]⟩
      = [0, 40, 80, 100] ∧
    (CopyFileWithProgress.sent
      ⟨some [1, 2, 3, 4, 5, 6, 7, 8, 9, 10], true, [4, 4, 2]⟩).Pairwise (· ≤ ·) ∧
    (CopyFileWithProgress.sent
      ⟨some [1, 2, 3, 4, 5, 6, 7, 8, 9, 10], true, [4, 4, 2]⟩).getLast? = some 100 :=
  ⟨by decide, by decide,
   (CopyFileWithProgress_progress_values
      ⟨some [1, 2, 3, 4, 5, 6, 7, 8, 9, 10], true, [4, 4, 2]⟩ (L "a.zip") (L "b.zip")
      [1, 2, 3, 4, 5, 6, 7, 8, 9, 10] rfl (by decide)).2.2.2.2.2.1,
   (CopyFileWithProgress_progress_values
      ⟨some [1, 2, 3, 4, 5, 6, 7, 8, 9, 10], true, [4, 4, 2]⟩ (L "a.zip") (L "b.zip")
      [1, 2, 3, 4, 5, 6, 7, 8, 9, 10] rfl (by decide)).2.2.2.2.2.2
      (by decide) (by decide)⟩

theorem positions_full_chunks (total : Nat) :
    ∀ (n remaining copied : Nat), n * 8192 ≤ remaining →
      CopyFileWithProgress.positions total (List.replicate n 8192) remaining copied
        = (List.range n).map
            (fun i => CopyFileWithProgress.progress (copied + (i + 1) * 8192) total) := by
  intro n
  induction n with
  | zero => intro remaining copied _; rfl
  | succ n ih =>
    intro remaining copied h
    have h1 : min 8192 (min 8192 remaining) = 8192 := by omega
    simp only [List.replicate_succ, CopyFileWithProgress.positions, h1]
    rw [ih _ _ (by omega), List.range_succ_eq_map]
    simp only [List.map_cons, List.map_map, gt_iff_lt, Nat.ofNat_pos, if_true, Nat.zero_add,
      Nat.one_mul]
    congr 1
    apply List.map_congr_left
    intro i _
    simp only [Function.comp]
    congr 1
    rw [Nat.succ_eq_add_one]
    ring

/-- C15 as stated fails: the position is not always floor(copiedBytes * 100 /
totalBytes).  For a source of 819200 bytes read in chunks of 8192 bytes, the
position sent after the 29th chunk (237568 bytes) is 28, the quotient rounded
to `double` lying below 0.29, where the floor is 29.  And the last position is
not always 100: when a read returns 0 before the end of the source (ten bytes,
four of them read), the call still returns 0 and the last position is 40. -/
theorem CopyFileWithProgress_progress_below_floor :
    CopyFileWithProgress.progress 237568 819200 = 28 ∧
    237568 * 100 / 819200 = 29 ∧
    (CopyFileWithProgress ⟨some [1, 2, 3, 4, 5, 6, 7, 8, 9, 10], true, [4]⟩
      (L "a.zip") (L "b.zip")).retval = 0 ∧
    CopyFileWithProgress.sent ⟨some [1, 2, 3, 4, 5, 6, 7, 8, 9, 10], true, [4]⟩ = [0, 40] ∧
    (CopyFileWithProgress.sent
      ⟨some (List.replicate 819200 0), true, List.replicate 100 8192⟩)[29]? = some 28 := by
  refine ⟨by decide, by decide, by decide, by decide, ?_⟩
  have h1 : ftell 819200 = 819200 := by decide
  have hsent : CopyFileWithProgress.sent
      ⟨some (List.replicate 819200 0), true, List.replicate 100 8192⟩
      = 0 :: CopyFileWithProgress.positions 819200 (List.replicate 100 8192) 819200 0 := by
    unfold CopyFileWithProgress.sent
    simp only [List.length_replicate, h1]
    rfl
  rw [hsent, positions_full_chunks 819200 100 819200 0 (by norm_num)]
  simp only [List.getElem?_cons_succ, List.getElem?_map,
    List.getElem?_range (by norm_num : 28 < 100), Option.map_some']
  decide

end Installer
